import Mathlib

/-!
# URL utilities of Lagrange (`src/gmutil.c`)

A shallow embedding of the URL decomposer (`init_Url`), the path cleaner
(`cleanUrlPath_String`), the host decoder (`punyDecodeHost_`), the reference
resolver (`absoluteUrl_String`), the host encoder (`punyEncodeUrlHost_String`),
the two strippers (`stripDefaultUrlPort_String`, `urlFragmentStripped_String`)
and the space encoder (`urlEncodeSpaces_String`), followed by theorems about
them.

Texts are lists of characters.  A range (`iRangecc`, a pair of pointers into a
text) is a pair of offsets into that text.  The functions of the library
`the_Foundation` that the source calls are either re-stated here after their
documented behaviour (splitting, comparing, the two regular expressions, whose
patterns are part of `gmutil.c`) or, where their result is not determined by
`gmutil.c` (Punycode, Unicode normalisation, percent-decoding, the test for an
absolute file path), taken as the fields of an environment `Env`.
-/

namespace Lagrange

/-! ## Ranges and texts -/

/-- A half-open span `[start, stop)` of a text, counted in characters from the
beginning of the text (`iRangecc`). -/
structure Range where
  start : Nat
  stop : Nat
deriving DecidableEq, Repr

/-- The null range (`iNullRange`, also what `iZap` leaves behind). -/
def iNullRange : Range := ⟨0, 0⟩

/-- Whether a range covers nothing (`isEmpty_Range`). -/
def isEmpty_Range (r : Range) : Bool := r.start == r.stop

/-- Number of characters a range covers (`size_Range`). -/
def size_Range (r : Range) : Nat := r.stop - r.start

/-- The characters of `text` that the range covers. -/
def Range.of (r : Range) (text : List Char) : List Char :=
  (text.drop r.start).take (r.stop - r.start)

/-- A component is defined when its range is not empty (`isDef_`). -/
def isDef_ (cc : Range) : Bool := !isEmpty_Range cc

/-- Characters of a string literal. -/
def cstr (s : String) : List Char := s.toList

/-! ## Comparisons of `the_Foundation` -/

/-- Whether the text begins with the given characters (`startsWith_Rangecc`). -/
def startsWith (d pre : List Char) : Bool := pre.isPrefixOf d

/-- Whether the text begins with the given characters, letter case ignored
(`startsWithCase_String`, `startsWithCase_Rangecc`). -/
def startsWithCase (d pre : List Char) : Bool :=
  (pre.map Char.toLower).isPrefixOf (d.map Char.toLower)

/-- Whether the text ends with the given characters (`endsWith_Rangecc`,
`endsWith_String`). -/
def endsWith (d suf : List Char) : Bool := suf.reverse.isPrefixOf d.reverse

/-- Equality of a range's text and a C string (`equal_Rangecc`). -/
def equal_Rangecc (d s : List Char) : Bool := d == s

/-- Equality of a range's text and a C string, letter case ignored
(`equalCase_Rangecc`). -/
def equalCase_Rangecc (d s : List Char) : Bool :=
  d.map Char.toLower == s.map Char.toLower

/-- The pieces that repeated calls of `nextSplit_Rangecc` hand out once the
cursor has been placed on the first piece: a piece ends at the next separator
or at the end of the text, and the iteration stops when nothing follows the
separator that ended the last piece. -/
def splitFrom (sep : Char) : List Char → List (List Char)
  | [] => [[]]
  | c :: r =>
    if c = sep then [] :: (if r = [] then [] else splitFrom sep r)
    else
      match splitFrom sep r with
      | [] => [[c]]
      | s :: ss => (c :: s) :: ss

/-- All pieces handed out by the loop `while (nextSplit_Rangecc(str, sep, &seg))`
started with a null cursor: nothing for a text shorter than the separator, and
a separator at the very beginning of the text is skipped. -/
def nextSplit_Rangecc (str : List Char) (sep : Char) : List (List Char) :=
  match str with
  | [] => []
  | c :: r => if c = sep then splitFrom sep r else splitFrom sep (c :: r)

/-- Offset of the last occurrence of a character, `none` for `iInvalidPos`
(`lastIndexOfCStr_Rangecc` with a separator of one character). -/
def lastIndexOf (c : Char) : List Char → Option Nat
  | [] => none
  | x :: r =>
    match lastIndexOf c r with
    | some i => some (i + 1)
    | none => if x = c then some 0 else none

/-- Removal of `n` characters at offset `pos` (`remove_Block`). -/
def remove_Block (d : List Char) (pos n : Nat) : List Char :=
  d.take pos ++ d.drop (pos + n)

/-- Insertion of characters at offset `pos` (`insertData_Block`). -/
def insertData_Block (d : List Char) (pos : Nat) (data : List Char) : List Char :=
  d.take pos ++ data ++ d.drop pos

/-- Shortening of a buffer to at most `size` characters (`truncate_Block`, which
takes the smaller of the current size and the unsigned `size`).  The size is a
pointer difference handed over as an unsigned number: a negative difference
becomes a number above every buffer length, so the buffer stays whole. -/
def truncate_Block (d : List Char) (size : Int) : List Char :=
  if size < 0 then d else d.take size.toNat

/-! ## The two regular expressions of `init_Url` -/

/-- Class `[^:/?#]` of the scheme. -/
def isSchemeCh (c : Char) : Bool := !(c == ':' || c == '/' || c == '?' || c == '#')

/-- Class `[^/?#]` of the authority. -/
def isAuthCh (c : Char) : Bool := !(c == '/' || c == '?' || c == '#')

/-- Class `[^?#]` of the path. -/
def isPathCh (c : Char) : Bool := !(c == '?' || c == '#')

/-- Class `[^#]` of the query. -/
def isQueryCh (c : Char) : Bool := !(c == '#')

/-- What `.` matches: every character but the line feed. -/
def isDotCh (c : Char) : Bool := !(c == '\n')

/-- Captured ranges 2, 4, 5, 6 and 8 of `urlPattern_`. -/
structure UrlMatch where
  g2 : Range
  g4 : Range
  g5 : Range
  g6 : Range
  g8 : Range
deriving DecidableEq, Repr

/-- What group 1, `(([^:/?#]+):)?`, takes at the head of a text: a run of scheme
characters that is as long as possible and not empty, and the colon after it;
nothing when no colon follows the run (a shorter run is followed by a scheme
character, never by a colon). -/
def schemeGroupLen (s : List Char) : Nat :=
  let n := (s.takeWhile isSchemeCh).length
  if n != 0 && (s.dropWhile isSchemeCh).head? == some ':' then n + 1 else 0

/-- What group 3, `(//([^/?#]*))?`, takes at the head of a text. -/
def authGroupLen (s : List Char) : Nat :=
  if startsWith s (cstr "//") then 2 + ((s.drop 2).takeWhile isAuthCh).length else 0

/-- What group 5, `([^?#]*)`, takes at the head of a text. -/
def pathGroupLen (s : List Char) : Nat := (s.takeWhile isPathCh).length

/-- What group 6, `(\?([^#]*))?`, takes at the head of a text. -/
def queryGroupLen (s : List Char) : Nat :=
  match s with
  | '?' :: r => 1 + (r.takeWhile isQueryCh).length
  | _ => 0

/-- What group 8, `(#(.*))?`, takes at the head of a text. -/
def fragmentGroupLen (s : List Char) : Nat :=
  match s with
  | '#' :: r => 1 + (r.takeWhile isDotCh).length
  | _ => 0

/-- The match of
`^(([^:/?#]+):)?(//([^/?#]*))?([^?#]*)(\?([^#]*))?(#(.*))?`
against a text.  Every group is optional or may match nothing, so the match
always succeeds, and each group takes what it can at the place where the one
before it stopped.  A group that did not take part is reported as the null
range. -/
def urlPattern_ (text : List Char) : UrlMatch :=
  let p1 := schemeGroupLen text
  let p3 := p1 + authGroupLen (text.drop p1)
  let p5 := p3 + pathGroupLen (text.drop p3)
  let p6 := p5 + queryGroupLen (text.drop p5)
  let p8 := p6 + fragmentGroupLen (text.drop p6)
  { g2 := if p1 != 0 then ⟨0, p1 - 1⟩ else iNullRange
    g4 := if p3 != p1 then ⟨p1 + 2, p3⟩ else iNullRange
    g5 := ⟨p3, p5⟩
    g6 := if p6 != p5 then ⟨p5, p6⟩ else iNullRange
    g8 := if p8 != p6 then ⟨p6, p8⟩ else iNullRange }

/-- Class `[^:\[\]]` of a plain host. -/
def isHostCh (c : Char) : Bool := !(c == ':' || c == '[' || c == ']')

/-- Class `[0-9a-f:]` of a bracketed address, letter case ignored. -/
def isIp6Ch (c : Char) : Bool :=
  ('0' ≤ c && c ≤ '9') || ('a' ≤ c && c ≤ 'f') || ('A' ≤ c && c ≤ 'F') || c == ':'

/-- Class `[0-9]` of the port. -/
def isPortCh (c : Char) : Bool := '0' ≤ c && c ≤ '9'

/-- Length of group 3, `([^:\[\]]+)|(\[[0-9a-f:]+\])`, matched at the head of
the text; `none` when neither alternative matches there. -/
def authHostAt (s : List Char) : Option Nat :=
  let n := (s.takeWhile isHostCh).length
  if n != 0 then some n
  else
    match s with
    | '[' :: r =>
      let m := (r.takeWhile isIp6Ch).length
      if m != 0 && (r.drop m).head? == some ']' then some (m + 2) else none
    | _ => none

/-- Number of digits of group 7 in `(:([0-9]+))?` matched at the head of the
text; `0` when the group does not take part. -/
def authPortAt (s : List Char) : Nat :=
  match s with
  | ':' :: r => (r.takeWhile isPortCh).length
  | _ => 0

/-- Group 3 and group 7 of a match of `authPattern_` that begins at offset `off`
of the subject, `s` being the subject from that offset on.  The user part
`(([^@]+)@)?` is tried first, and given up when no host follows it. -/
def authMatchAt (s : List Char) (off : Nat) : Option (Range × Range) :=
  let u := (s.takeWhile (fun c => !(c == '@'))).length
  let hostOff : Option (Nat × Nat) :=
    match (if u != 0 && (s.drop u).head? == some '@'
           then (authHostAt (s.drop (u + 1))).map (fun h => (u + 1, h)) else none) with
    | some r => some r
    | none => (authHostAt s).map (fun h => (0, h))
  hostOff.map fun (o, h) =>
    let k := authPortAt (s.drop (o + h))
    (⟨off + o, off + o + h⟩,
     if k != 0 then ⟨off + o + h + 1, off + o + h + 1 + k⟩ else iNullRange)

/-- The first match of the unanchored
`(([^@]+)@)?(([^:\[\]]+)|(\[[0-9a-f:]+\]))(:([0-9]+))?`
in a subject: the leftmost offset at which a match exists wins. -/
def authSearch : List Char → Nat → Option (Range × Range)
  | [], _ => none
  | c :: r, off =>
    match authMatchAt (c :: r) off with
    | some m => some m
    | none => authSearch r (off + 1)

/-- Groups 3 and 7 of `authPattern_` matched against the range `host` of `text`
(`matchRange_RegExp`), as ranges of `text`. -/
def authPattern_ (text : List Char) (host : Range) : Option (Range × Range) :=
  authSearch (host.of text) host.start

/-! ## `init_Url` -/

/-- The six component ranges of a URL (`iUrl`). -/
structure iUrl where
  scheme : Range
  host : Range
  port : Range
  path : Range
  query : Range
  fragment : Range
deriving DecidableEq, Repr

/-- Decomposition of a URL text (`init_Url`). -/
def init_Url (text : List Char) : iUrl :=
  if startsWithCase text (cstr "file://") then
    { scheme := ⟨0, 4⟩, host := iNullRange, port := iNullRange,
      path := ⟨7, text.length⟩, query := iNullRange, fragment := iNullRange }
  else
    let m := urlPattern_ text
    let auth := authPattern_ text m.g4
    { scheme := m.g2
      host := match auth with
        | some (h, _) => h
        | none => m.g4
      port := match auth with
        | some (_, p) => p
        | none => ⟨m.g4.stop, m.g4.stop⟩
      path := m.g5
      query := m.g6
      fragment := m.g8 }

/-! ## Library functions left open -/

/-- What `gmutil.c` takes from `the_Foundation` without fixing its result. -/
structure Env where
  /-- Decoding of a Punycode label, empty on failure (`punyDecode_Rangecc`). -/
  punyDecode_Rangecc : List Char → List Char
  /-- Encoding of a label as Punycode (`punyEncode_Rangecc`). -/
  punyEncode_Rangecc : List Char → List Char
  /-- Unicode normalisation of a text (`normalize_String`). -/
  normalize_String : List Char → List Char
  /-- Percent-decoding of a text (`urlDecode_String`). -/
  urlDecode_String : List Char → List Char
  /-- Whether a file path is absolute (`isAbsolute_Path`). -/
  isAbsolute_Path : List Char → Bool
  /-- How many bytes directly below the storage of an empty string differ from
  `'/'`: a backward scan that leaves the storage stops at the byte below them. -/
  slashBelow : Nat

/-! ## Path helpers -/

/-- The path without its last segment (`dirPath_`); a path without `'/'` is
returned whole. -/
def dirPath_ (path : List Char) : List Char :=
  match lastIndexOf '/' path with
  | none => path
  | some pos => path.take pos

/-- The loop `do seg.start--; while (*seg.start != '/' && seg.start != start)`
of `prevPathSeg_` for a cursor that enters a buffer of at least one character:
`rev` lists the characters below the cursor, nearest first, so the character
read first stands at offset `rev.length - 1`.  The result is the offset at which
the cursor stops. -/
def scanBack : List Char → Nat
  | [] => 0
  | c :: rest => if c == '/' || rest.length == 0 then rest.length else scanBack rest

/-- Start of the last path segment of the buffer (`prevPathSeg_(end, start)`),
as an offset from the first character of the buffer.  The cursor is moved down
before anything is tested: with an empty buffer it leaves the buffer at once,
never meets `start` again and stops at the first `'/'` it finds in the memory
below, which gives a negative offset. -/
def prevPathSeg_ (E : Env) (buf : List Char) : Int :=
  match buf with
  | [] => -((E.slashBelow : Int) + 1)
  | _ :: _ => (scanBack buf.reverse : Int)

/-- One round of the loop of `cleanUrlPath_String`: `absPath` tells whether the
original path starts with a slash, `clean` is the buffer, `seg` the segment. -/
def cleanStep (E : Env) (absPath : Bool) (clean seg : List Char) : List Char :=
  if equal_Rangecc seg (cstr "..") then
    truncate_Block clean (prevPathSeg_ E clean)
  else if equal_Rangecc seg (cstr ".") then
    clean
  else if !seg.isEmpty then
    (if !clean.isEmpty || absPath then clean ++ cstr "/" else clean) ++ seg
  else
    clean

/-- The buffer `clean` that `cleanUrlPath_String` builds from a path. -/
def cleanPath (E : Env) (path : List Char) : List Char :=
  let clean := (nextSplit_Rangecc path '/').foldl (cleanStep E (startsWith path (cstr "/"))) []
  if endsWith path (cstr "/") then clean ++ cstr "/" else clean

/-- Removal of the dot segments of the path of a URL text
(`cleanUrlPath_String`): the path range is replaced by the cleaned path when
the two differ. -/
def cleanUrlPath_String (E : Env) (d : List Char) : List Char :=
  let parts := init_Url d
  let clean := cleanPath E (parts.path.of d)
  if parts.path.of d != clean then
    let pos := parts.path.start
    insertData_Block (remove_Block d pos (size_Range parts.path)) pos clean
  else d

/-- Whether a path is absolute once percent-decoded (`isAbsolutePath_`). -/
def isAbsolutePath_ (E : Env) (path : List Char) : Bool :=
  E.isAbsolute_Path (E.urlDecode_String path)

/-! ## Host decoding -/

/-- One round of the loop of `punyDecodeHost_`. -/
def punyDecodeStep (E : Env) (result label : List Char) : List Char :=
  let result := if !result.isEmpty then result ++ ['.'] else result
  if startsWithCase label (cstr "xn--") && !(E.punyDecode_Rangecc (label.drop 4)).isEmpty then
    result ++ E.punyDecode_Rangecc (label.drop 4)
  else
    result ++ label

/-- Decoding of the Punycode labels of a host (`punyDecodeHost_`). -/
def punyDecodeHost_ (E : Env) (host : List Char) : List Char :=
  (nextSplit_Rangecc host '.').foldl (punyDecodeStep E) []

/-! ## `absoluteUrl_String` -/

/-- Whether the scheme is one of those left unparsed by `absoluteUrl_String`. -/
def isOpaqueScheme (scheme : List Char) : Bool :=
  equalCase_Rangecc scheme (cstr "data") || equalCase_Rangecc scheme (cstr "about") ||
    equalCase_Rangecc scheme (cstr "mailto")

/-- The scheme chosen by `absoluteUrl_String`. -/
def resultScheme (d urlMaybeRelative : List Char) : List Char :=
  let orig := init_Url d
  let rel := init_Url urlMaybeRelative
  let isRelative := !isDef_ rel.host
  if isDef_ rel.scheme then rel.scheme.of urlMaybeRelative
  else if isRelative && isDef_ orig.scheme then orig.scheme.of d
  else cstr "gemini"

/-- The URL text that provides host and port (`selHost`): the reference when
it defines a host, the base otherwise. -/
def authoritySource (d urlMaybeRelative : List Char) : List Char :=
  if isDef_ (init_Url urlMaybeRelative).host then urlMaybeRelative else d

/-- The authority written by `absoluteUrl_String`: the decoded host of the
authority source, and its port unless that is empty or the default port of the
gemini scheme. -/
def resultAuthority (E : Env) (d urlMaybeRelative : List Char) : List Char :=
  let scheme := resultScheme d urlMaybeRelative
  let selText := authoritySource d urlMaybeRelative
  let selHost := init_Url selText
  let absolute := punyDecodeHost_ E (selHost.host.of selText)
  if !isEmpty_Range selHost.port &&
      (!equalCase_Rangecc scheme (cstr "gemini") ||
        !equal_Rangecc (selHost.port.of selText) (cstr "1965")) then
    absolute ++ cstr ":" ++ selHost.port.of selText
  else absolute

/-- The text `absolute` that `absoluteUrl_String` has put together before it
normalises it. -/
def assembleUrl (E : Env) (d urlMaybeRelative : List Char) : List Char :=
  let orig := init_Url d
  let rel := init_Url urlMaybeRelative
  let absolute := resultScheme d urlMaybeRelative ++ cstr "://"
  let absolute := absolute ++ resultAuthority E d urlMaybeRelative
  let absolute :=
    if isDef_ rel.scheme || isDef_ rel.host || isAbsolutePath_ E (rel.path.of urlMaybeRelative) then
      (if !startsWith (rel.path.of urlMaybeRelative) (cstr "/") then absolute ++ cstr "/"
        else absolute) ++ rel.path.of urlMaybeRelative
    else if isDef_ rel.path then
      let absolute :=
        if !endsWith (orig.path.of d) (cstr "/") then absolute ++ dirPath_ (orig.path.of d)
        else absolute ++ orig.path.of d
      (if !endsWith absolute (cstr "/") then absolute ++ cstr "/" else absolute) ++
        rel.path.of urlMaybeRelative
    else if isDef_ rel.query then
      absolute ++ orig.path.of d
    else absolute
  absolute ++ rel.query.of urlMaybeRelative ++ rel.fragment.of urlMaybeRelative

/-- Resolution of a reference against a base URL (`absoluteUrl_String`). -/
def absoluteUrl_String (E : Env) (d urlMaybeRelative : List Char) : List Char :=
  let rel := init_Url urlMaybeRelative
  if isOpaqueScheme (rel.scheme.of urlMaybeRelative) then urlMaybeRelative
  else cleanUrlPath_String E (E.normalize_String (assembleUrl E d urlMaybeRelative))

/-! ## `stripDefaultUrlPort_String` and `urlFragmentStripped_String` -/

/-- Removal of the default port of the gemini scheme
(`stripDefaultUrlPort_String`): when the scheme is `gemini`, letter case
ignored, and the port is `1965`, the port and the character before it are
removed.  The offset `parts.port.start - 1` is a pointer difference in the
source; a port that equals `1965` is a group of `authPattern_` and never begins
the text. -/
def stripDefaultUrlPort_String (d : List Char) : List Char :=
  let parts := init_Url d
  if equalCase_Rangecc (parts.scheme.of d) (cstr "gemini") &&
      equal_Rangecc (parts.port.of d) (cstr "1965") then
    remove_Block d (parts.port.start - 1) (size_Range parts.port + 1)
  else d

/-- Offset of the first occurrence of a character, `none` for `iInvalidPos`
(`indexOf_String`). -/
def indexOf_String : List Char → Char → Option Nat
  | [], _ => none
  | x :: r, ch => if x = ch then some 0 else (indexOf_String r ch).map (fun i => i + 1)

/-- The text without its fragment (`urlFragmentStripped_String`): what stands
before the first `#`, or the text itself. -/
def urlFragmentStripped_String (d : List Char) : List Char :=
  match indexOf_String d '#' with
  | some fragPos => d.take fragPos
  | none => d

/-! ## Host encoding -/

/-- Whether the Punycode `d` of a label is the label itself followed by a
hyphen (`equalPuny_`). -/
def equalPuny_ (d orig : List Char) : Bool :=
  if !endsWith d (cstr "-") then false
  else if d.length != orig.length + 1 then false
  else d.take orig.length == orig

/-- One round of the loop of `punyEncodeUrlHost_String`; the state is the text
`encoded` and the flag `isFirst`. -/
def punyEncodeStep (E : Env) (st : List Char × Bool) (label : List Char) : List Char × Bool :=
  let encoded := if !st.2 then st.1 ++ ['.'] else st.1
  let puny := E.punyEncode_Rangecc label
  if !puny.isEmpty && !equalPuny_ puny label then (encoded ++ cstr "xn--" ++ puny, false)
  else (encoded ++ label, false)

/-- Encoding of the host of a URL text as Punycode, label by label
(`punyEncodeUrlHost_String`).  The text before the host is the range from
`url.scheme.start` to `url.host.start`; the source expects an absolute URL, whose
scheme begins the text. -/
def punyEncodeUrlHost_String (E : Env) (d : List Char) : List Char :=
  let url := init_Url d
  if isEmpty_Range url.host then d
  else
    let encoded := Range.of ⟨url.scheme.start, url.host.start⟩ d
    let encoded :=
      ((nextSplit_Rangecc (url.host.of d) '.').foldl (punyEncodeStep E) (encoded, true)).1
    encoded ++ d.drop url.host.stop

/-! ## `urlEncodeSpaces_String` -/

/-- One round of the loop of `urlEncodeSpaces_String`: `none` when the text has
no space and the loop breaks, otherwise the text in which the first space is
removed and `%20` is put in its place.  The source looks for the string `" "` of
one character (`indexOfCStr_String`). -/
def urlEncodeSpaces_round (d : List Char) : Option (List Char) :=
  match indexOf_String d ' ' with
  | none => none
  | some pos => some (insertData_Block (remove_Block d pos 1) pos (cstr "%20"))

/-- The loop `for (;;)` of `urlEncodeSpaces_String`, run for at most `fuel`
rounds: the text when the loop breaks, `none` when the rounds are used up before
that. -/
def urlEncodeSpaces_String : Nat → List Char → Option (List Char)
  | 0, _ => none
  | fuel + 1, d =>
    match urlEncodeSpaces_round d with
    | none => some d
    | some d2 => urlEncodeSpaces_String fuel d2

/-! ## Environments to compute with -/

/-- An environment in which Punycode decoding always fails, normalisation and
percent-decoding change nothing, and a path is absolute when it starts with a
slash. -/
def plainEnv : Env where
  punyDecode_Rangecc := fun _ => []
  punyEncode_Rangecc := fun _ => []
  normalize_String := fun t => t
  urlDecode_String := fun t => t
  isAbsolute_Path := fun t => startsWith t (cstr "/")
  slashBelow := 0

/-- An environment whose codec knows a few labels of Punycode (RFC 3492): a
label of ASCII letters, digits and hyphens is encoded as itself followed by the
delimiter `-`, `münchen` as `mnchen-3ya` and `bücher` as `bcher-kva`; the
encoder gives nothing for any other label, and the decoder inverts the two
entries and fails elsewhere.  The rest is as in `plainEnv`. -/
def tableEnv : Env where
  punyDecode_Rangecc := fun p =>
    if p = cstr "mnchen-3ya" then cstr "münchen"
    else if p = cstr "bcher-kva" then cstr "bücher"
    else []
  punyEncode_Rangecc := fun l =>
    if l = cstr "münchen" then cstr "mnchen-3ya"
    else if l = cstr "bücher" then cstr "bcher-kva"
    else if !l.isEmpty && l.all (fun c => c.isAlphanum || c == '-') then l ++ ['-']
    else []
  normalize_String := fun t => t
  urlDecode_String := fun t => t
  isAbsolute_Path := fun t => startsWith t (cstr "/")
  slashBelow := 0

/-! ## Definitions used in the proofs -/

/-- Offset at which group 5 of `urlPattern_` begins. -/
def pathOffset (d : List Char) : Nat :=
  schemeGroupLen d + authGroupLen (d.drop (schemeGroupLen d))

/-- Offset at which group 5 of `urlPattern_` stops and group 6 begins. -/
def queryOffset (d : List Char) : Nat :=
  pathOffset d + pathGroupLen (d.drop (pathOffset d))

/-- Offset at which group 6 of `urlPattern_` stops and group 8 begins. -/
def fragmentOffset (d : List Char) : Nat :=
  queryOffset d + queryGroupLen (d.drop (queryOffset d))

/-- Offset at which group 8 of `urlPattern_` stops. -/
def matchEnd (d : List Char) : Nat :=
  fragmentOffset d + fragmentGroupLen (d.drop (fragmentOffset d))

/-- The segments written so far, each after a slash. -/
def renderTail (segs : List (List Char)) : List Char :=
  (segs.map (fun s => '/' :: s)).flatten

/-- The buffer that holds the given segments: every segment follows a slash,
except the first one of a path that does not start with a slash. -/
def render (absPath : Bool) (segs : List (List Char)) : List Char :=
  match absPath, segs with
  | true, ss => renderTail ss
  | false, [] => []
  | false, s :: ss => s ++ renderTail ss

/-- A segment that the cleaner writes: not empty, without slash, no dot segment. -/
def GoodSeg (s : List Char) : Prop :=
  s ≠ [] ∧ '/' ∉ s ∧ s ≠ cstr "." ∧ s ≠ cstr ".."

/-- Effect of one segment on the list of segments held by the buffer. -/
def stackStep (st : List (List Char)) (seg : List Char) : List (List Char) :=
  if seg = cstr ".." then st.dropLast
  else if seg = cstr "." then st
  else if seg ≠ [] then st ++ [seg]
  else st

/-- The segments kept by the cleaner for a path. -/
def keptSegs (path : List Char) : List (List Char) :=
  (nextSplit_Rangecc path '/').foldl stackStep []

/-- A plain host name: not empty, and without any of the characters `@`, `:`,
`[`, `]`, `/`, `?` and `#`. -/
def isPlainHost (h : List Char) : Bool :=
  !h.isEmpty && h.all (fun c => isHostCh c && isAuthCh c && !(c == '@'))

/-- A bracketed address: `[`, one or more of the characters `0-9a-fA-F:`, and
`]`. -/
def isBracketHost (h : List Char) : Bool :=
  match h with
  | '[' :: r => !(r.takeWhile isIp6Ch).isEmpty && r.dropWhile isIp6Ch == [']']
  | _ => false

/-- The six ranges of a decomposition in the order scheme, host, port, path,
query, fragment. -/
def spans (u : iUrl) : List Range :=
  [u.scheme, u.host, u.port, u.path, u.query, u.fragment]

/-- What `punyDecodeHost_` writes for one label. -/
def punyDecodeLabel (E : Env) (label : List Char) : List Char :=
  if startsWithCase label (cstr "xn--") && !(E.punyDecode_Rangecc (label.drop 4)).isEmpty then
    E.punyDecode_Rangecc (label.drop 4)
  else label

/-- What `punyEncodeUrlHost_String` writes for one label. -/
def punyEncodeLabel (E : Env) (label : List Char) : List Char :=
  if !(E.punyEncode_Rangecc label).isEmpty && !equalPuny_ (E.punyEncode_Rangecc label) label then
    cstr "xn--" ++ E.punyEncode_Rangecc label
  else label

/-- The labels of a host: the pieces between its dots, empty ones included. -/
def hostLabels : List Char → List (List Char)
  | [] => [[]]
  | c :: r =>
    if c = '.' then [] :: hostLabels r
    else
      match hostLabels r with
      | [] => [[c]]
      | s :: ss => (c :: s) :: ss

/-- Labels put together again, with a dot between neighbours. -/
def joinLabels : List (List Char) → List Char
  | [] => []
  | [l] => l
  | l :: m :: ls => l ++ '.' :: joinLabels (m :: ls)

/-- Number of dots of a host. -/
def dotCount (h : List Char) : Nat := h.count '.'

/-- In the words of the specification: the text with every space replaced by
`%20` and every other character kept in its place. -/
def spacesReplaced : List Char → List Char
  | [] => []
  | c :: r => (if c = ' ' then cstr "%20" else [c]) ++ spacesReplaced r

/-! # Lemmas -/

/-! ## Lemmas on lists -/

theorem takeWhile_append_stop (p : Char → Bool) (S R : List Char)
    (hS : ∀ c ∈ S, p c = true) (hR : ∀ c, R.head? = some c → p c = false) :
    (S ++ R).takeWhile p = S := by
  induction S with
  | nil =>
    cases R with
    | nil => rfl
    | cons c r => simp [List.takeWhile_cons, hR c rfl]
  | cons a S ih =>
    have ha : p a = true := hS a (List.mem_cons_self _ _)
    simp only [List.cons_append, List.takeWhile_cons, ha, if_true]
    rw [ih (fun c hc => hS c (List.mem_cons_of_mem _ hc))]

theorem dropWhile_append_stop (p : Char → Bool) (S R : List Char)
    (hS : ∀ c ∈ S, p c = true) (hR : ∀ c, R.head? = some c → p c = false) :
    (S ++ R).dropWhile p = R := by
  induction S with
  | nil =>
    cases R with
    | nil => rfl
    | cons c r => simp [List.dropWhile_cons, hR c rfl]
  | cons a S ih =>
    have ha : p a = true := hS a (List.mem_cons_self _ _)
    simp only [List.cons_append, List.dropWhile_cons, ha, if_true]
    rw [ih (fun c hc => hS c (List.mem_cons_of_mem _ hc))]

theorem head_dropWhile_stop (p : Char → Bool) (l : List Char) :
    ∀ c, (l.dropWhile p).head? = some c → p c = false := by
  induction l with
  | nil => intro c h; simp at h
  | cons a l ih =>
    intro c h
    by_cases ha : p a = true
    · simp only [List.dropWhile_cons, ha, if_true] at h
      exact ih c h
    · simp only [List.dropWhile_cons, ha] at h
      simp at h
      subst h
      simpa using ha

theorem drop_length_takeWhile (p : Char → Bool) (l : List Char) :
    l.drop (l.takeWhile p).length = l.dropWhile p := by
  induction l with
  | nil => rfl
  | cons a l ih =>
    by_cases ha : p a = true
    · simp [List.takeWhile_cons, List.dropWhile_cons, ha, ih]
    · simp [List.takeWhile_cons, List.dropWhile_cons, ha]

theorem take_length_takeWhile (p : Char → Bool) (l : List Char) :
    l.take (l.takeWhile p).length = l.takeWhile p := by
  induction l with
  | nil => rfl
  | cons a l ih =>
    by_cases ha : p a = true
    · simp [List.takeWhile_cons, ha, ih]
    · simp [List.takeWhile_cons, ha]

theorem length_takeWhile_le (p : Char → Bool) (l : List Char) :
    (l.takeWhile p).length ≤ l.length := by
  induction l with
  | nil => simp
  | cons a l ih =>
    by_cases ha : p a = true
    · simp [List.takeWhile_cons, ha, ih]
    · simp [List.takeWhile_cons, ha]

/-! ## Lemmas on the groups of `urlPattern_` -/

theorem schemeGroupLen_le (s : List Char) : schemeGroupLen s ≤ s.length := by
  unfold schemeGroupLen
  simp only []
  split
  · rename_i h
    simp only [Bool.and_eq_true, beq_iff_eq] at h
    have h2 := h.2
    rw [← drop_length_takeWhile] at h2
    have : (s.takeWhile isSchemeCh).length < s.length := by
      by_contra hc
      rw [List.drop_eq_nil_of_le (by omega)] at h2
      simp at h2
    omega
  · omega

theorem startsWith_slashes (s : List Char) :
    startsWith s (cstr "//") = true ↔ ∃ r, s = '/' :: '/' :: r := by
  have e : cstr "//" = ['/', '/'] := rfl
  rw [startsWith, e]
  constructor
  · intro h
    rcases s with _ | ⟨a, _ | ⟨b, r⟩⟩
    · simp [List.isPrefixOf] at h
    · simp [List.isPrefixOf] at h
    · simp only [List.isPrefixOf, Bool.and_eq_true, beq_iff_eq, Bool.and_true] at h
      obtain ⟨h1, h2⟩ := h
      subst h1 h2
      exact ⟨r, rfl⟩
  · rintro ⟨r, rfl⟩
    simp [List.isPrefixOf]

theorem authGroupLen_le (s : List Char) : authGroupLen s ≤ s.length := by
  unfold authGroupLen
  split
  · rename_i h
    obtain ⟨r, rfl⟩ := (startsWith_slashes s).1 h
    have := length_takeWhile_le isAuthCh r
    simp only [List.drop_succ_cons, List.drop_zero, List.length_cons]
    omega
  · omega

theorem pathGroupLen_le (s : List Char) : pathGroupLen s ≤ s.length :=
  length_takeWhile_le _ _

theorem pathOffset_le (d : List Char) : pathOffset d ≤ d.length := by
  unfold pathOffset
  have h1 := schemeGroupLen_le d
  have h2 := authGroupLen_le (d.drop (schemeGroupLen d))
  simp only [List.length_drop] at h2
  omega

theorem startsWithCase_length (d pre : List Char) (h : startsWithCase d pre = true) :
    pre.length ≤ d.length := by
  unfold startsWithCase at h
  have := (List.isPrefixOf_iff_prefix.1 h).length_le
  simpa using this

theorem init_Url_path_file (d : List Char) (h : startsWithCase d (cstr "file://") = true) :
    (init_Url d).path = ⟨7, d.length⟩ := by
  unfold init_Url
  rw [if_pos h]

theorem init_Url_path_nonfile (d : List Char) (h : startsWithCase d (cstr "file://") = false) :
    (init_Url d).path = ⟨pathOffset d, pathOffset d + pathGroupLen (d.drop (pathOffset d))⟩ := by
  unfold init_Url
  rw [if_neg (by rw [h]; exact Bool.false_ne_true)]
  rfl

theorem init_Url_path_bounds (d : List Char) :
    (init_Url d).path.start ≤ (init_Url d).path.stop ∧ (init_Url d).path.stop ≤ d.length := by
  by_cases h : startsWithCase d (cstr "file://") = true
  · rw [init_Url_path_file d h]
    have := startsWithCase_length d _ h
    have e : (cstr "file://").length = 7 := rfl
    simp only
    omega
  · rw [init_Url_path_nonfile d (by simpa using h)]
    have h1 := pathOffset_le d
    have h2 := pathGroupLen_le (d.drop (pathOffset d))
    simp only [List.length_drop] at h2
    simp only
    omega

/-- The cleaned text is the text before the path range, the cleaned path, and
the text after the path range. -/
theorem cleanUrlPath_String_eq (E : Env) (d : List Char) :
    cleanUrlPath_String E d =
      d.take (init_Url d).path.start ++ cleanPath E ((init_Url d).path.of d) ++
        d.drop (init_Url d).path.stop := by
  obtain ⟨h1, h2⟩ := init_Url_path_bounds d
  have hsplit : d = d.take (init_Url d).path.start ++ (init_Url d).path.of d ++
      d.drop (init_Url d).path.stop := by
    unfold Range.of
    rw [List.append_assoc]
    conv_lhs => rw [← List.take_append_drop (init_Url d).path.start d]
    congr 1
    conv_lhs => rw [← List.take_append_drop ((init_Url d).path.stop - (init_Url d).path.start)
      (d.drop (init_Url d).path.start)]
    congr 1
    rw [List.drop_drop]
    congr 1
    omega
  unfold cleanUrlPath_String
  simp only []
  split
  · unfold insertData_Block remove_Block size_Range
    have e : (init_Url d).path.start + ((init_Url d).path.stop - (init_Url d).path.start)
        = (init_Url d).path.stop := by omega
    rw [e]
    have hl : (d.take (init_Url d).path.start).length = (init_Url d).path.start := by
      rw [List.length_take]; omega
    rw [List.take_append_of_le_length (by omega), List.take_take, Nat.min_self]
    congr 1
    rw [List.drop_append_of_le_length (by omega)]
    have : List.drop (init_Url d).path.start (List.take (init_Url d).path.start d) = [] := by
      apply List.drop_eq_nil_of_le; omega
    rw [this, List.nil_append]
  · rename_i h
    simp only [bne_iff_ne, ne_eq, Decidable.not_not] at h
    rw [← h]
    exact hsplit

theorem render_concat (absPath : Bool) (st : List (List Char)) (s : List Char) :
    render absPath (st ++ [s]) =
      render absPath st ++ (if st = [] ∧ absPath = false then s else '/' :: s) := by
  cases absPath with
  | true => simp [render, renderTail]
  | false =>
    cases st with
    | nil => simp [render, renderTail]
    | cons a st => simp [render, renderTail]

theorem render_eq_nil (absPath : Bool) (st : List (List Char)) (h : ∀ s ∈ st, GoodSeg s) :
    render absPath st = [] ↔ st = [] := by
  constructor
  · intro hr
    cases st with
    | nil => rfl
    | cons a st =>
      exfalso
      have ha := (h a (List.mem_cons_self _ _)).1
      cases absPath with
      | true => simp [render, renderTail] at hr
      | false => simp [render, renderTail] at hr; exact ha hr.1
  · rintro rfl
    cases absPath <;> rfl

theorem scanBack_append_slash (X s : List Char) (hs : '/' ∉ s) :
    scanBack (s.reverse ++ '/' :: X.reverse) = X.length := by
  induction s using List.reverseRecOn with
  | nil => simp [scanBack]
  | append_singleton s c ih =>
    have hc : c ≠ '/' := by
      intro h; apply hs; simp [h]
    have hs2 : '/' ∉ s := fun h => hs (by simp [h])
    simp only [List.reverse_append, List.reverse_cons, List.reverse_nil, List.nil_append,
      List.singleton_append, List.cons_append, scanBack]
    have : (c == '/') = false := by simpa using hc
    simp only [this, Bool.false_or]
    have hl : ((s.reverse ++ '/' :: X.reverse).length == 0) = false := by simp
    rw [hl]
    simpa using ih hs2

theorem scanBack_no_slash (s : List Char) (hs : '/' ∉ s) : scanBack s.reverse = 0 := by
  induction s using List.reverseRecOn with
  | nil => simp [scanBack]
  | append_singleton s c ih =>
    have hc : c ≠ '/' := by
      intro h; apply hs; simp [h]
    have hs2 : '/' ∉ s := fun h => hs (by simp [h])
    simp only [List.reverse_append, List.reverse_cons, List.reverse_nil, List.nil_append,
      List.singleton_append, scanBack]
    have : (c == '/') = false := by simpa using hc
    simp only [this, Bool.false_or]
    by_cases hl : s.reverse.length = 0
    · simp [hl]
    · have : (s.reverse.length == 0) = false := by simpa using hl
      rw [this]
      simpa using ih hs2

theorem prevPathSeg_cons (E : Env) (buf : List Char) (h : buf ≠ []) :
    prevPathSeg_ E buf = (scanBack buf.reverse : Int) := by
  cases buf with
  | nil => exact absurd rfl h
  | cons a l => rfl

theorem truncate_render_concat (E : Env) (absPath : Bool) (st : List (List Char))
    (s : List Char) (hs : GoodSeg s) :
    truncate_Block (render absPath (st ++ [s])) (prevPathSeg_ E (render absPath (st ++ [s])))
      = render absPath st := by
  rw [render_concat]
  by_cases hc : st = [] ∧ absPath = false
  · obtain ⟨rfl, rfl⟩ := hc
    simp only [and_self, if_true, render, List.nil_append]
    rw [prevPathSeg_cons E s hs.1, scanBack_no_slash s hs.2.1]
    simp [truncate_Block]
  · rw [if_neg hc]
    have hne : render absPath st ++ '/' :: s ≠ [] := by simp
    rw [prevPathSeg_cons E _ hne]
    have : (render absPath st ++ '/' :: s).reverse = s.reverse ++ '/' :: (render absPath st).reverse := by
      simp
    rw [this, scanBack_append_slash _ s hs.2.1]
    simp [truncate_Block]

theorem cstr_slash : cstr "/" = ['/'] := rfl
theorem cstr_colon : cstr ":" = [Char.ofNat 58] := rfl

theorem cleanStep_render (E : Env) (absPath : Bool) (st : List (List Char)) (seg : List Char)
    (hst : ∀ s ∈ st, GoodSeg s) :
    cleanStep E absPath (render absPath st) seg = render absPath (stackStep st seg) := by
  unfold cleanStep stackStep equal_Rangecc
  by_cases h1 : seg = cstr ".."
  · simp only [h1, beq_self_eq_true, if_true]
    rcases List.eq_nil_or_concat st with rfl | ⟨st', s, rfl⟩
    · cases absPath <;> simp [render, renderTail, truncate_Block, prevPathSeg_]
    · rw [List.concat_eq_append] at hst ⊢
      rw [List.dropLast_concat]
      exact truncate_render_concat E absPath st' s (hst s (by simp))
  · have h1b : (seg == cstr "..") = false := by simpa using h1
    simp only [h1b, h1, if_false, Bool.false_eq_true]
    by_cases h2 : seg = cstr "."
    · simp only [h2, beq_self_eq_true, if_true]
    · have h2b : (seg == cstr ".") = false := by simpa using h2
      simp only [h2b, h2, if_false, Bool.false_eq_true]
      by_cases h3 : seg = []
      · simp [h3]
      · have h3b : (!seg.isEmpty) = true := by
          cases seg with
          | nil => exact absurd rfl h3
          | cons a l => rfl
        simp only [h3b, if_true, ne_eq, h3, not_false_eq_true]
        rw [render_concat]
        by_cases hc : st = [] ∧ absPath = false
        · obtain ⟨rfl, rfl⟩ := hc
          simp [render]
        · rw [if_neg hc]
          have hcond : (!(render absPath st).isEmpty || absPath) = true := by
            rcases absPath with _ | _
            · have hne : st ≠ [] := fun h => hc ⟨h, rfl⟩
              have : render false st ≠ [] := fun h => hne ((render_eq_nil false st hst).1 h)
              cases hr : render false st with
              | nil => exact absurd hr this
              | cons a l => rfl
            · simp
          rw [if_pos hcond, cstr_slash]
          simp

theorem stackStep_good (st : List (List Char)) (seg : List Char)
    (hst : ∀ s ∈ st, GoodSeg s) (hseg : '/' ∉ seg) :
    ∀ s ∈ stackStep st seg, GoodSeg s := by
  unfold stackStep
  split
  · intro s hs
    exact hst s (List.mem_of_mem_dropLast hs)
  · split
    · exact hst
    · split
      · rename_i h1 h2 h3
        intro s hs
        rcases List.mem_append.1 hs with h | h
        · exact hst s h
        · simp only [List.mem_singleton] at h
          subst h
          exact ⟨h3, hseg, h2, h1⟩
      · exact hst

theorem foldl_stackStep_good (segs : List (List Char)) (st : List (List Char))
    (hst : ∀ s ∈ st, GoodSeg s) (hsegs : ∀ s ∈ segs, '/' ∉ s) :
    ∀ s ∈ segs.foldl stackStep st, GoodSeg s := by
  induction segs generalizing st with
  | nil => exact hst
  | cons a segs ih =>
    simp only [List.foldl_cons]
    exact ih _ (stackStep_good st a hst (hsegs a (List.mem_cons_self _ _)))
      (fun s hs => hsegs s (List.mem_cons_of_mem _ hs))

theorem foldl_cleanStep_render (E : Env) (absPath : Bool) (segs : List (List Char))
    (st : List (List Char)) (hst : ∀ s ∈ st, GoodSeg s) (hsegs : ∀ s ∈ segs, '/' ∉ s) :
    segs.foldl (cleanStep E absPath) (render absPath st) =
      render absPath (segs.foldl stackStep st) := by
  induction segs generalizing st with
  | nil => rfl
  | cons a segs ih =>
    simp only [List.foldl_cons]
    rw [cleanStep_render E absPath st a hst]
    exact ih _ (stackStep_good st a hst (hsegs a (List.mem_cons_self _ _)))
      (fun s hs => hsegs s (List.mem_cons_of_mem _ hs))

theorem splitFrom_no_sep (sep : Char) (l : List Char) : ∀ s ∈ splitFrom sep l, sep ∉ s := by
  induction l with
  | nil => intro s hs; simp [splitFrom] at hs; simp [hs]
  | cons c r ih =>
    intro s hs
    unfold splitFrom at hs
    split at hs
    · rcases List.mem_cons.1 hs with h | h
      · simp [h]
      · split at h
        · simp at h
        · exact ih s h
    · rename_i hc
      split at hs
      · simp only [List.mem_singleton] at hs
        subst hs
        simp [Ne.symm hc]
      · rename_i x xs heq
        rcases List.mem_cons.1 hs with h | h
        · subst h
          have := ih x (by rw [heq]; exact List.mem_cons_self _ _)
          simp [Ne.symm hc, this]
        · exact ih s (by rw [heq]; exact List.mem_cons_of_mem _ h)

theorem nextSplit_no_sep (sep : Char) (l : List Char) :
    ∀ s ∈ nextSplit_Rangecc l sep, sep ∉ s := by
  unfold nextSplit_Rangecc
  cases l with
  | nil => simp
  | cons c r =>
    simp only
    split
    · exact splitFrom_no_sep sep r
    · exact splitFrom_no_sep sep (c :: r)

theorem keptSegs_good (path : List Char) : ∀ s ∈ keptSegs path, GoodSeg s :=
  foldl_stackStep_good _ [] (by simp) (nextSplit_no_sep '/' path)

theorem render_nil (absPath : Bool) : render absPath [] = [] := by
  cases absPath <;> rfl

theorem cleanPath_eq_render (E : Env) (path : List Char) :
    cleanPath E path =
      render (startsWith path (cstr "/")) (keptSegs path) ++
        (if endsWith path (cstr "/") then cstr "/" else []) := by
  unfold cleanPath keptSegs
  have := foldl_cleanStep_render E (startsWith path (cstr "/")) (nextSplit_Rangecc path '/') []
    (by simp) (nextSplit_no_sep '/' path)
  rw [render_nil] at this
  simp only [this]
  split <;> simp

theorem toNat_ofNat_small (n : Nat) (h : n < 55296) : (Char.ofNat n).toNat = n := by
  unfold Char.ofNat
  have hv : n.isValidChar := Or.inl h
  rw [dif_pos hv]
  simp only [Char.ofNatAux, Char.toNat]
  show (UInt32.ofNat' n _).toNat = n
  simp [UInt32.ofNat', UInt32.toNat]

/-- Lowering the case of a character gives a colon only for a colon. -/
theorem toLower_eq_colon (c : Char) (h : c.toLower = ':') : c = ':' := by
  unfold Char.toLower at h
  simp only [ge_iff_le] at h
  split at h
  · rename_i hc
    exfalso
    have := congrArg Char.toNat h
    rw [toNat_ofNat_small _ (by omega)] at this
    have e : (':' : Char).toNat = 58 := rfl
    omega
  · exact h

theorem cstr_sep : cstr "://" = [':', '/', '/'] := rfl

theorem path_of_nonfile (d : List Char) (h : startsWithCase d (cstr "file://") = false) :
    (init_Url d).path.of d = (d.drop (pathOffset d)).takeWhile isPathCh ∧
    d.drop (init_Url d).path.stop = (d.drop (pathOffset d)).dropWhile isPathCh ∧
    (init_Url d).path.start = pathOffset d := by
  rw [init_Url_path_nonfile d h]
  refine ⟨?_, ?_, rfl⟩
  · simp only [Range.of, Nat.add_sub_cancel_left, pathGroupLen]
    exact take_length_takeWhile _ _
  · simp only [pathGroupLen]
    rw [← List.drop_drop]
    exact drop_length_takeWhile isPathCh (d.drop (pathOffset d))

theorem cleanUrlPath_nonfile (E : Env) (d : List Char)
    (h : startsWithCase d (cstr "file://") = false) :
    cleanUrlPath_String E d =
      d.take (pathOffset d) ++ cleanPath E ((d.drop (pathOffset d)).takeWhile isPathCh) ++
        (d.drop (pathOffset d)).dropWhile isPathCh := by
  obtain ⟨h1, h2, h3⟩ := path_of_nonfile d h
  rw [cleanUrlPath_String_eq, h1, h2, h3]

theorem path_of_file (d : List Char) (h : startsWithCase d (cstr "file://") = true) :
    (init_Url d).path.of d = d.drop 7 ∧ d.drop (init_Url d).path.stop = [] ∧
    (init_Url d).path.start = 7 := by
  rw [init_Url_path_file d h]
  refine ⟨?_, ?_, rfl⟩
  · simp only [Range.of]
    apply List.take_of_length_le
    simp
  · simp

theorem cleanUrlPath_file (E : Env) (d : List Char)
    (h : startsWithCase d (cstr "file://") = true) :
    cleanUrlPath_String E d = d.take 7 ++ cleanPath E (d.drop 7) := by
  obtain ⟨h1, h2, h3⟩ := path_of_file d h
  rw [cleanUrlPath_String_eq, h1, h2, h3, List.append_nil]

theorem schemeGroupLen_scheme (S R : List Char) (hne : S ≠ [])
    (hS : ∀ c ∈ S, isSchemeCh c = true) :
    schemeGroupLen (S ++ ':' :: R) = S.length + 1 := by
  unfold schemeGroupLen
  have hR : ∀ c, (':' :: R).head? = some c → isSchemeCh c = false := by
    intro c hc
    simp only [List.head?_cons, Option.some.injEq] at hc
    subst hc
    rfl
  rw [takeWhile_append_stop isSchemeCh S _ hS hR, dropWhile_append_stop isSchemeCh S _ hS hR]
  have : S.length ≠ 0 := by
    intro h; exact hne (List.length_eq_zero.1 h)
  simp [this]

theorem authGroupLen_slashes (X : List Char) :
    authGroupLen ('/' :: '/' :: X) = 2 + (X.takeWhile isAuthCh).length := by
  unfold authGroupLen
  rw [if_pos ((startsWith_slashes _).2 ⟨X, rfl⟩)]
  rfl

theorem pathOffset_scheme_auth (S X : List Char) (hne : S ≠ [])
    (hS : ∀ c ∈ S, isSchemeCh c = true) :
    pathOffset (S ++ cstr "://" ++ X) = S.length + 3 + (X.takeWhile isAuthCh).length := by
  unfold pathOffset
  have e : S ++ cstr "://" ++ X = S ++ ':' :: ('/' :: '/' :: X) := by
    rw [cstr_sep]; simp
  rw [e, schemeGroupLen_scheme S _ hne hS]
  have : (S ++ ':' :: '/' :: '/' :: X).drop (S.length + 1) = '/' :: '/' :: X := by
    rw [show S ++ ':' :: '/' :: '/' :: X = (S ++ [':']) ++ '/' :: '/' :: X by simp]
    rw [List.drop_append_of_le_length (by simp)]
    simp
  rw [this, authGroupLen_slashes]
  omega

/-- How a text that begins with a scheme and `://`, other than `file://`, is
cleaned: the run up to the first `/`, `?` or `#` stays, the run up to the
first `?` or `#` after it is the path. -/
theorem cleanUrlPath_scheme_auth (E : Env) (S X : List Char) (hne : S ≠ [])
    (hS : ∀ c ∈ S, isSchemeCh c = true)
    (h : startsWithCase (S ++ cstr "://" ++ X) (cstr "file://") = false) :
    cleanUrlPath_String E (S ++ cstr "://" ++ X) =
      S ++ cstr "://" ++ X.takeWhile isAuthCh ++
        cleanPath E ((X.dropWhile isAuthCh).takeWhile isPathCh) ++
        (X.dropWhile isAuthCh).dropWhile isPathCh := by
  rw [cleanUrlPath_nonfile E _ h, pathOffset_scheme_auth S X hne hS]
  have hl : (S ++ cstr "://").length = S.length + 3 := by rw [cstr_sep]; simp
  have e1 : (S ++ cstr "://" ++ X).drop (S.length + 3 + (X.takeWhile isAuthCh).length)
      = X.dropWhile isAuthCh := by
    rw [← List.drop_drop, ← hl, List.drop_left, drop_length_takeWhile]
  have e2 : (S ++ cstr "://" ++ X).take (S.length + 3 + (X.takeWhile isAuthCh).length)
      = S ++ cstr "://" ++ X.takeWhile isAuthCh := by
    rw [← hl, List.take_append, take_length_takeWhile]
  rw [e1, e2]

/-! ## What the cleaned path is made of -/

theorem mem_renderTail (st : List (List Char)) (c : Char) (h : c ∈ renderTail st) :
    c = '/' ∨ ∃ s ∈ st, c ∈ s := by
  induction st with
  | nil => simp [renderTail] at h
  | cons a st ih =>
    simp only [renderTail, List.map_cons, List.flatten_cons, List.mem_append, List.mem_cons] at h
    rcases h with (h | h) | h
    · exact Or.inl h
    · exact Or.inr ⟨a, List.mem_cons_self _ _, h⟩
    · rcases ih h with h | ⟨s, hs, hc⟩
      · exact Or.inl h
      · exact Or.inr ⟨s, List.mem_cons_of_mem _ hs, hc⟩

theorem mem_render (absPath : Bool) (st : List (List Char)) (c : Char)
    (h : c ∈ render absPath st) : c = '/' ∨ ∃ s ∈ st, c ∈ s := by
  cases absPath with
  | true => exact mem_renderTail st c h
  | false =>
    cases st with
    | nil => simp [render] at h
    | cons a st =>
      simp only [render, List.mem_append] at h
      rcases h with h | h
      · exact Or.inr ⟨a, List.mem_cons_self _ _, h⟩
      · rcases mem_renderTail st c h with h | ⟨s, hs, hc⟩
        · exact Or.inl h
        · exact Or.inr ⟨s, List.mem_cons_of_mem _ hs, hc⟩

theorem mem_stackStep (st : List (List Char)) (seg s : List Char) (h : s ∈ stackStep st seg) :
    s ∈ st ∨ s = seg := by
  unfold stackStep at h
  split at h
  · exact Or.inl (List.mem_of_mem_dropLast h)
  · split at h
    · exact Or.inl h
    · split at h
      · rcases List.mem_append.1 h with h | h
        · exact Or.inl h
        · exact Or.inr (by simpa using h)
      · exact Or.inl h

theorem mem_foldl_stackStep (segs st : List (List Char)) (s : List Char)
    (h : s ∈ segs.foldl stackStep st) : s ∈ st ∨ s ∈ segs := by
  induction segs generalizing st with
  | nil => exact Or.inl h
  | cons a segs ih =>
    simp only [List.foldl_cons] at h
    rcases ih _ h with h | h
    · rcases mem_stackStep st a s h with h | h
      · exact Or.inl h
      · exact Or.inr (by simp [h])
    · exact Or.inr (List.mem_cons_of_mem _ h)

theorem mem_splitFrom (sep : Char) (l : List Char) :
    ∀ s ∈ splitFrom sep l, ∀ c ∈ s, c ∈ l := by
  induction l with
  | nil => intro s hs c hc; simp [splitFrom] at hs; simp [hs] at hc
  | cons a r ih =>
    intro s hs c hc
    unfold splitFrom at hs
    split at hs
    · rcases List.mem_cons.1 hs with h | h
      · simp [h] at hc
      · split at h
        · simp at h
        · exact List.mem_cons_of_mem _ (ih s h c hc)
    · split at hs
      · simp only [List.mem_singleton] at hs
        subst hs
        simp only [List.mem_singleton] at hc
        simp [hc]
      · rename_i x xs heq
        rcases List.mem_cons.1 hs with h | h
        · subst h
          rcases List.mem_cons.1 hc with h | h
          · simp [h]
          · exact List.mem_cons_of_mem _ (ih x (by rw [heq]; exact List.mem_cons_self _ _) c h)
        · exact List.mem_cons_of_mem _ (ih s (by rw [heq]; exact List.mem_cons_of_mem _ h) c hc)

theorem mem_nextSplit (sep : Char) (l : List Char) :
    ∀ s ∈ nextSplit_Rangecc l sep, ∀ c ∈ s, c ∈ l := by
  unfold nextSplit_Rangecc
  cases l with
  | nil => simp
  | cons a r =>
    simp only
    split
    · intro s hs c hc
      exact List.mem_cons_of_mem _ (mem_splitFrom sep r s hs c hc)
    · exact mem_splitFrom sep (a :: r)

/-- Every character of the cleaned path is a slash or a character of the path. -/
theorem mem_cleanPath (E : Env) (path : List Char) (c : Char) (h : c ∈ cleanPath E path) :
    c = '/' ∨ c ∈ path := by
  rw [cleanPath_eq_render] at h
  rcases List.mem_append.1 h with h | h
  · rcases mem_render _ _ c h with h | ⟨s, hs, hc⟩
    · exact Or.inl h
    · right
      rcases mem_foldl_stackStep _ _ s hs with h | h
      · simp at h
      · exact mem_nextSplit '/' path s h c hc
  · split at h
    · rw [cstr_slash] at h
      exact Or.inl (by simpa using h)
    · simp at h

theorem cleanPath_nil (E : Env) : cleanPath E [] = [] := by
  rw [cleanPath_eq_render]
  simp [keptSegs, nextSplit_Rangecc, render_nil, endsWith, cstr_slash]

theorem head_renderTail (st : List (List Char)) :
    renderTail st = [] ∨ (renderTail st).head? = some '/' := by
  cases st with
  | nil => left; rfl
  | cons a st => right; simp [renderTail]

theorem startsWith_slash_iff (p : List Char) :
    startsWith p (cstr "/") = true ↔ p.head? = some '/' := by
  rw [startsWith, cstr_slash]
  cases p with
  | nil => simp [List.isPrefixOf]
  | cons a r =>
    simp only [List.isPrefixOf, Bool.and_true, beq_iff_eq, List.head?_cons, Option.some.injEq]
    exact eq_comm

/-- The cleaned form of a path that is empty or starts with a slash is empty or
starts with a slash. -/
theorem cleanPath_head_abs (E : Env) (path : List Char)
    (h : path = [] ∨ path.head? = some '/') :
    cleanPath E path = [] ∨ (cleanPath E path).head? = some '/' := by
  rcases h with rfl | h
  · left; exact cleanPath_nil E
  · rw [cleanPath_eq_render, (startsWith_slash_iff path).2 h]
    simp only [render]
    rcases head_renderTail (keptSegs path) with h1 | h1
    · rw [h1]
      split
      · right; rw [cstr_slash]; rfl
      · left; rfl
    · right
      cases hr : renderTail (keptSegs path) with
      | nil => rw [hr] at h1; simp at h1
      | cons a l => rw [hr] at h1; simpa using h1

theorem isPathCh_cleanPath (E : Env) (path : List Char) (h : ∀ c ∈ path, isPathCh c = true) :
    ∀ c ∈ cleanPath E path, isPathCh c = true := by
  intro c hc
  rcases mem_cleanPath E path c hc with rfl | h2
  · rfl
  · exact h c h2

theorem toLower_of_not_scheme (c : Char) (h : isSchemeCh c = false) : c.toLower = c := by
  have h2 : c = ':' ∨ c = '/' ∨ c = '?' ∨ c = '#' := by
    unfold isSchemeCh at h
    simp only [Bool.not_eq_false', Bool.or_eq_true, beq_iff_eq] at h
    tauto
  rcases h2 with rfl | rfl | rfl | rfl <;> rfl

theorem cstr_file : cstr "file" = ['f', 'i', 'l', 'e'] := rfl
theorem cstr_fileSep : cstr "file://" = ['f', 'i', 'l', 'e', ':', '/', '/'] := rfl

/-- A text made of a scheme and `://` begins with `file://`, letter case
ignored, exactly when the scheme is `file`, letter case ignored. -/
theorem startsWithCase_file_iff (S X : List Char) (hS : ∀ c ∈ S, isSchemeCh c = true) :
    startsWithCase (S ++ cstr "://" ++ X) (cstr "file://") = equalCase_Rangecc S (cstr "file") := by
  have hcolon : Char.toLower ':' = ':' := rfl
  have hslash : Char.toLower '/' = '/' := rfl
  rw [startsWithCase, equalCase_Rangecc, cstr_sep, cstr_fileSep, cstr_file]
  rcases S with _ | ⟨a, _ | ⟨b, _ | ⟨c, _ | ⟨d, _ | ⟨e, r⟩⟩⟩⟩⟩
  · simp [List.isPrefixOf, hcolon]
  · simp [List.isPrefixOf, hcolon]
  · simp [List.isPrefixOf, hcolon]
  · simp [List.isPrefixOf, hcolon]
  · simp only [List.cons_append, List.nil_append, List.map_cons, List.map_nil, List.isPrefixOf,
      hcolon, hslash, beq_self_eq_true, Bool.and_true, List.append_eq]
    rw [Bool.eq_iff_iff]
    simp only [Bool.and_eq_true, beq_iff_eq]
    simp only [List.cons.injEq, and_true]
    constructor <;> (rintro ⟨h1, h2, h3, h4⟩; exact ⟨h1.symm, h2.symm, h3.symm, h4.symm⟩)
  · have he : isSchemeCh e = true := hS e (by simp)
    have : e.toLower ≠ ':' := by
      intro h
      have := toLower_eq_colon e h
      subst this
      exact absurd he (by decide)
    simp [List.isPrefixOf, hcolon, hslash]
    intro _ _ _ _ h
    exact absurd h.symm this

theorem startsWithCase_take (d pre : List Char) :
    startsWithCase (d.take pre.length) pre = startsWithCase d pre := by
  unfold startsWithCase
  induction pre generalizing d with
  | nil => simp [List.isPrefixOf]
  | cons a pre ih =>
    cases d with
    | nil => simp [List.isPrefixOf]
    | cons b d =>
      simp only [List.map_cons, List.length_cons, List.take_succ_cons, List.isPrefixOf]
      rw [ih]

/-- The scheme reported by `init_Url`, when defined, is a run of scheme
characters that is not empty. -/
theorem scheme_of_init_Url (t : List Char) (h : isDef_ (init_Url t).scheme = true) :
    (init_Url t).scheme.of t ≠ [] ∧ ∀ c ∈ (init_Url t).scheme.of t, isSchemeCh c = true := by
  by_cases hf : startsWithCase t (cstr "file://") = true
  · have hlen := startsWithCase_length t _ hf
    have e7 : (cstr "file://").length = 7 := rfl
    have hs : (init_Url t).scheme = ⟨0, 4⟩ := by
      unfold init_Url; rw [if_pos hf]
    rw [hs]
    simp only [Range.of, List.drop_zero, Nat.sub_zero]
    have hmap : (t.take 4).map Char.toLower = ['f', 'i', 'l', 'e'] := by
      unfold startsWithCase at hf
      rw [cstr_fileSep, List.isPrefixOf_iff_prefix] at hf
      obtain ⟨r, hr⟩ := hf
      have := congrArg (List.take 4) hr
      simp only [List.map_cons, List.map_nil, List.cons_append, List.take_succ_cons,
        List.take_zero] at this
      rw [← List.map_take] at this
      rw [← this]
      rfl
    constructor
    · intro h0
      rw [h0] at hmap
      simp at hmap
    · intro c hc
      by_contra hn
      have hn2 : isSchemeCh c = false := by simpa using hn
      have hl := toLower_of_not_scheme c hn2
      have : c.toLower ∈ (t.take 4).map Char.toLower := List.mem_map_of_mem _ hc
      rw [hmap, hl] at this
      have hdec : ∀ x ∈ ['f', 'i', 'l', 'e'], isSchemeCh x = true := by decide
      rw [hdec c this] at hn2
      exact absurd hn2 (by decide)
  · have hf2 : startsWithCase t (cstr "file://") = false := by simpa using hf
    have hs : (init_Url t).scheme =
        if schemeGroupLen t != 0 then ⟨0, schemeGroupLen t - 1⟩ else iNullRange := by
      unfold init_Url
      rw [if_neg (by rw [hf2]; exact Bool.false_ne_true)]
      rfl
    rw [hs] at h ⊢
    by_cases h0 : schemeGroupLen t = 0
    · simp [h0, isDef_, isEmpty_Range, iNullRange] at h
    · have h0b : (schemeGroupLen t != 0) = true := by simpa using h0
      rw [if_pos h0b] at h ⊢
      have hn : schemeGroupLen t = (t.takeWhile isSchemeCh).length + 1 ∧
          (t.takeWhile isSchemeCh).length ≠ 0 := by
        unfold schemeGroupLen at h0 ⊢
        simp only [] at h0 ⊢
        split
        · rename_i hc
          simp only [Bool.and_eq_true, bne_iff_ne, ne_eq] at hc
          exact ⟨rfl, hc.1⟩
        · rename_i hc
          rw [if_neg hc] at h0
          exact absurd rfl h0
      simp only [Range.of, List.drop_zero, Nat.sub_zero, hn.1, Nat.add_sub_cancel]
      rw [take_length_takeWhile]
      constructor
      · intro he
        exact hn.2 (by rw [he]; rfl)
      · intro c hc
        exact List.mem_takeWhile_imp hc

theorem cstr_gemini_scheme : cstr "gemini" ≠ [] ∧ ∀ c ∈ cstr "gemini", isSchemeCh c = true := by
  decide

/-- The scheme chosen by `absoluteUrl_String` is a run of scheme characters that
is not empty. -/
theorem resultScheme_good (d ref : List Char) :
    resultScheme d ref ≠ [] ∧ ∀ c ∈ resultScheme d ref, isSchemeCh c = true := by
  unfold resultScheme
  simp only []
  split
  · rename_i h
    exact scheme_of_init_Url ref h
  · split
    · rename_i h
      simp only [Bool.and_eq_true] at h
      exact scheme_of_init_Url d h.2
    · exact cstr_gemini_scheme

theorem absoluteUrl_unfold_resolved (E : Env) (d ref : List Char)
    (hop : isOpaqueScheme ((init_Url ref).scheme.of ref) = false) :
    absoluteUrl_String E d ref =
      cleanUrlPath_String E (E.normalize_String (assembleUrl E d ref)) := by
  unfold absoluteUrl_String
  simp only [hop, Bool.false_eq_true, if_false]

theorem suffix_dropWhile_append (p : Char → Bool) (Y Z : List Char)
    (hZ : ∀ c, Z.head? = some c → p c = false) : Z <:+ (Y ++ Z).dropWhile p := by
  induction Y with
  | nil =>
    cases Z with
    | nil => simp
    | cons c r => simp [List.dropWhile_cons, hZ c rfl]
  | cons y Y ih =>
    by_cases hy : p y = true
    · simp only [List.cons_append, List.dropWhile_cons, hy, if_true]
      exact ih
    · simp only [List.cons_append, List.dropWhile_cons, hy]
      exact List.suffix_cons_iff.2 (Or.inr (List.suffix_append _ _))

/-- The query text reported by `init_Url` is empty or begins with `?`. -/
theorem query_of_init_Url (t : List Char) :
    (init_Url t).query.of t = [] ∨ ((init_Url t).query.of t).head? = some '?' := by
  by_cases hf : startsWithCase t (cstr "file://") = true
  · left
    have : (init_Url t).query = iNullRange := by unfold init_Url; rw [if_pos hf]
    rw [this]; simp [Range.of, iNullRange]
  · have hq : (init_Url t).query = (urlPattern_ t).g6 := by
      unfold init_Url; rw [if_neg hf]
    rw [hq]
    unfold urlPattern_
    simp only []
    generalize pathOffset t + pathGroupLen (t.drop (pathOffset t)) = p5
    have e : schemeGroupLen t + authGroupLen (List.drop (schemeGroupLen t) t) = pathOffset t := rfl
    simp only [e]
    generalize pathOffset t + pathGroupLen (t.drop (pathOffset t)) = p5
    split
    · rename_i h
      right
      simp only [Range.of, Nat.add_sub_cancel_left]
      unfold queryGroupLen at h ⊢
      split
      · rename_i r heq
        rw [heq]
        simp [Nat.add_comm 1, List.take_succ_cons]
      · simp at h
    · left; simp [Range.of, iNullRange]

/-- The fragment text reported by `init_Url` is empty or begins with `#`. -/
theorem fragment_of_init_Url (t : List Char) :
    (init_Url t).fragment.of t = [] ∨ ((init_Url t).fragment.of t).head? = some '#' := by
  by_cases hf : startsWithCase t (cstr "file://") = true
  · left
    have : (init_Url t).fragment = iNullRange := by unfold init_Url; rw [if_pos hf]
    rw [this]; simp [Range.of, iNullRange]
  · have hq : (init_Url t).fragment = (urlPattern_ t).g8 := by
      unfold init_Url; rw [if_neg hf]
    rw [hq]
    unfold urlPattern_
    simp only []
    generalize schemeGroupLen t + authGroupLen (List.drop (schemeGroupLen t) t) +
      pathGroupLen (List.drop (schemeGroupLen t + authGroupLen (List.drop (schemeGroupLen t) t)) t) +
      queryGroupLen (List.drop (schemeGroupLen t + authGroupLen (List.drop (schemeGroupLen t) t) +
      pathGroupLen (List.drop (schemeGroupLen t + authGroupLen (List.drop (schemeGroupLen t) t)) t)) t)
      = p6
    split
    · rename_i h
      right
      simp only [Range.of, Nat.add_sub_cancel_left]
      unfold fragmentGroupLen at h ⊢
      split
      · rename_i r heq
        rw [heq]
        simp [Nat.add_comm 1, List.take_succ_cons]
      · simp at h
    · left; simp [Range.of, iNullRange]

/-- What `absoluteUrl_String` puts together ends with the query and the
fragment of the reference. -/
theorem assembleUrl_eq_tail (E : Env) (d ref : List Char) :
    ∃ Y, assembleUrl E d ref = resultScheme d ref ++ cstr "://" ++
      (Y ++ ((init_Url ref).query.of ref ++ (init_Url ref).fragment.of ref)) := by
  unfold assembleUrl
  simp only []
  split
  · split
    · exact ⟨resultAuthority E d ref ++ cstr "/" ++ (init_Url ref).path.of ref,
        by simp only [List.append_assoc]⟩
    · exact ⟨resultAuthority E d ref ++ (init_Url ref).path.of ref,
        by simp only [List.append_assoc]⟩
  · split
    · split
      · split
        · exact ⟨resultAuthority E d ref ++ dirPath_ ((init_Url d).path.of d) ++ cstr "/" ++
            (init_Url ref).path.of ref, by simp only [List.append_assoc]⟩
        · exact ⟨resultAuthority E d ref ++ dirPath_ ((init_Url d).path.of d) ++
            (init_Url ref).path.of ref, by simp only [List.append_assoc]⟩
      · split
        · exact ⟨resultAuthority E d ref ++ (init_Url d).path.of d ++ cstr "/" ++
            (init_Url ref).path.of ref, by simp only [List.append_assoc]⟩
        · exact ⟨resultAuthority E d ref ++ (init_Url d).path.of d ++
            (init_Url ref).path.of ref, by simp only [List.append_assoc]⟩
    · split
      · exact ⟨resultAuthority E d ref ++ (init_Url d).path.of d,
          by simp only [List.append_assoc]⟩
      · exact ⟨resultAuthority E d ref, by simp only [List.append_assoc]⟩

theorem query_fragment_head (t : List Char) (c : Char)
    (h : ((init_Url t).query.of t ++ (init_Url t).fragment.of t).head? = some c) :
    c = '?' ∨ c = '#' := by
  rcases query_of_init_Url t with hq | hq
  · rw [hq, List.nil_append] at h
    rcases fragment_of_init_Url t with hf | hf
    · rw [hf] at h; simp at h
    · rw [hf] at h; right; simpa using h.symm
  · left
    cases hq2 : (init_Url t).query.of t with
    | nil => rw [hq2] at hq; simp at hq
    | cons a l =>
      rw [hq2] at hq h
      simp only [List.head?_cons, Option.some.injEq, List.cons_append] at hq h
      rw [← h, hq]

theorem resolved_suffix_kept (E : Env) (d ref : List Char)
    (hop : isOpaqueScheme ((init_Url ref).scheme.of ref) = false)
    (hnorm : E.normalize_String (assembleUrl E d ref) = assembleUrl E d ref)
    (hfile : equalCase_Rangecc (resultScheme d ref) (cstr "file") = false) :
    (init_Url ref).query.of ref ++ (init_Url ref).fragment.of ref <:+
      absoluteUrl_String E d ref := by
  rw [absoluteUrl_unfold_resolved E d ref hop, hnorm]
  obtain ⟨Y, hY⟩ := assembleUrl_eq_tail E d ref
  obtain ⟨hne, hS⟩ := resultScheme_good d ref
  rw [hY]
  have hnf : startsWithCase (resultScheme d ref ++ cstr "://" ++
      (Y ++ ((init_Url ref).query.of ref ++ (init_Url ref).fragment.of ref))) (cstr "file://")
      = false := by
    rw [startsWithCase_file_iff _ _ hS]; exact hfile
  rw [cleanUrlPath_scheme_auth E _ _ hne hS hnf]
  have hZ1 : ∀ c, ((init_Url ref).query.of ref ++ (init_Url ref).fragment.of ref).head? = some c →
      isAuthCh c = false := by
    intro c hc
    rcases query_fragment_head ref c hc with rfl | rfl <;> rfl
  have hZ2 : ∀ c, ((init_Url ref).query.of ref ++ (init_Url ref).fragment.of ref).head? = some c →
      isPathCh c = false := by
    intro c hc
    rcases query_fragment_head ref c hc with rfl | rfl <;> rfl
  obtain ⟨W, hW⟩ := suffix_dropWhile_append isAuthCh Y _ hZ1
  rw [← hW]
  exact (suffix_dropWhile_append isPathCh W _ hZ2).trans (List.suffix_append _ _)

/-- The resolved URL depends on the base only through its scheme, host, port
and path. -/
theorem resolved_frame (E : Env) (d1 d2 ref : List Char)
    (hs1 : isDef_ (init_Url d1).scheme = isDef_ (init_Url d2).scheme)
    (hs2 : (init_Url d1).scheme.of d1 = (init_Url d2).scheme.of d2)
    (hh : (init_Url d1).host.of d1 = (init_Url d2).host.of d2)
    (hp1 : isEmpty_Range (init_Url d1).port = isEmpty_Range (init_Url d2).port)
    (hp2 : (init_Url d1).port.of d1 = (init_Url d2).port.of d2)
    (hpath : (init_Url d1).path.of d1 = (init_Url d2).path.of d2) :
    absoluteUrl_String E d1 ref = absoluteUrl_String E d2 ref := by
  have e1 : resultScheme d1 ref = resultScheme d2 ref := by
    unfold resultScheme
    simp only [hs1, hs2]
  have e2 : resultAuthority E d1 ref = resultAuthority E d2 ref := by
    unfold resultAuthority authoritySource
    simp only [e1]
    by_cases hr : isDef_ (init_Url ref).host = true
    · simp only [hr, if_true]
    · simp only [hr, if_false, Bool.false_eq_true, hh, hp1, hp2]
  have e3 : assembleUrl E d1 ref = assembleUrl E d2 ref := by
    unfold assembleUrl
    simp only [e1, e2, hpath]
  unfold absoluteUrl_String
  simp only [e3]

theorem not_pathCh_not_authCh (c : Char) (h : isPathCh c = false) : isAuthCh c = false := by
  have h2 : c = '?' ∨ c = '#' := by
    unfold isPathCh at h
    simp only [Bool.not_eq_false', Bool.or_eq_true, beq_iff_eq] at h
    exact h
  rcases h2 with rfl | rfl <;> rfl

theorem pathCh_not_authCh (c : Char) (h1 : isPathCh c = true) (h2 : isAuthCh c = false) :
    c = '/' := by
  unfold isAuthCh at h2
  unfold isPathCh at h1
  simp only [Bool.not_eq_false', Bool.or_eq_true, beq_iff_eq, Bool.not_eq_true',
    Bool.or_eq_false_iff, beq_eq_false_iff_ne, ne_eq] at h1 h2
  tauto

/-- The path that follows an authority is empty or begins with a slash. -/
theorem path_after_auth_head (X : List Char) :
    (X.dropWhile isAuthCh).takeWhile isPathCh = [] ∨
      ((X.dropWhile isAuthCh).takeWhile isPathCh).head? = some '/' := by
  cases hW : X.dropWhile isAuthCh with
  | nil => left; rfl
  | cons c W =>
    have hc : isAuthCh c = false := head_dropWhile_stop isAuthCh X c (by rw [hW]; rfl)
    by_cases hp : isPathCh c = true
    · right
      simp only [List.takeWhile_cons, hp, if_true, List.head?_cons]
      rw [pathCh_not_authCh c hp hc]
    · left
      simp only [List.takeWhile_cons, hp]
      rfl

theorem cleanStep_dotdot_nil (E : Env) (absPath : Bool) :
    cleanStep E absPath [] (cstr "..") = [] := by
  have := cleanStep_render E absPath [] (cstr "..") (by simp)
  rw [render_nil] at this
  rw [this]
  simp [stackStep, render_nil]

theorem endsWith_cons_cons (a b : Char) (r : List Char) (suf : List Char)
    (h : suf.length ≤ (b :: r).length) :
    endsWith (a :: b :: r) suf = endsWith (b :: r) suf := by
  unfold endsWith
  simp only [List.reverse_cons a]
  rw [Bool.eq_iff_iff, List.isPrefixOf_iff_prefix, List.isPrefixOf_iff_prefix]
  constructor
  · intro hp
    exact List.prefix_of_prefix_length_le hp (List.prefix_append _ _) (by simpa using h)
  · intro hp
    exact hp.trans (List.prefix_append _ _)

theorem cleanStep_empty_seg (E : Env) (absPath : Bool) (clean : List Char) :
    cleanStep E absPath clean [] = clean := by
  unfold cleanStep
  have h1 : equal_Rangecc [] (cstr "..") = false := by decide
  have h2 : equal_Rangecc [] (cstr ".") = false := by decide
  simp only [h1, h2, Bool.false_eq_true, if_false, List.isEmpty_nil, Bool.not_true]

/-- Cleaning a path that begins with `/..`. -/
theorem cleanPath_leading_dotdot (E : Env) (r : List Char) (hr : r = [] ∨ r.head? = some '/') :
    cleanPath E (cstr "/.." ++ r) =
      (nextSplit_Rangecc r '/').foldl (cleanStep E true) [] ++
        (if endsWith r (cstr "/") then cstr "/" else []) := by
  have e : cstr "/.." = ['/', '.', '.'] := rfl
  rcases hr with rfl | hr
  · rw [List.append_nil]
    unfold cleanPath
    have h1 : nextSplit_Rangecc (cstr "/..") '/' = [cstr ".."] := by decide
    have h2 : endsWith (cstr "/..") (cstr "/") = false := by decide
    have h3 : endsWith [] (cstr "/") = false := by decide
    rw [h1, h2, h3]
    simp only [List.foldl_cons, List.foldl_nil, cleanStep_dotdot_nil, Bool.false_eq_true,
      if_false, List.append_nil]
    rfl
  · cases r with
    | nil => simp at hr
    | cons c r2 =>
      simp only [List.head?_cons, Option.some.injEq] at hr
      subst hr
      unfold cleanPath
      have hs : startsWith (cstr "/.." ++ '/' :: r2) (cstr "/") = true := by
        rw [e]; exact (startsWith_slash_iff _).2 rfl
      have hsplit : nextSplit_Rangecc (cstr "/.." ++ '/' :: r2) '/' =
          cstr ".." :: (if r2 = [] then [] else splitFrom '/' r2) := by
        rw [e]
        simp only [nextSplit_Rangecc, List.cons_append, List.nil_append, if_true]
        have h1 : ('.' : Char) ≠ '/' := by decide
        simp only [splitFrom, h1, if_false, if_true]
        rfl
      have hend : endsWith (cstr "/.." ++ '/' :: r2) (cstr "/") = endsWith ('/' :: r2) (cstr "/") := by
        rw [e, cstr_slash]
        simp only [List.cons_append, List.nil_append]
        rw [endsWith_cons_cons _ _ _ _ (by simp), endsWith_cons_cons _ _ _ _ (by simp),
          endsWith_cons_cons _ _ _ _ (by simp)]
      rw [hs, hsplit, hend]
      simp only [List.foldl_cons, cleanStep_dotdot_nil, nextSplit_Rangecc, if_true]
      by_cases h2 : r2 = []
      · subst h2
        simp only [if_true, List.foldl_nil, splitFrom, List.foldl_cons, cleanStep_empty_seg]
        split <;> simp
      · simp only [h2, if_false]
        split <;> simp

theorem of_eq_nil_of_not_def (r : Range) (t : List Char) (h : isDef_ r = false) :
    r.of t = [] := by
  unfold isDef_ isEmpty_Range at h
  have : r.start = r.stop := by simpa using h
  simp [Range.of, this]

theorem authSearch_nil (off : Nat) : authSearch [] off = none := rfl

/-- A text whose host is defined has an authority group, and its path is what
follows that group. -/
theorem path_head_of_host (t : List Char) (h : isDef_ (init_Url t).host = true) :
    (init_Url t).path.of t = [] ∨ ((init_Url t).path.of t).head? = some '/' := by
  by_cases hf : startsWithCase t (cstr "file://") = true
  · exfalso
    have : (init_Url t).host = iNullRange := by unfold init_Url; rw [if_pos hf]
    rw [this] at h
    exact absurd h (by decide)
  · have hnf : startsWithCase t (cstr "file://") = false := by simpa using hf
    rw [(path_of_nonfile t hnf).1]
    by_cases ha : authGroupLen (t.drop (schemeGroupLen t)) = 0
    · exfalso
      have hg4 : (urlPattern_ t).g4 = iNullRange := by
        unfold urlPattern_
        simp only [ha, Nat.add_zero, bne_self_eq_false, Bool.false_eq_true, if_false]
      have hhost : (init_Url t).host = iNullRange := by
        unfold init_Url
        rw [if_neg hf]
        simp only [hg4, authPattern_]
        have : iNullRange.of t = [] := by simp [Range.of, iNullRange]
        rw [this, authSearch_nil]
      rw [hhost] at h
      exact absurd h (by decide)
    · have hsw : startsWith (t.drop (schemeGroupLen t)) (cstr "//") = true := by
        by_contra hc
        apply ha
        unfold authGroupLen
        rw [if_neg hc]
      obtain ⟨X, hX⟩ := (startsWith_slashes _).1 hsw
      have hoff : t.drop (pathOffset t) = X.dropWhile isAuthCh := by
        unfold pathOffset
        rw [← List.drop_drop, hX, authGroupLen_slashes, ← List.drop_drop]
        rw [show List.drop 2 ('/' :: '/' :: X) = X from rfl]
        exact drop_length_takeWhile _ _
      rw [hoff]
      exact path_after_auth_head X

/-! ## Cleaning a cleaned path -/

theorem splitFrom_no_sep_eq (sep : Char) (s : List Char) (h : sep ∉ s) :
    splitFrom sep s = [s] := by
  induction s with
  | nil => rfl
  | cons c s ih =>
    have hc : c ≠ sep := fun e => h (by simp [e])
    have hs : sep ∉ s := fun e => h (by simp [e])
    simp only [splitFrom, hc, if_false, ih hs]

theorem splitFrom_append_sep (sep : Char) (s rest : List Char) (h : sep ∉ s) :
    splitFrom sep (s ++ sep :: rest) = s :: (if rest = [] then [] else splitFrom sep rest) := by
  induction s with
  | nil => simp [splitFrom]
  | cons c s ih =>
    have hc : c ≠ sep := fun e => h (by simp [e])
    have hs : sep ∉ s := fun e => h (by simp [e])
    rw [List.cons_append, splitFrom, if_neg hc, ih hs]

theorem splitFrom_render (s : List Char) (st : List (List Char)) (tr : List Char)
    (hs : '/' ∉ s) (hst : ∀ x ∈ st, GoodSeg x) (htr : tr = [] ∨ tr = ['/']) :
    splitFrom '/' (s ++ renderTail st ++ tr) = s :: st := by
  induction st generalizing s with
  | nil =>
    rcases htr with rfl | rfl
    · simp [renderTail, splitFrom_no_sep_eq '/' s hs]
    · simp only [renderTail, List.map_nil, List.flatten_nil, List.append_nil]
      rw [splitFrom_append_sep '/' s [] hs]
      simp
  | cons a st ih =>
    have e : s ++ renderTail (a :: st) ++ tr = s ++ '/' :: (a ++ renderTail st ++ tr) := by
      simp [renderTail]
    have ha := hst a (List.mem_cons_self _ _)
    have hne : a ++ renderTail st ++ tr ≠ [] := by
      intro h0
      have := List.append_eq_nil.1 (List.append_eq_nil.1 h0).1
      exact ha.1 this.1
    rw [e, splitFrom_append_sep '/' s _ hs, if_neg hne,
      ih a ha.2.1 (fun x hx => hst x (List.mem_cons_of_mem _ hx))]

theorem foldl_stackStep_goodSegs (segs st : List (List Char)) (h : ∀ x ∈ segs, GoodSeg x) :
    segs.foldl stackStep st = st ++ segs := by
  induction segs generalizing st with
  | nil => simp
  | cons a segs ih =>
    have ha := h a (List.mem_cons_self _ _)
    have e : stackStep st a = st ++ [a] := by
      unfold stackStep
      simp only [ha.2.2.2, ha.2.2.1, ha.1, if_false, ne_eq, not_false_eq_true, if_true]
    simp only [List.foldl_cons, e]
    rw [ih _ (fun x hx => h x (List.mem_cons_of_mem _ hx))]
    simp

theorem endsWith_append_slash (l : List Char) : endsWith (l ++ ['/']) (cstr "/") = true := by
  unfold endsWith
  rw [cstr_slash]
  simp [List.isPrefixOf]

theorem endsWith_slash_iff (l : List Char) :
    endsWith l (cstr "/") = true ↔ l.getLast? = some '/' := by
  unfold endsWith
  rw [cstr_slash, List.getLast?_eq_head?_reverse]
  cases l.reverse with
  | nil => simp [List.isPrefixOf]
  | cons a r =>
    simp only [List.reverse_cons, List.reverse_nil, List.nil_append, List.isPrefixOf,
      Bool.and_true, beq_iff_eq, List.head?_cons, Option.some.injEq]
    exact eq_comm

theorem getLast_renderTail (st : List (List Char)) (hst : ∀ x ∈ st, GoodSeg x) (u : List Char)
    (hu : u.getLast? ≠ some '/') : (u ++ renderTail st).getLast? ≠ some '/' := by
  induction st generalizing u with
  | nil => simpa [renderTail] using hu
  | cons a st ih =>
    have ha := hst a (List.mem_cons_self _ _)
    have e : u ++ renderTail (a :: st) = (u ++ '/' :: a) ++ renderTail st := by
      simp [renderTail]
    rw [e]
    apply ih (fun x hx => hst x (List.mem_cons_of_mem _ hx))
    intro h
    have hne : a ≠ [] := ha.1
    rw [List.getLast?_append_of_ne_nil _ (by simp)] at h
    cases a with
    | nil => exact hne rfl
    | cons x a2 =>
      rw [List.getLast?_cons_cons] at h
      have hm : '/' ∈ x :: a2 := List.mem_of_getLast?_eq_some h
      exact ha.2.1 hm

theorem cleanPath_slash (E : Env) : cleanPath E ['/'] = ['/'] := by
  rw [cleanPath_eq_render]
  have h1 : keptSegs ['/'] = [] := by decide
  have h2 : endsWith ['/'] (cstr "/") = true := by decide
  rw [h1, h2, render_nil]
  rfl

theorem head_goodSeg (s : List Char) (h : GoodSeg s) : ∃ c r, s = c :: r ∧ c ≠ '/' := by
  cases s with
  | nil => exact absurd rfl h.1
  | cons c r => exact ⟨c, r, rfl, fun e => h.2.1 (by simp [e])⟩

theorem getLast_goodSeg (u s : List Char) (h : GoodSeg s) : (u ++ s).getLast? ≠ some '/' := by
  intro hl
  rw [List.getLast?_append_of_ne_nil _ h.1] at hl
  exact h.2.1 (List.mem_of_getLast?_eq_some hl)

theorem cleanPath_render_cons (E : Env) (absPath : Bool) (s : List Char)
    (st : List (List Char)) (tr : List Char) (hs : GoodSeg s) (hst : ∀ x ∈ st, GoodSeg x)
    (htr : tr = [] ∨ tr = ['/']) :
    cleanPath E (render absPath (s :: st) ++ tr) = render absPath (s :: st) ++ tr := by
  obtain ⟨c, r, hcr, hc⟩ := head_goodSeg s hs
  have hgood : ∀ x ∈ s :: st, GoodSeg x := by
    intro x hx
    rcases List.mem_cons.1 hx with rfl | hx
    · exact hs
    · exact hst x hx
  have hren : render absPath (s :: st) = (if absPath then ['/'] else []) ++ s ++ renderTail st := by
    cases absPath <;> simp [render, renderTail]
  have hstart : startsWith (render absPath (s :: st) ++ tr) (cstr "/") = absPath := by
    cases absPath with
    | true =>
      apply (startsWith_slash_iff _).2
      simp [render, renderTail]
    | false =>
      have : ¬ (startsWith (render false (s :: st) ++ tr) (cstr "/") = true) := by
        rw [startsWith_slash_iff]
        simp [render, hcr, hc]
      simpa using this
  have hkept : keptSegs (render absPath (s :: st) ++ tr) = s :: st := by
    unfold keptSegs
    have hsplit : nextSplit_Rangecc (render absPath (s :: st) ++ tr) '/' = s :: st := by
      cases absPath with
      | true =>
        have e : render true (s :: st) ++ tr = '/' :: (s ++ renderTail st ++ tr) := by
          simp [render, renderTail]
        rw [e]
        simp only [nextSplit_Rangecc, if_true]
        exact splitFrom_render s st tr hs.2.1 hst htr
      | false =>
        have e : render false (s :: st) ++ tr = c :: (r ++ renderTail st ++ tr) := by
          simp [render, hcr]
        rw [e]
        simp only [nextSplit_Rangecc, hc, if_false]
        have e2 : c :: (r ++ renderTail st ++ tr) = s ++ renderTail st ++ tr := by
          simp [hcr]
        rw [e2]
        exact splitFrom_render s st tr hs.2.1 hst htr
    rw [hsplit, foldl_stackStep_goodSegs _ _ hgood]
    simp
  have hend : (if endsWith (render absPath (s :: st) ++ tr) (cstr "/") = true then cstr "/"
      else []) = tr := by
    rcases htr with rfl | rfl
    · have : ¬ (endsWith (render absPath (s :: st) ++ []) (cstr "/") = true) := by
        rw [endsWith_slash_iff, List.append_nil, hren]
        apply getLast_renderTail st hst
        exact getLast_goodSeg _ s hs
      rw [if_neg this]
    · rw [if_pos (endsWith_append_slash _)]
      rfl
  rw [cleanPath_eq_render, hstart, hkept, hend]

/-- Cleaning a cleaned path changes nothing. -/
theorem cleanPath_idem (E : Env) (path : List Char) :
    cleanPath E (cleanPath E path) = cleanPath E path := by
  have hgood := keptSegs_good path
  have htr : (if endsWith path (cstr "/") = true then cstr "/" else []) = [] ∨
      (if endsWith path (cstr "/") = true then cstr "/" else []) = ['/'] := by
    split
    · right; rfl
    · left; rfl
  rw [cleanPath_eq_render E path]
  generalize (if endsWith path (cstr "/") = true then cstr "/" else []) = tr at htr
  cases hk : keptSegs path with
  | nil =>
    rw [render_nil, List.nil_append]
    rcases htr with rfl | rfl
    · exact cleanPath_nil E
    · exact cleanPath_slash E
  | cons s st =>
    rw [hk] at hgood
    exact cleanPath_render_cons E _ s st tr (hgood s (List.mem_cons_self _ _))
      (fun x hx => hgood x (List.mem_cons_of_mem _ hx)) htr

/-- The cleaned path never begins with two slashes. -/
theorem cleanPath_no_double_slash (E : Env) (path r : List Char) :
    cleanPath E path ≠ '/' :: '/' :: r := by
  have hgood := keptSegs_good path
  rw [cleanPath_eq_render E path]
  cases hk : keptSegs path with
  | nil =>
    rw [render_nil, List.nil_append]
    split
    · rw [cstr_slash]; simp
    · simp
  | cons s st =>
    rw [hk] at hgood
    obtain ⟨c, r2, hcr, hc⟩ := head_goodSeg s (hgood s (List.mem_cons_self _ _))
    cases startsWith path (cstr "/") with
    | true =>
      simp only [render, renderTail, List.map_cons, List.flatten_cons, hcr, List.cons_append]
      intro h
      simp only [List.cons.injEq, true_and] at h
      exact hc h.1
    | false =>
      simp only [render, hcr, List.cons_append]
      intro h
      simp only [List.cons.injEq] at h
      exact hc h.1

/-! ## Decomposing a cleaned text -/

theorem dropWhile_stop_eq (p : Char → Bool) (R : List Char)
    (hR : ∀ c, R.head? = some c → p c = false) : R.dropWhile p = R := by
  cases R with
  | nil => rfl
  | cons a r => simp [List.dropWhile_cons, hR a rfl]

theorem takeWhile_stop_eq (p : Char → Bool) (R : List Char)
    (hR : ∀ c, R.head? = some c → p c = false) : R.takeWhile p = [] := by
  cases R with
  | nil => rfl
  | cons a r => simp [List.takeWhile_cons, hR a rfl]

theorem head_dropWhile_append (p : Char → Bool) (Q R : List Char) (c : Char)
    (hR : ∀ c, R.head? = some c → p c = false)
    (h : ((Q ++ R).dropWhile p).head? = some c) : c ∈ Q ∨ R.head? = some c := by
  induction Q with
  | nil =>
    right
    rw [List.nil_append, dropWhile_stop_eq p R hR] at h
    exact h
  | cons a Q ih =>
    by_cases ha : p a = true
    · simp only [List.cons_append, List.dropWhile_cons, ha, if_true] at h
      rcases ih h with h | h
      · exact Or.inl (List.mem_cons_of_mem _ h)
      · exact Or.inr h
    · simp only [List.cons_append, List.dropWhile_cons, ha] at h
      left
      simp only [Bool.false_eq_true, if_false, List.head?_cons, Option.some.injEq] at h
      simp [h]

theorem schemeGroupLen_shape (t : List Char) (h : schemeGroupLen t ≠ 0) :
    ∃ S rest, t = S ++ ':' :: rest ∧ S ≠ [] ∧ (∀ c ∈ S, isSchemeCh c = true) ∧
      schemeGroupLen t = S.length + 1 := by
  unfold schemeGroupLen at h ⊢
  simp only [] at h ⊢
  split at h
  · rename_i hc
    simp only [Bool.and_eq_true, bne_iff_ne, ne_eq, beq_iff_eq] at hc
    rw [if_pos (by simp only [Bool.and_eq_true, bne_iff_ne, ne_eq, beq_iff_eq]; exact hc)]
    cases hd : t.dropWhile isSchemeCh with
    | nil => rw [hd] at hc; simp at hc
    | cons a rest =>
      rw [hd] at hc
      simp only [List.head?_cons, Option.some.injEq] at hc
      refine ⟨t.takeWhile isSchemeCh, rest, ?_, ?_, fun c hc => List.mem_takeWhile_imp hc, rfl⟩
      · rw [← hc.2, ← hd, List.takeWhile_append_dropWhile]
      · intro h0
        exact hc.1 (by rw [h0]; rfl)
  · exact absurd rfl h

theorem schemeGroupLen_slash (x : List Char) : schemeGroupLen ('/' :: x) = 0 := by
  unfold schemeGroupLen
  have : isSchemeCh '/' = false := rfl
  simp [List.takeWhile_cons, this]

/-- A text made of path characters without colon, followed by nothing or by a
`?` or `#`, has no scheme. -/
theorem schemeGroupLen_no_colon (Q R : List Char) (hQ : ':' ∉ Q)
    (hR : ∀ c, R.head? = some c → isPathCh c = false) : schemeGroupLen (Q ++ R) = 0 := by
  unfold schemeGroupLen
  simp only []
  rw [if_neg]
  intro h
  simp only [Bool.and_eq_true, beq_iff_eq] at h
  have hR2 : ∀ c, R.head? = some c → isSchemeCh c = false := by
    intro c hc
    have := hR c hc
    have h2 : c = '?' ∨ c = '#' := by
      unfold isPathCh at this
      simp only [Bool.not_eq_false', Bool.or_eq_true, beq_iff_eq] at this
      exact this
    rcases h2 with rfl | rfl <;> rfl
  rcases head_dropWhile_append isSchemeCh Q R ':' hR2 h.2 with h1 | h1
  · exact hQ h1
  · exact absurd (hR ':' h1) (by decide)

theorem authGroupLen_eq_zero (u : List Char) (h : ∀ r, u ≠ '/' :: '/' :: r) :
    authGroupLen u = 0 := by
  unfold authGroupLen
  rw [if_neg]
  intro hs
  obtain ⟨r, hr⟩ := (startsWith_slashes u).1 hs
  exact h r hr

theorem authGroupLen_shape (u : List Char) (h : authGroupLen u ≠ 0) :
    ∃ X, u = '/' :: '/' :: X := by
  by_contra hc
  apply h
  apply authGroupLen_eq_zero
  intro r hr
  exact hc ⟨r, hr⟩

/-- After an authority, the cleaned path and what follows it begin with a
character that ends the authority. -/
theorem cleaned_rest_head (E : Env) (X : List Char) (c : Char)
    (h : (cleanPath E ((X.dropWhile isAuthCh).takeWhile isPathCh) ++
      (X.dropWhile isAuthCh).dropWhile isPathCh).head? = some c) : isAuthCh c = false := by
  have hQ := cleanPath_head_abs E _ (path_after_auth_head X)
  rcases hQ with hQ | hQ
  · rw [hQ, List.nil_append] at h
    exact not_pathCh_not_authCh c (head_dropWhile_stop isPathCh _ c h)
  · cases hq : cleanPath E ((X.dropWhile isAuthCh).takeWhile isPathCh) with
    | nil => rw [hq] at hQ; simp at hQ
    | cons a l =>
      rw [hq] at hQ h
      simp only [List.head?_cons, Option.some.injEq, List.cons_append] at hQ h
      rw [← h, hQ]; rfl

/-- Cleaning the path that follows the authority group leaves the authority
group as it is. -/
theorem authGroupLen_cleaned (E : Env) (u : List Char) :
    authGroupLen (u.take (authGroupLen u) ++
      cleanPath E ((u.drop (authGroupLen u)).takeWhile isPathCh) ++
      (u.drop (authGroupLen u)).dropWhile isPathCh) = authGroupLen u := by
  by_cases hm : authGroupLen u = 0
  · rw [hm, List.take_zero, List.drop_zero, List.nil_append]
    apply authGroupLen_eq_zero
    intro r hr
    have hR := head_dropWhile_stop isPathCh u
    cases hq : cleanPath E (u.takeWhile isPathCh) with
    | nil =>
      rw [hq, List.nil_append] at hr
      exact absurd (hR '/' (by rw [hr]; rfl)) (by decide)
    | cons a q =>
      cases q with
      | nil =>
        rw [hq] at hr
        simp only [List.cons_append, List.nil_append, List.cons.injEq] at hr
        exact absurd (hR '/' (by rw [hr.2]; rfl)) (by decide)
      | cons b q2 =>
        rw [hq] at hr
        simp only [List.cons_append, List.cons.injEq] at hr
        apply cleanPath_no_double_slash E (u.takeWhile isPathCh) q2
        rw [hq, hr.1, hr.2.1]
  · obtain ⟨X, rfl⟩ := authGroupLen_shape u hm
    rw [authGroupLen_slashes]
    have e1 : ('/' :: '/' :: X).take (2 + (X.takeWhile isAuthCh).length) =
        '/' :: '/' :: X.takeWhile isAuthCh := by
      rw [Nat.add_comm]
      simp only [List.take_succ_cons]
      rw [take_length_takeWhile]
    have e2 : ('/' :: '/' :: X).drop (2 + (X.takeWhile isAuthCh).length) =
        X.dropWhile isAuthCh := by
      rw [Nat.add_comm]
      simp only [List.drop_succ_cons]
      rw [drop_length_takeWhile]
    rw [e1, e2]
    simp only [List.cons_append, List.append_assoc]
    rw [authGroupLen_slashes,
      takeWhile_append_stop isAuthCh _ _ (fun c hc => List.mem_takeWhile_imp hc)
        (cleaned_rest_head E X)]

theorem not_mem_cleanPath_colon (E : Env) (path : List Char) (h : ':' ∉ path) :
    ':' ∉ cleanPath E path := by
  intro hc
  rcases mem_cleanPath E path ':' hc with h1 | h1
  · exact absurd h1 (by decide)
  · exact h h1

/-- The path of a cleaned text begins where the path of the text begins,
provided something precedes the path or the path has no colon. -/
theorem pathOffset_cleaned (E : Env) (t : List Char)
    (hc : pathOffset t ≠ 0 ∨ ':' ∉ (t.drop (pathOffset t)).takeWhile isPathCh) :
    schemeGroupLen (t.take (pathOffset t) ++
        cleanPath E ((t.drop (pathOffset t)).takeWhile isPathCh) ++
        (t.drop (pathOffset t)).dropWhile isPathCh) = schemeGroupLen t ∧
    pathOffset (t.take (pathOffset t) ++
        cleanPath E ((t.drop (pathOffset t)).takeWhile isPathCh) ++
        (t.drop (pathOffset t)).dropWhile isPathCh) = pathOffset t := by
  have hB := authGroupLen_cleaned E (t.drop (schemeGroupLen t))
  have hoff : pathOffset t = schemeGroupLen t + authGroupLen (t.drop (schemeGroupLen t)) := rfl
  have hkle := schemeGroupLen_le t
  generalize pathOffset t = o at hc hoff ⊢
  generalize hkdef : schemeGroupLen t = k at hB hoff hkle
  generalize hmdef : authGroupLen (t.drop k) = m at hB hoff
  have hdrop : t.drop o = (t.drop k).drop m := by
    rw [hoff, List.drop_drop, Nat.add_comm]
  have htake : t.take o = t.take k ++ (t.drop k).take m := by
    rw [hoff, List.take_add]
  have hlen : (t.take k).length = k := by
    rw [List.length_take]
    exact Nat.min_eq_left hkle
  rw [← hdrop] at hB
  have hdrop2 : (t.take o ++ cleanPath E ((t.drop o).takeWhile isPathCh) ++
        (t.drop o).dropWhile isPathCh).drop k =
      (t.drop k).take m ++ cleanPath E ((t.drop o).takeWhile isPathCh) ++
        (t.drop o).dropWhile isPathCh := by
    rw [htake]
    simp only [List.append_assoc]
    nth_rewrite 1 [← hlen]
    rw [List.drop_left]
  have hA : schemeGroupLen (t.take o ++ cleanPath E ((t.drop o).takeWhile isPathCh) ++
        (t.drop o).dropWhile isPathCh) = k := by
    by_cases hk : k = 0
    · subst hk
      by_cases hm : m = 0
      · subst hm
        have ho : o = 0 := by omega
        subst ho
        rcases hc with hc | hc
        · exact absurd rfl hc
        · rw [List.take_zero, List.nil_append]
          exact schemeGroupLen_no_colon _ _ (not_mem_cleanPath_colon E _ hc)
            (head_dropWhile_stop isPathCh _)
      · obtain ⟨X, hX⟩ := authGroupLen_shape (t.drop 0) (by rw [hmdef]; exact hm)
        rw [List.drop_zero] at hX
        have h2 : 2 ≤ o := by
          rw [List.drop_zero, hX, authGroupLen_slashes] at hmdef
          omega
        obtain ⟨n, hn⟩ : ∃ n, o = n + 2 := ⟨o - 2, by omega⟩
        rw [hn, hX]
        simp only [List.take_succ_cons, List.cons_append]
        exact schemeGroupLen_slash _
    · obtain ⟨S, rest, hS, hne, hSch, hkS⟩ := schemeGroupLen_shape t (by rw [hkdef]; exact hk)
      rw [hkdef] at hkS
      have e : t.take k = S ++ [':'] := by
        rw [hS, hkS, show S.length + 1 = (S ++ [':']).length by simp,
          show S ++ ':' :: rest = (S ++ [':']) ++ rest by simp, List.take_left]
      rw [htake, e]
      simp only [List.append_assoc, List.singleton_append, List.cons_append]
      rw [schemeGroupLen_scheme S _ hne hSch, hkS]
  refine ⟨by rw [hA], ?_⟩
  show schemeGroupLen _ + authGroupLen (List.drop (schemeGroupLen _) _) = o
  rw [hA, hdrop2, hB, hoff]

/-- Lowering the case of a character gives a character below the small letters
only when it is that character. -/
theorem toLower_eq_small (c x : Char) (h : c.toLower = x) (hx : x.toNat < 97) : c = x := by
  unfold Char.toLower at h
  simp only [ge_iff_le] at h
  split at h
  · rename_i hc
    exfalso
    have := congrArg Char.toNat h
    rw [toNat_ofNat_small _ (by omega)] at this
    omega
  · exact h

theorem isSchemeCh_of_toLower (c : Char) (h : isSchemeCh c.toLower = true) :
    isSchemeCh c = true := by
  by_contra hn
  have hn2 : isSchemeCh c = false := by simpa using hn
  rw [toLower_of_not_scheme c hn2, hn2] at h
  exact absurd h (by decide)

/-- A text that begins with `file://`, letter case ignored, has a scheme group
of five characters and an authority group after it. -/
theorem pathOffset_of_file (t : List Char) (h : startsWithCase t (cstr "file://") = true) :
    schemeGroupLen t = 5 ∧ 7 ≤ pathOffset t := by
  unfold startsWithCase at h
  rw [cstr_fileSep] at h
  rcases t with _ | ⟨a, _ | ⟨b, _ | ⟨c, _ | ⟨d, _ | ⟨e, _ | ⟨f, _ | ⟨g, rest⟩⟩⟩⟩⟩⟩⟩
  all_goals try (simp [List.isPrefixOf] at h)
  obtain ⟨ha, hb, hc, hd, he, hf, hg⟩ := h
  have e1 : e = ':' := toLower_eq_small e ':' he.symm (by decide)
  have e2 : f = '/' := toLower_eq_small f '/' hf.symm (by decide)
  have e3 : g = '/' := toLower_eq_small g '/' hg.symm (by decide)
  subst e1 e2 e3
  have sa : isSchemeCh a = true := isSchemeCh_of_toLower a (by rw [← ha]; rfl)
  have sb : isSchemeCh b = true := isSchemeCh_of_toLower b (by rw [← hb]; rfl)
  have sc : isSchemeCh c = true := isSchemeCh_of_toLower c (by rw [← hc]; rfl)
  have sd : isSchemeCh d = true := isSchemeCh_of_toLower d (by rw [← hd]; rfl)
  have hk : schemeGroupLen (a :: b :: c :: d :: ':' :: '/' :: '/' :: rest) = 5 := by
    have := schemeGroupLen_scheme [a, b, c, d] ('/' :: '/' :: rest) (by simp)
      (by
        intro x hx
        simp only [List.mem_cons, List.mem_singleton, List.not_mem_nil, or_false] at hx
        rcases hx with rfl | rfl | rfl | rfl <;> assumption)
    simpa using this
  refine ⟨hk, ?_⟩
  unfold pathOffset
  rw [hk]
  simp only [List.drop_succ_cons, List.drop_zero]
  rw [authGroupLen_slashes]
  omega

theorem take_append_len (a b : List Char) (n : Nat) (h : a.length = n) :
    (a ++ b).take n = a := by
  subst h
  exact List.take_left _ _

theorem drop_append_len (a b : List Char) (n : Nat) (h : a.length = n) :
    (a ++ b).drop n = b := by
  subst h
  exact List.drop_left _ _

theorem startsWithCase_of_take_eq (d1 d2 pre : List Char)
    (h : d1.take pre.length = d2.take pre.length) :
    startsWithCase d1 pre = startsWithCase d2 pre := by
  rw [← startsWithCase_take d1, ← startsWithCase_take d2, h]

/-- Cleaning the cleaned form of a text gives the cleaned form, provided
something precedes the path of the text or the path has no colon. -/
theorem cleanUrlPath_idem (E : Env) (p : List Char)
    (hc : (init_Url p).path.start ≠ 0 ∨ ':' ∉ (init_Url p).path.of p) :
    cleanUrlPath_String E (cleanUrlPath_String E p) = cleanUrlPath_String E p := by
  have e7 : (cstr "file://").length = 7 := rfl
  by_cases hf : startsWithCase p (cstr "file://") = true
  · have hlen := startsWithCase_length p _ hf
    rw [e7] at hlen
    rw [cleanUrlPath_file E p hf]
    have hl7 : (p.take 7).length = 7 := by rw [List.length_take]; omega
    have hf2 : startsWithCase (p.take 7 ++ cleanPath E (p.drop 7)) (cstr "file://") = true := by
      rw [startsWithCase_of_take_eq _ p _
        (by rw [e7, take_append_len _ _ 7 hl7]), hf]
    rw [cleanUrlPath_file E _ hf2, take_append_len _ _ 7 hl7, drop_append_len _ _ 7 hl7,
      cleanPath_idem]
  · have hnf : startsWithCase p (cstr "file://") = false := by simpa using hf
    obtain ⟨h1, _, h3⟩ := path_of_nonfile p hnf
    rw [h1, h3] at hc
    obtain ⟨hk, ho⟩ := pathOffset_cleaned E p hc
    rw [cleanUrlPath_nonfile E p hnf]
    have hole := pathOffset_le p
    have hlo : (p.take (pathOffset p)).length = pathOffset p := by
      rw [List.length_take]; omega
    have hnf2 : startsWithCase (p.take (pathOffset p) ++
        cleanPath E ((p.drop (pathOffset p)).takeWhile isPathCh) ++
        (p.drop (pathOffset p)).dropWhile isPathCh) (cstr "file://") = false := by
      by_contra hcon
      have hcon2 : startsWithCase (p.take (pathOffset p) ++
          cleanPath E ((p.drop (pathOffset p)).takeWhile isPathCh) ++
          (p.drop (pathOffset p)).dropWhile isPathCh) (cstr "file://") = true := by
        simpa using hcon
      have h7 := (pathOffset_of_file _ hcon2).2
      rw [ho] at h7
      have : startsWithCase p (cstr "file://") = true := by
        rw [← hcon2]
        apply startsWithCase_of_take_eq
        rw [e7, List.append_assoc, List.take_append_of_le_length (by omega), List.take_take]
        congr 1
        omega
      rw [this] at hnf
      exact absurd hnf (by decide)
    rw [cleanUrlPath_nonfile E _ hnf2, ho]
    have hd : (p.take (pathOffset p) ++
        cleanPath E ((p.drop (pathOffset p)).takeWhile isPathCh) ++
        (p.drop (pathOffset p)).dropWhile isPathCh).drop (pathOffset p) =
        cleanPath E ((p.drop (pathOffset p)).takeWhile isPathCh) ++
        (p.drop (pathOffset p)).dropWhile isPathCh := by
      rw [List.append_assoc]
      exact drop_append_len _ _ _ hlo
    have ht : (p.take (pathOffset p) ++
        cleanPath E ((p.drop (pathOffset p)).takeWhile isPathCh) ++
        (p.drop (pathOffset p)).dropWhile isPathCh).take (pathOffset p) =
        p.take (pathOffset p) := by
      rw [List.append_assoc]
      exact take_append_len _ _ _ hlo
    have hQp := isPathCh_cleanPath E ((p.drop (pathOffset p)).takeWhile isPathCh)
      (fun c hc => List.mem_takeWhile_imp hc)
    have hR := head_dropWhile_stop isPathCh (p.drop (pathOffset p))
    rw [hd, ht, takeWhile_append_stop isPathCh _ _ hQp hR,
      dropWhile_append_stop isPathCh _ _ hQp hR, cleanPath_idem]

/-! ## The port reported by `init_Url` -/

theorem authPortAt_shape (s : List Char) (h : authPortAt s ≠ 0) :
    ∃ r, s = ':' :: r ∧ authPortAt s = (r.takeWhile isPortCh).length := by
  unfold authPortAt at h ⊢
  split at h
  · rename_i r
    exact ⟨r, rfl, rfl⟩
  · exact absurd rfl h

theorem authMatchAt_port (s : List Char) (off : Nat) (h p : Range)
    (hm : authMatchAt s off = some (h, p)) :
    p = iNullRange ∨ ∃ pre r, s = pre ++ ':' :: r ∧
      p = ⟨off + pre.length + 1, off + pre.length + 1 + (r.takeWhile isPortCh).length⟩ := by
  unfold authMatchAt at hm
  simp only [] at hm
  generalize (match (if ((s.takeWhile (fun c => !(c == '@'))).length != 0 &&
      (s.drop (s.takeWhile (fun c => !(c == '@'))).length).head? == some '@') = true
      then Option.map (fun h => ((s.takeWhile (fun c => !(c == '@'))).length + 1, h))
        (authHostAt (s.drop ((s.takeWhile (fun c => !(c == '@'))).length + 1)))
      else none) with
    | some r => some r
    | none => Option.map (fun h => (0, h)) (authHostAt s)) = ho at hm
  cases ho with
  | none => simp at hm
  | some oh =>
    obtain ⟨o, hl⟩ := oh
    simp only [Option.map_some', Option.some.injEq, Prod.mk.injEq] at hm
    obtain ⟨_, hp⟩ := hm
    by_cases hk : authPortAt (s.drop (o + hl)) = 0
    · left
      rw [← hp]
      simp [hk]
    · right
      obtain ⟨r, hr, hkr⟩ := authPortAt_shape _ hk
      have hlen : o + hl < s.length := by
        by_contra hc
        rw [List.drop_eq_nil_of_le (by omega)] at hr
        simp at hr
      refine ⟨s.take (o + hl), r, ?_, ?_⟩
      · rw [← hr, List.take_append_drop]
      · rw [← hp]
        have hb : (authPortAt (s.drop (o + hl)) != 0) = true := by simpa using hk
        rw [if_pos hb, hkr, List.length_take, Nat.min_eq_left (by omega)]
        simp only [Range.mk.injEq]
        omega

theorem authSearch_port (s : List Char) (off : Nat) (h p : Range)
    (hm : authSearch s off = some (h, p)) :
    p = iNullRange ∨ ∃ pre r, s = pre ++ ':' :: r ∧
      p = ⟨off + pre.length + 1, off + pre.length + 1 + (r.takeWhile isPortCh).length⟩ := by
  induction s generalizing off with
  | nil => simp [authSearch] at hm
  | cons c s ih =>
    unfold authSearch at hm
    cases hma : authMatchAt (c :: s) off with
    | some m =>
      rw [hma] at hm
      simp only [Option.some.injEq] at hm
      rw [hm] at hma
      exact authMatchAt_port _ _ _ _ hma
    | none =>
      rw [hma] at hm
      rcases ih (off + 1) hm with h1 | ⟨pre, r, hs, hp⟩
      · exact Or.inl h1
      · right
        refine ⟨c :: pre, r, by rw [hs]; rfl, ?_⟩
        rw [hp]
        simp only [List.length_cons, Range.mk.injEq]
        omega

/-- The port reported by `init_Url` is made of digits. -/
theorem port_of_init_Url_digits (t : List Char) :
    ∀ c ∈ (init_Url t).port.of t, isPortCh c = true := by
  by_cases hf : startsWithCase t (cstr "file://") = true
  · have : (init_Url t).port = iNullRange := by unfold init_Url; rw [if_pos hf]
    rw [this]
    simp [Range.of, iNullRange]
  · have hport : (init_Url t).port = match authPattern_ t (urlPattern_ t).g4 with
        | some (_, p) => p
        | none => ⟨(urlPattern_ t).g4.stop, (urlPattern_ t).g4.stop⟩ := by
      unfold init_Url; rw [if_neg hf]
    rw [hport]
    cases ha : authPattern_ t (urlPattern_ t).g4 with
    | none => simp [Range.of]
    | some hp =>
      obtain ⟨h, p⟩ := hp
      simp only []
      unfold authPattern_ at ha
      rcases authSearch_port _ _ _ _ ha with h1 | ⟨pre, r, hs, hpr⟩
      · rw [h1]; simp [Range.of, iNullRange]
      · rw [hpr]
        simp only [Range.of, Nat.add_sub_cancel_left]
        unfold Range.of at hs
        obtain ⟨D, hD⟩ : ∃ D, t.drop (urlPattern_ t).g4.start = (pre ++ [':']) ++ (r ++ D) := by
          refine ⟨(t.drop (urlPattern_ t).g4.start).drop
            ((urlPattern_ t).g4.stop - (urlPattern_ t).g4.start), ?_⟩
          have e : (pre ++ [':']) ++ (r ++ (t.drop (urlPattern_ t).g4.start).drop
              ((urlPattern_ t).g4.stop - (urlPattern_ t).g4.start)) =
              (pre ++ ':' :: r) ++ (t.drop (urlPattern_ t).g4.start).drop
              ((urlPattern_ t).g4.stop - (urlPattern_ t).g4.start) := by
            simp only [List.append_assoc, List.singleton_append, List.cons_append,
              List.nil_append]
          rw [e, ← hs, List.take_append_drop]
        have e1 : t.drop ((urlPattern_ t).g4.start + pre.length + 1) =
            (t.drop (urlPattern_ t).g4.start).drop (pre.length + 1) := by
          rw [List.drop_drop]
          congr 1
          try omega
        rw [e1, hD, drop_append_len (pre ++ [':']) _ (pre.length + 1) (by simp),
          List.take_append_of_le_length (length_takeWhile_le _ _), take_length_takeWhile]
        intro c hc
        exact List.mem_takeWhile_imp hc

/-! ## Host and scheme of a text that begins with a scheme and `://` -/

theorem urlPattern_scheme_auth (S X : List Char) (hne : S ≠ [])
    (hS : ∀ c ∈ S, isSchemeCh c = true) :
    (urlPattern_ (S ++ cstr "://" ++ X)).g2 = ⟨0, S.length⟩ ∧
    (urlPattern_ (S ++ cstr "://" ++ X)).g4 =
      ⟨S.length + 3, S.length + 3 + (X.takeWhile isAuthCh).length⟩ := by
  have e : S ++ cstr "://" ++ X = S ++ ':' :: ('/' :: '/' :: X) := by
    rw [cstr_sep]; simp
  have hk : schemeGroupLen (S ++ cstr "://" ++ X) = S.length + 1 := by
    rw [e]; exact schemeGroupLen_scheme S _ hne hS
  have hd : (S ++ cstr "://" ++ X).drop (S.length + 1) = '/' :: '/' :: X := by
    rw [e, show S ++ ':' :: '/' :: '/' :: X = (S ++ [':']) ++ '/' :: '/' :: X by simp]
    exact drop_append_len _ _ _ (by simp)
  unfold urlPattern_
  simp only [hk, hd, authGroupLen_slashes]
  constructor
  · simp
  · have : (S.length + 1 + (2 + (X.takeWhile isAuthCh).length) != S.length + 1) = true := by
      simp
    rw [if_pos this]
    simp only [Range.mk.injEq]
    exact ⟨trivial, by omega⟩

theorem takeWhile_all (p : Char → Bool) (l : List Char) (h : ∀ c ∈ l, p c = true) :
    l.takeWhile p = l := by
  have := takeWhile_append_stop p l [] h (by simp)
  simpa using this

theorem isPlainHost_spec (H : List Char) (h : isPlainHost H = true) :
    H ≠ [] ∧ (∀ c ∈ H, isHostCh c = true) ∧ (∀ c ∈ H, isAuthCh c = true) ∧ '@' ∉ H := by
  unfold isPlainHost at h
  simp only [Bool.and_eq_true, Bool.not_eq_true', List.all_eq_true, Bool.not_eq_true',
    beq_eq_false_iff_ne, ne_eq] at h
  refine ⟨?_, fun c hc => (h.2 c hc).1.1, fun c hc => (h.2 c hc).1.2, fun hm => (h.2 '@' hm).2 rfl⟩
  intro h0
  rw [h0] at h
  simp at h

theorem isBracketHost_spec (H : List Char) (h : isBracketHost H = true) :
    ∃ body, H = '[' :: (body ++ [']']) ∧ body ≠ [] ∧ ∀ c ∈ body, isIp6Ch c = true := by
  unfold isBracketHost at h
  split at h
  · rename_i r
    simp only [Bool.and_eq_true, Bool.not_eq_true', beq_iff_eq] at h
    refine ⟨r.takeWhile isIp6Ch, ?_, ?_, fun c hc => List.mem_takeWhile_imp hc⟩
    · rw [← h.2, List.takeWhile_append_dropWhile]
    · intro h0
      rw [h0] at h
      simp at h
  · exact absurd h (by decide)

theorem isIp6Ch_spec (c : Char) (h : isIp6Ch c = true) :
    isAuthCh c = true ∧ c ≠ '@' ∧ c ≠ ']' := by
  refine ⟨?_, ?_, ?_⟩
  · by_contra hn
    have hn2 : isAuthCh c = false := by simpa using hn
    have h3 : c = '/' ∨ c = '?' ∨ c = '#' := by
      unfold isAuthCh at hn2
      simp only [Bool.not_eq_false', Bool.or_eq_true, beq_iff_eq] at hn2
      tauto
    rcases h3 with rfl | rfl | rfl <;> exact absurd h (by decide)
  · rintro rfl; exact absurd h (by decide)
  · rintro rfl; exact absurd h (by decide)

/-- What the authority pattern reports as host when the authority is a plain
host or a bracketed address, followed by nothing or by a colon and a text
without `@`. -/
theorem authSearch_host (H portPart : List Char) (off : Nat)
    (hH : isPlainHost H = true ∨ isBracketHost H = true)
    (hP : portPart = [] ∨ ∃ P, portPart = ':' :: P ∧ '@' ∉ P) :
    ∃ p, authSearch (H ++ portPart) off = some (⟨off, off + H.length⟩, p) := by
  have hPat : '@' ∉ portPart := by
    rcases hP with rfl | ⟨P, rfl, hP⟩
    · simp
    · intro hm
      rcases List.mem_cons.1 hm with h | h
      · exact absurd h (by decide)
      · exact hP h
  have hPhead : ∀ c, portPart.head? = some c → c = ':' := by
    intro c hc
    rcases hP with rfl | ⟨P, rfl, _⟩
    · simp at hc
    · simpa using hc.symm
  have hHat : '@' ∉ H := by
    rcases hH with hH | hH
    · exact (isPlainHost_spec H hH).2.2.2
    · obtain ⟨body, rfl, _, hb⟩ := isBracketHost_spec H hH
      intro hm
      simp only [List.mem_cons, List.mem_append, List.mem_singleton] at hm
      rcases hm with h | h | h
      · exact absurd h (by decide)
      · exact (isIp6Ch_spec _ (hb _ h)).2.1 rfl
      · exact absurd h (by decide)
  have hHne : H ≠ [] := by
    rcases hH with hH | hH
    · exact (isPlainHost_spec H hH).1
    · obtain ⟨body, rfl, _, _⟩ := isBracketHost_spec H hH
      simp
  have hhost : authHostAt (H ++ portPart) = some H.length := by
    rcases hH with hH | hH
    · obtain ⟨_, hh, _, _⟩ := isPlainHost_spec H hH
      unfold authHostAt
      simp only []
      rw [takeWhile_append_stop isHostCh H portPart hh
        (fun c hc => by rw [hPhead c hc]; rfl)]
      have : (H.length != 0) = true := by
        simpa using hHne
      rw [if_pos this]
    · obtain ⟨body, rfl, hbne, hb⟩ := isBracketHost_spec H hH
      unfold authHostAt
      have h0 : ('[' :: (body ++ [']']) ++ portPart).takeWhile isHostCh = [] := by
        simp [List.takeWhile_cons, isHostCh]
      simp only [h0, List.length_nil, bne_self_eq_false, Bool.false_eq_true, if_false,
        List.cons_append]
      have e : body ++ [']'] ++ portPart = body ++ ']' :: portPart := by simp
      rw [e, takeWhile_append_stop isIp6Ch body (']' :: portPart) hb
        (fun c hc => by
          simp only [List.head?_cons, Option.some.injEq] at hc
          subst hc; rfl)]
      have hd : (body ++ ']' :: portPart).drop body.length = ']' :: portPart :=
        List.drop_left _ _
      rw [hd]
      have : (body.length != 0) = true := by
        simpa using hbne
      simp only [this, List.head?_cons, beq_self_eq_true, Bool.and_self, if_true,
        List.length_cons, List.length_append, List.length_nil]
      congr 1
      try omega
  have hmatch : ∃ p, authMatchAt (H ++ portPart) off = some (⟨off, off + H.length⟩, p) := by
    unfold authMatchAt
    simp only []
    have hall : (H ++ portPart).takeWhile (fun c => !(c == '@')) = H ++ portPart := by
      apply takeWhile_all
      intro c hc
      have : c ≠ '@' := by
        rintro rfl
        rcases List.mem_append.1 hc with h | h
        · exact hHat h
        · exact hPat h
      simpa using this
    rw [hall, List.drop_length]
    have hb : ((H ++ portPart).length != 0 && ([] : List Char).head? == some '@') = false := by
      simp
    rw [hb]
    simp only [Bool.false_eq_true, if_false, hhost, Option.map_some', Nat.add_zero]
    exact ⟨_, rfl⟩
  obtain ⟨p, hp⟩ := hmatch
  refine ⟨p, ?_⟩
  cases hA : H ++ portPart with
  | nil =>
    exfalso
    exact hHne (List.append_eq_nil.1 hA).1
  | cons c r =>
    rw [hA] at hp
    unfold authSearch
    rw [hp]

theorem isAuthCh_of_host (H : List Char)
    (hH : isPlainHost H = true ∨ isBracketHost H = true) : ∀ c ∈ H, isAuthCh c = true := by
  rcases hH with hH | hH
  · exact (isPlainHost_spec H hH).2.2.1
  · obtain ⟨body, rfl, _, hb⟩ := isBracketHost_spec H hH
    intro c hc
    simp only [List.mem_cons, List.mem_append, List.not_mem_nil, or_false] at hc
    rcases hc with rfl | hc | rfl
    · rfl
    · exact (isIp6Ch_spec c (hb c hc)).1
    · rfl

/-- Scheme and host of a text made of a scheme other than `file`, `://`, a
plain host or bracketed address, an optional colon with a text of authority
characters without `@`, and a rest that ends the authority. -/
theorem scheme_host_of_scheme_auth (S H portPart rest : List Char) (hne : S ≠ [])
    (hS : ∀ c ∈ S, isSchemeCh c = true)
    (hnf : equalCase_Rangecc S (cstr "file") = false)
    (hH : isPlainHost H = true ∨ isBracketHost H = true)
    (hP : portPart = [] ∨ ∃ P, portPart = ':' :: P ∧ '@' ∉ P ∧ ∀ c ∈ P, isAuthCh c = true)
    (hrest : ∀ c, rest.head? = some c → isAuthCh c = false) :
    (init_Url (S ++ cstr "://" ++ (H ++ portPart ++ rest))).scheme.of
        (S ++ cstr "://" ++ (H ++ portPart ++ rest)) = S ∧
    (init_Url (S ++ cstr "://" ++ (H ++ portPart ++ rest))).host.of
        (S ++ cstr "://" ++ (H ++ portPart ++ rest)) = H := by
  have hfile : ¬ startsWithCase (S ++ cstr "://" ++ (H ++ portPart ++ rest)) (cstr "file://")
      = true := by
    rw [startsWithCase_file_iff S _ hS, hnf]; exact Bool.false_ne_true
  have hPauth : ∀ c ∈ portPart, isAuthCh c = true := by
    rcases hP with rfl | ⟨P, rfl, _, hP⟩
    · simp
    · intro c hc
      rcases List.mem_cons.1 hc with rfl | hc
      · rfl
      · exact hP c hc
  have hA : (H ++ portPart ++ rest).takeWhile isAuthCh = H ++ portPart := by
    apply takeWhile_append_stop isAuthCh _ _ _ hrest
    intro c hc
    rcases List.mem_append.1 hc with h | h
    · exact isAuthCh_of_host H hH c h
    · exact hPauth c h
  obtain ⟨hg2, hg4⟩ := urlPattern_scheme_auth S (H ++ portPart ++ rest) hne hS
  rw [hA] at hg4
  have hl : (S ++ cstr "://").length = S.length + 3 := by rw [cstr_sep]; simp
  have hdrop : (S ++ cstr "://" ++ (H ++ portPart ++ rest)).drop (S.length + 3) =
      H ++ portPart ++ rest := drop_append_len _ _ _ hl
  have hsub : (urlPattern_ (S ++ cstr "://" ++ (H ++ portPart ++ rest))).g4.of
      (S ++ cstr "://" ++ (H ++ portPart ++ rest)) = H ++ portPart := by
    rw [hg4]
    simp only [Range.of, Nat.add_sub_cancel_left]
    rw [hdrop]
    exact take_append_len _ _ _ rfl
  obtain ⟨p, hp⟩ := authSearch_host H portPart (S.length + 3) hH
    (by
      rcases hP with h | ⟨P, h1, h2, _⟩
      · exact Or.inl h
      · exact Or.inr ⟨P, h1, h2⟩)
  have hauth : authPattern_ (S ++ cstr "://" ++ (H ++ portPart ++ rest))
      (urlPattern_ (S ++ cstr "://" ++ (H ++ portPart ++ rest))).g4 =
      some (⟨S.length + 3, S.length + 3 + H.length⟩, p) := by
    unfold authPattern_
    rw [hsub, hg4]
    exact hp
  constructor
  · have : (init_Url (S ++ cstr "://" ++ (H ++ portPart ++ rest))).scheme =
        (urlPattern_ (S ++ cstr "://" ++ (H ++ portPart ++ rest))).g2 := by
      unfold init_Url; rw [if_neg hfile]
    rw [this, hg2]
    simp only [Range.of, List.drop_zero, Nat.sub_zero]
    rw [List.append_assoc]
    exact take_append_len _ _ _ rfl
  · have : (init_Url (S ++ cstr "://" ++ (H ++ portPart ++ rest))).host =
        ⟨S.length + 3, S.length + 3 + H.length⟩ := by
      unfold init_Url; rw [if_neg hfile]
      simp only [hauth]
    rw [this]
    simp only [Range.of, Nat.add_sub_cancel_left]
    rw [hdrop, List.append_assoc]
    exact take_append_len _ _ _ rfl

/-- A text whose host is defined does not begin with `file://` and has an
authority group. -/
theorem host_def_shape (t : List Char) (h : isDef_ (init_Url t).host = true) :
    startsWithCase t (cstr "file://") = false ∧
      ∃ X, t.drop (schemeGroupLen t) = '/' :: '/' :: X := by
  by_cases hf : startsWithCase t (cstr "file://") = true
  · exfalso
    have : (init_Url t).host = iNullRange := by unfold init_Url; rw [if_pos hf]
    rw [this] at h
    exact absurd h (by decide)
  · refine ⟨by simpa using hf, ?_⟩
    by_cases ha : authGroupLen (t.drop (schemeGroupLen t)) = 0
    · exfalso
      have hg4 : (urlPattern_ t).g4 = iNullRange := by
        unfold urlPattern_
        simp only [ha, Nat.add_zero, bne_self_eq_false, Bool.false_eq_true, if_false]
      have hhost : (init_Url t).host = iNullRange := by
        unfold init_Url
        rw [if_neg hf]
        simp only [hg4, authPattern_]
        have : iNullRange.of t = [] := by simp [Range.of, iNullRange]
        rw [this, authSearch_nil]
      rw [hhost] at h
      exact absurd h (by decide)
    · exact authGroupLen_shape _ ha

/-- A reference with a scheme and a host is the scheme, `://` and a rest, and
the scheme is not `file`. -/
theorem scheme_host_shape (t : List Char) (hs : isDef_ (init_Url t).scheme = true)
    (hh : isDef_ (init_Url t).host = true) :
    (∃ X, t = (init_Url t).scheme.of t ++ cstr "://" ++ X) ∧
    equalCase_Rangecc ((init_Url t).scheme.of t) (cstr "file") = false := by
  obtain ⟨hnf, X, hX⟩ := host_def_shape t hh
  have hf : ¬ startsWithCase t (cstr "file://") = true := by rw [hnf]; exact Bool.false_ne_true
  have hsch : (init_Url t).scheme =
      if schemeGroupLen t != 0 then ⟨0, schemeGroupLen t - 1⟩ else iNullRange := by
    unfold init_Url
    rw [if_neg hf]
    rfl
  have hk : schemeGroupLen t ≠ 0 := by
    intro h0
    rw [hsch, h0] at hs
    exact absurd hs (by decide)
  obtain ⟨S, rest, hS, hne, hSch, hkS⟩ := schemeGroupLen_shape t hk
  have hof : (init_Url t).scheme.of t = S := by
    rw [hsch, if_pos (by simpa using hk), hkS]
    simp only [Range.of, List.drop_zero, Nat.sub_zero, Nat.add_sub_cancel]
    rw [hS]
    exact take_append_len _ _ _ rfl
  have hrest : rest = '/' :: '/' :: X := by
    rw [← hX, hkS]
    conv_rhs => rw [hS]
    rw [show S ++ ':' :: rest = (S ++ [':']) ++ rest by simp]
    exact (drop_append_len (S ++ [':']) rest (S.length + 1) (by simp)).symm
  have hform : t = S ++ cstr "://" ++ X := by
    rw [hS, hrest, cstr_sep]; simp
  rw [hof]
  refine ⟨⟨X, hform⟩, ?_⟩
  rw [← startsWithCase_file_iff S X hSch, ← hform]
  exact hnf

theorem isPortCh_spec (c : Char) (h : isPortCh c = true) : isAuthCh c = true ∧ c ≠ '@' := by
  constructor
  · by_contra hn
    have hn2 : isAuthCh c = false := by simpa using hn
    have h3 : c = '/' ∨ c = '?' ∨ c = '#' := by
      unfold isAuthCh at hn2
      simp only [Bool.not_eq_false', Bool.or_eq_true, beq_iff_eq] at hn2
      tauto
    rcases h3 with rfl | rfl | rfl <;> exact absurd h (by decide)
  · rintro rfl; exact absurd h (by decide)

/-- The port part written by `absoluteUrl_String` is nothing, or a colon and
digits. -/
theorem resultAuthority_shape (E : Env) (d ref : List Char) :
    ∃ portPart, resultAuthority E d ref =
        punyDecodeHost_ E ((init_Url (authoritySource d ref)).host.of (authoritySource d ref)) ++
          portPart ∧
      (portPart = [] ∨ ∃ P, portPart = ':' :: P ∧ '@' ∉ P ∧ ∀ c ∈ P, isAuthCh c = true) := by
  have key : ∀ (t : List Char) (b : Bool),
      ∃ portPart, (if b = true then punyDecodeHost_ E ((init_Url t).host.of t) ++ cstr ":" ++
          (init_Url t).port.of t else punyDecodeHost_ E ((init_Url t).host.of t)) =
        punyDecodeHost_ E ((init_Url t).host.of t) ++ portPart ∧
      (portPart = [] ∨ ∃ P, portPart = ':' :: P ∧ '@' ∉ P ∧ ∀ c ∈ P, isAuthCh c = true) := by
    intro t b
    cases b with
    | false => exact ⟨[], by simp, Or.inl rfl⟩
    | true =>
      refine ⟨cstr ":" ++ (init_Url t).port.of t, by simp only [if_true, List.append_assoc],
        Or.inr ⟨(init_Url t).port.of t, rfl, ?_, ?_⟩⟩
      · intro hm
        exact (isPortCh_spec _ (port_of_init_Url_digits t _ hm)).2 rfl
      · intro c hm
        exact (isPortCh_spec _ (port_of_init_Url_digits t _ hm)).1
  unfold resultAuthority
  simp only []
  exact key (authoritySource d ref) (!isEmpty_Range (init_Url (authoritySource d ref)).port &&
    (!equalCase_Rangecc (resultScheme d ref) (cstr "gemini") ||
      !equal_Rangecc ((init_Url (authoritySource d ref)).port.of (authoritySource d ref))
        (cstr "1965")))

/-- With a reference that has a scheme or a host, the assembled text is the
scheme, `://`, the authority, and a rest that begins with a slash. -/
theorem assembleUrl_reference_path (E : Env) (d ref : List Char)
    (h : isDef_ (init_Url ref).scheme = true ∨ isDef_ (init_Url ref).host = true) :
    ∃ rest, assembleUrl E d ref =
        resultScheme d ref ++ cstr "://" ++ (resultAuthority E d ref ++ rest) ∧
      rest.head? = some '/' := by
  have hcond : (isDef_ (init_Url ref).scheme || isDef_ (init_Url ref).host ||
      isAbsolutePath_ E ((init_Url ref).path.of ref)) = true := by
    rcases h with h | h <;> simp [h]
  unfold assembleUrl
  simp only [hcond, if_true]
  by_cases hs : startsWith ((init_Url ref).path.of ref) (cstr "/") = true
  · refine ⟨(init_Url ref).path.of ref ++ (init_Url ref).query.of ref ++
      (init_Url ref).fragment.of ref, ?_, ?_⟩
    · simp only [hs, Bool.not_true, Bool.false_eq_true, if_false, List.append_assoc]
    · have := (startsWith_slash_iff _).1 hs
      cases hp : (init_Url ref).path.of ref with
      | nil => rw [hp] at this; simp at this
      | cons a l => rw [hp] at this; simpa using this
  · refine ⟨cstr "/" ++ (init_Url ref).path.of ref ++ (init_Url ref).query.of ref ++
      (init_Url ref).fragment.of ref, ?_, ?_⟩
    · have hs2 : startsWith ((init_Url ref).path.of ref) (cstr "/") = false := by simpa using hs
      simp only [hs2, Bool.not_false, if_true, List.append_assoc]
    · rw [cstr_slash]; rfl

/-- Decomposing the cleaned form of a text with a scheme other than `file`, a
well-formed authority and a rest that begins with a slash gives back the scheme
and the host. -/
theorem scheme_host_of_cleaned (E : Env) (S H portPart rest : List Char) (hne : S ≠ [])
    (hS : ∀ c ∈ S, isSchemeCh c = true)
    (hnf : equalCase_Rangecc S (cstr "file") = false)
    (hH : isPlainHost H = true ∨ isBracketHost H = true)
    (hP : portPart = [] ∨ ∃ P, portPart = ':' :: P ∧ '@' ∉ P ∧ ∀ c ∈ P, isAuthCh c = true)
    (hrest : ∀ c, rest.head? = some c → isAuthCh c = false) :
    (init_Url (cleanUrlPath_String E (S ++ cstr "://" ++ (H ++ portPart ++ rest)))).scheme.of
        (cleanUrlPath_String E (S ++ cstr "://" ++ (H ++ portPart ++ rest))) = S ∧
    (init_Url (cleanUrlPath_String E (S ++ cstr "://" ++ (H ++ portPart ++ rest)))).host.of
        (cleanUrlPath_String E (S ++ cstr "://" ++ (H ++ portPart ++ rest))) = H := by
  have hfile : startsWithCase (S ++ cstr "://" ++ (H ++ portPart ++ rest)) (cstr "file://")
      = false := by
    rw [startsWithCase_file_iff S _ hS, hnf]
  have hPauth : ∀ c ∈ portPart, isAuthCh c = true := by
    rcases hP with rfl | ⟨P, rfl, _, hP⟩
    · simp
    · intro c hc
      rcases List.mem_cons.1 hc with rfl | hc
      · rfl
      · exact hP c hc
  have hA : (H ++ portPart ++ rest).takeWhile isAuthCh = H ++ portPart := by
    apply takeWhile_append_stop isAuthCh _ _ _ hrest
    intro c hc
    rcases List.mem_append.1 hc with h | h
    · exact isAuthCh_of_host H hH c h
    · exact hPauth c h
  rw [cleanUrlPath_scheme_auth E S _ hne hS hfile, hA]
  have e : S ++ cstr "://" ++ (H ++ portPart) ++
      cleanPath E (((H ++ portPart ++ rest).dropWhile isAuthCh).takeWhile isPathCh) ++
      ((H ++ portPart ++ rest).dropWhile isAuthCh).dropWhile isPathCh =
      S ++ cstr "://" ++ (H ++ portPart ++
        (cleanPath E (((H ++ portPart ++ rest).dropWhile isAuthCh).takeWhile isPathCh) ++
        ((H ++ portPart ++ rest).dropWhile isAuthCh).dropWhile isPathCh)) := by
    simp only [List.append_assoc]
  rw [e]
  exact scheme_host_of_scheme_auth S H portPart _ hne hS hnf hH hP
    (cleaned_rest_head E (H ++ portPart ++ rest))

/-! ## What follows the authority in the assembled text -/

theorem takeWhile_append_all (p : Char → Bool) (A Z : List Char) (h : ∀ c ∈ A, p c = true) :
    (A ++ Z).takeWhile p = A ++ Z.takeWhile p := by
  induction A with
  | nil => rfl
  | cons a A ih =>
    have ha : p a = true := h a (List.mem_cons_self _ _)
    simp only [List.cons_append, List.takeWhile_cons, ha, if_true]
    rw [ih (fun c hc => h c (List.mem_cons_of_mem _ hc))]

theorem dropWhile_append_all (p : Char → Bool) (A Z : List Char) (h : ∀ c ∈ A, p c = true) :
    (A ++ Z).dropWhile p = Z.dropWhile p := by
  induction A with
  | nil => rfl
  | cons a A ih =>
    have ha : p a = true := h a (List.mem_cons_self _ _)
    simp only [List.cons_append, List.dropWhile_cons, ha, if_true]
    rw [ih (fun c hc => h c (List.mem_cons_of_mem _ hc))]

theorem head_dirPath (p : List Char) (h : dirPath_ p ≠ []) : (dirPath_ p).head? = p.head? := by
  unfold dirPath_ at h ⊢
  cases hl : lastIndexOf '/' p with
  | none => rfl
  | some pos =>
    rw [hl] at h
    simp only [] at h ⊢
    cases p with
    | nil => simp at h
    | cons a r =>
      cases pos with
      | zero => simp at h
      | succ n => simp

theorem def_of_ne_nil (r : Range) (t : List Char) (h : r.of t ≠ []) : isDef_ r = true := by
  unfold isDef_ isEmpty_Range
  by_contra hc
  have : r.start = r.stop := by simpa using hc
  apply h
  simp [Range.of, this]

theorem head_append_of_ne_nil (a b : List Char) (h : a ≠ []) : (a ++ b).head? = a.head? := by
  cases a with
  | nil => exact absurd rfl h
  | cons x r => rfl

/-- What the assembled text holds after scheme, `://` and authority does not
begin with a colon, when the authority is not empty and does not end with a
slash, and the path of the base is empty or begins with a slash. -/
theorem assembleUrl_tail_head (E : Env) (d ref : List Char)
    (hA : resultAuthority E d ref ≠ [])
    (hAl : (resultAuthority E d ref).getLast? ≠ some '/')
    (hbase : (init_Url d).path.of d = [] ∨ ((init_Url d).path.of d).head? = some '/') :
    ∃ Z, assembleUrl E d ref = resultScheme d ref ++ cstr "://" ++
        (resultAuthority E d ref ++ Z) ∧ Z.head? ≠ some ':' := by
  have hqf : ((init_Url ref).query.of ref ++ (init_Url ref).fragment.of ref).head? ≠ some ':' := by
    intro h
    rcases query_fragment_head ref ':' h with h | h <;> exact absurd h (by decide)
  have hnend : ¬ endsWith (resultScheme d ref ++ cstr "://" ++ resultAuthority E d ref)
      (cstr "/") = true := by
    rw [endsWith_slash_iff, List.getLast?_append_of_ne_nil _ hA]
    exact hAl
  unfold assembleUrl
  simp only []
  split
  · split
    · refine ⟨cstr "/" ++ (init_Url ref).path.of ref ++ ((init_Url ref).query.of ref ++
        (init_Url ref).fragment.of ref), by simp only [List.append_assoc], ?_⟩
      rw [cstr_slash]; simp
    · rename_i hs
      have hs2 : startsWith ((init_Url ref).path.of ref) (cstr "/") = true := by simpa using hs
      refine ⟨(init_Url ref).path.of ref ++ ((init_Url ref).query.of ref ++
        (init_Url ref).fragment.of ref), by simp only [List.append_assoc], ?_⟩
      have := (startsWith_slash_iff _).1 hs2
      cases hp : (init_Url ref).path.of ref with
      | nil => rw [hp] at this; simp at this
      | cons a l => rw [hp] at this; simp at this; simp [this]
  · split
    · -- merge with the directory of the base path
      have hD : ∀ D : List Char, (D = [] ∨ D.head? = some '/') →
          ∃ Z, (if (!endsWith (resultScheme d ref ++ cstr "://" ++ resultAuthority E d ref ++ D)
                (cstr "/")) = true
              then resultScheme d ref ++ cstr "://" ++ resultAuthority E d ref ++ D ++ cstr "/"
              else resultScheme d ref ++ cstr "://" ++ resultAuthority E d ref ++ D) ++
              (init_Url ref).path.of ref ++ (init_Url ref).query.of ref ++
              (init_Url ref).fragment.of ref =
            resultScheme d ref ++ cstr "://" ++ (resultAuthority E d ref ++ Z) ∧
            Z.head? ≠ some ':' := by
        intro D hDh
        rcases hDh with rfl | hDh
        · rw [List.append_nil]
          have : (!endsWith (resultScheme d ref ++ cstr "://" ++ resultAuthority E d ref)
              (cstr "/")) = true := by simpa using hnend
          rw [if_pos this]
          refine ⟨cstr "/" ++ (init_Url ref).path.of ref ++ ((init_Url ref).query.of ref ++
            (init_Url ref).fragment.of ref), by simp only [List.append_assoc], ?_⟩
          rw [cstr_slash]; simp
        · have hDne : D ≠ [] := by
            intro h0; rw [h0] at hDh; simp at hDh
          split
          · refine ⟨D ++ cstr "/" ++ (init_Url ref).path.of ref ++ ((init_Url ref).query.of ref ++
              (init_Url ref).fragment.of ref), by simp only [List.append_assoc], ?_⟩
            rw [List.append_assoc, List.append_assoc, head_append_of_ne_nil _ _ hDne, hDh]
            simp
          · refine ⟨D ++ (init_Url ref).path.of ref ++ ((init_Url ref).query.of ref ++
              (init_Url ref).fragment.of ref), by simp only [List.append_assoc], ?_⟩
            rw [List.append_assoc, head_append_of_ne_nil _ _ hDne, hDh]
            simp
      split
      · apply hD
        by_cases h0 : dirPath_ ((init_Url d).path.of d) = []
        · exact Or.inl h0
        · right
          rw [head_dirPath _ h0]
          rcases hbase with hb | hb
          · rw [hb] at h0; exact absurd rfl h0
          · exact hb
      · exact hD _ hbase
    · split
      · rcases hbase with hb | hb
        · refine ⟨(init_Url ref).query.of ref ++ (init_Url ref).fragment.of ref, ?_, hqf⟩
          rw [hb]
          simp only [List.append_assoc, List.append_nil]
        · have hne : (init_Url d).path.of d ≠ [] := by
            intro h0; rw [h0] at hb; simp at hb
          refine ⟨(init_Url d).path.of d ++ ((init_Url ref).query.of ref ++
            (init_Url ref).fragment.of ref), by simp only [List.append_assoc], ?_⟩
          rw [head_append_of_ne_nil _ _ hne, hb]
          simp
      · exact ⟨(init_Url ref).query.of ref ++ (init_Url ref).fragment.of ref,
          by simp only [List.append_assoc], hqf⟩

/-- What `absoluteUrl_String` puts together is the chosen scheme, `://`, the
authority and a rest. -/
theorem assembleUrl_eq_authority (E : Env) (d ref : List Char) :
    ∃ Z, assembleUrl E d ref = resultScheme d ref ++ cstr "://" ++
      (resultAuthority E d ref ++ Z) := by
  obtain ⟨Y, hY⟩ : ∃ Y, assembleUrl E d ref = resultScheme d ref ++ cstr "://" ++
      resultAuthority E d ref ++ Y := by
    unfold assembleUrl
    simp only []
    split
    · split
      · exact ⟨cstr "/" ++ (init_Url ref).path.of ref ++ (init_Url ref).query.of ref ++
          (init_Url ref).fragment.of ref, by simp only [List.append_assoc]⟩
      · exact ⟨(init_Url ref).path.of ref ++ (init_Url ref).query.of ref ++
          (init_Url ref).fragment.of ref, by simp only [List.append_assoc]⟩
    · split
      · split
        · split
          · exact ⟨dirPath_ ((init_Url d).path.of d) ++ cstr "/" ++ (init_Url ref).path.of ref ++
              (init_Url ref).query.of ref ++ (init_Url ref).fragment.of ref,
              by simp only [List.append_assoc]⟩
          · exact ⟨dirPath_ ((init_Url d).path.of d) ++ (init_Url ref).path.of ref ++
              (init_Url ref).query.of ref ++ (init_Url ref).fragment.of ref,
              by simp only [List.append_assoc]⟩
        · split
          · exact ⟨(init_Url d).path.of d ++ cstr "/" ++ (init_Url ref).path.of ref ++
              (init_Url ref).query.of ref ++ (init_Url ref).fragment.of ref,
              by simp only [List.append_assoc]⟩
          · exact ⟨(init_Url d).path.of d ++ (init_Url ref).path.of ref ++
              (init_Url ref).query.of ref ++ (init_Url ref).fragment.of ref,
              by simp only [List.append_assoc]⟩
      · split
        · exact ⟨(init_Url d).path.of d ++ (init_Url ref).query.of ref ++
            (init_Url ref).fragment.of ref, by simp only [List.append_assoc]⟩
        · exact ⟨(init_Url ref).query.of ref ++ (init_Url ref).fragment.of ref,
            by simp only [List.append_assoc]⟩
  exact ⟨Y, by rw [hY, List.append_assoc]⟩

/-! ## Where the ranges of `init_Url` lie -/

/-- A host matched at the head of a text is not empty and lies in the text. -/
theorem authHostAt_bounds (s : List Char) (n : Nat) (h : authHostAt s = some n) :
    0 < n ∧ n ≤ s.length := by
  unfold authHostAt at h
  simp only [] at h
  by_cases h0 : (s.takeWhile isHostCh).length = 0
  · have hb : ((s.takeWhile isHostCh).length != 0) = false := by simpa using h0
    rw [hb] at h
    simp only [Bool.false_eq_true, if_false] at h
    split at h
    · rename_i r
      split at h
      · rename_i hc
        simp only [Option.some.injEq] at h
        simp only [Bool.and_eq_true, bne_iff_ne, ne_eq, beq_iff_eq] at hc
        have hlt : (r.takeWhile isIp6Ch).length < r.length := by
          by_contra hcc
          have hd := hc.2
          rw [List.drop_eq_nil_of_le (by omega)] at hd
          simp at hd
        simp only [List.length_cons]
        omega
      · simp at h
    · simp at h
  · have hb : ((s.takeWhile isHostCh).length != 0) = true := by simpa using h0
    rw [hb] at h
    simp only [if_true, Option.some.injEq] at h
    have hl := length_takeWhile_le isHostCh s
    omega

/-- The offset and the length of the host that `authMatchAt` settles on. -/
theorem authMatchAt_host (s : List Char) (off : Nat) (h p : Range)
    (hm : authMatchAt s off = some (h, p)) :
    ∃ o hl, 0 < hl ∧ o + hl ≤ s.length ∧ authHostAt (s.drop o) = some hl ∧
      h = ⟨off + o, off + o + hl⟩ ∧
      p = (if authPortAt (s.drop (o + hl)) != 0
        then ⟨off + o + hl + 1, off + o + hl + 1 + authPortAt (s.drop (o + hl))⟩
        else iNullRange) := by
  unfold authMatchAt at hm
  simp only [] at hm
  have fin : ∀ o hl, authHostAt (s.drop o) = some hl →
      (⟨off + o, off + o + hl⟩, (if authPortAt (s.drop (o + hl)) != 0
        then (⟨off + o + hl + 1, off + o + hl + 1 + authPortAt (s.drop (o + hl))⟩ : Range)
        else iNullRange)) = (h, p) →
      ∃ o hl, 0 < hl ∧ o + hl ≤ s.length ∧ authHostAt (s.drop o) = some hl ∧
        h = ⟨off + o, off + o + hl⟩ ∧
        p = (if authPortAt (s.drop (o + hl)) != 0
          then ⟨off + o + hl + 1, off + o + hl + 1 + authPortAt (s.drop (o + hl))⟩
          else iNullRange) := by
    intro o hl key e
    have hb := authHostAt_bounds _ _ key
    simp only [List.length_drop] at hb
    simp only [Prod.mk.injEq] at e
    exact ⟨o, hl, hb.1, by omega, key, e.1.symm, e.2.symm⟩
  by_cases hc : ((s.takeWhile (fun c => !(c == '@'))).length != 0 &&
      (s.drop (s.takeWhile (fun c => !(c == '@'))).length).head? == some '@') = true
  · rw [if_pos hc] at hm
    cases hA : authHostAt (s.drop ((s.takeWhile (fun c => !(c == '@'))).length + 1)) with
    | some x =>
      rw [hA] at hm
      simp only [Option.map_some', Option.some.injEq] at hm
      exact fin _ _ hA hm
    | none =>
      rw [hA] at hm
      simp only [Option.map_none'] at hm
      cases hB : authHostAt s with
      | some x =>
        rw [hB] at hm
        simp only [Option.map_some', Option.some.injEq] at hm
        exact fin 0 x (by simpa using hB) hm
      | none => rw [hB] at hm; simp at hm
  · rw [if_neg hc] at hm
    simp only [] at hm
    cases hB : authHostAt s with
    | some x =>
      rw [hB] at hm
      simp only [Option.map_some', Option.some.injEq] at hm
      exact fin 0 x (by simpa using hB) hm
    | none => rw [hB] at hm; simp at hm

/-- A port matched at the head of a text follows a colon and lies in the text. -/
theorem authPortAt_bounds (s : List Char) (h : authPortAt s ≠ 0) :
    s.head? = some ':' ∧ authPortAt s + 1 ≤ s.length := by
  obtain ⟨r, hr, hk⟩ := authPortAt_shape s h
  rw [hk, hr]
  have := length_takeWhile_le isPortCh r
  simp only [List.head?_cons, List.length_cons, true_and]
  omega

/-- Where host and port of a match of `authPattern_` lie in the subject: the
host is not empty, and a port stands one character behind the host, after a
colon. -/
theorem authSearch_bounds (s : List Char) (off : Nat) (h p : Range)
    (hm : authSearch s off = some (h, p)) :
    off ≤ h.start ∧ h.start < h.stop ∧ h.stop ≤ off + s.length ∧
    (p = iNullRange ∨
      (p.start = h.stop + 1 ∧ p.start < p.stop ∧ p.stop ≤ off + s.length ∧
        (s.drop (h.stop - off)).head? = some ':')) := by
  induction s generalizing off with
  | nil => simp [authSearch] at hm
  | cons c s ih =>
    unfold authSearch at hm
    cases hma : authMatchAt (c :: s) off with
    | some m =>
      rw [hma] at hm
      simp only [Option.some.injEq] at hm
      rw [hm] at hma
      obtain ⟨o, hl, h0, hle, _, hh, hp⟩ := authMatchAt_host _ _ _ _ hma
      subst hh
      refine ⟨by simp only []; omega, by simp only []; omega, by simp only []; omega, ?_⟩
      by_cases hk : authPortAt ((c :: s).drop (o + hl)) = 0
      · left; rw [hp]; simp [hk]
      · right
        have hb := authPortAt_bounds _ hk
        have hkb : (authPortAt ((c :: s).drop (o + hl)) != 0) = true := by simpa using hk
        rw [hp, if_pos hkb]
        simp only [List.length_drop] at hb
        have e : off + o + hl - off = o + hl := by omega
        simp only [e]
        refine ⟨trivial, by omega, by omega, hb.1⟩
    | none =>
      rw [hma] at hm
      obtain ⟨h1, h2, h3, h4⟩ := ih (off + 1) hm
      refine ⟨by omega, h2, by simp only [List.length_cons]; omega, ?_⟩
      rcases h4 with h4 | ⟨a, b, c', d⟩
      · exact Or.inl h4
      · right
        refine ⟨a, b, by simp only [List.length_cons]; omega, ?_⟩
        have e : h.stop - off = (h.stop - (off + 1)) + 1 := by omega
        rw [e, List.drop_succ_cons]
        exact d

theorem queryGroupLen_le (s : List Char) : queryGroupLen s ≤ s.length := by
  unfold queryGroupLen
  split
  · rename_i r
    have := length_takeWhile_le isQueryCh r
    simp only [List.length_cons]; omega
  · omega

theorem fragmentGroupLen_le (s : List Char) : fragmentGroupLen s ≤ s.length := by
  unfold fragmentGroupLen
  split
  · rename_i r
    have := length_takeWhile_le isDotCh r
    simp only [List.length_cons]; omega
  · omega

theorem authGroupLen_two (s : List Char) (h : authGroupLen s ≠ 0) : 2 ≤ authGroupLen s := by
  unfold authGroupLen at h ⊢
  split
  · omega
  · rename_i hc; rw [if_neg hc] at h; exact absurd rfl h

theorem schemeGroupLen_two (s : List Char) (h : schemeGroupLen s ≠ 0) : 2 ≤ schemeGroupLen s := by
  obtain ⟨S, rest, _, hne, _, hl⟩ := schemeGroupLen_shape s h
  have : 0 < S.length := List.length_pos.mpr hne
  omega

theorem head_of_head_take (l : List Char) (m : Nat) (c : Char)
    (h : (l.take m).head? = some c) : l.head? = some c := by
  cases l with
  | nil => simp at h
  | cons x r =>
    cases m with
    | zero => simp at h
    | succ m => simpa using h

/-- The decomposition of a text that does not begin with `file://`, component
by component. -/
theorem init_Url_nonfile (t : List Char) (hf : startsWithCase t (cstr "file://") = false) :
    (init_Url t).scheme = (urlPattern_ t).g2 ∧
    (init_Url t).host = (match authPattern_ t (urlPattern_ t).g4 with
      | some (h, _) => h
      | none => (urlPattern_ t).g4) ∧
    (init_Url t).port = (match authPattern_ t (urlPattern_ t).g4 with
      | some (_, p) => p
      | none => ⟨(urlPattern_ t).g4.stop, (urlPattern_ t).g4.stop⟩) ∧
    (init_Url t).path = (urlPattern_ t).g5 ∧
    (init_Url t).query = (urlPattern_ t).g6 ∧
    (init_Url t).fragment = (urlPattern_ t).g8 := by
  have hfn : ¬ startsWithCase t (cstr "file://") = true := by simp [hf]
  unfold init_Url
  rw [if_neg hfn]
  simp only [and_self]

/-- The five groups of `urlPattern_` follow one another in the text. -/
theorem urlPattern_layout (t : List Char) :
    ∃ p1 p3 p5 p6 p8 : Nat,
      (urlPattern_ t).g2 = (if p1 != 0 then ⟨0, p1 - 1⟩ else iNullRange) ∧
      (urlPattern_ t).g4 = (if p3 != p1 then ⟨p1 + 2, p3⟩ else iNullRange) ∧
      (urlPattern_ t).g5 = ⟨p3, p5⟩ ∧
      (urlPattern_ t).g6 = (if p6 != p5 then ⟨p5, p6⟩ else iNullRange) ∧
      (urlPattern_ t).g8 = (if p8 != p6 then ⟨p6, p8⟩ else iNullRange) ∧
      p1 ≤ p3 ∧ p3 ≤ p5 ∧ p5 ≤ p6 ∧ p6 ≤ p8 ∧ p8 ≤ t.length ∧
      (p1 ≠ 0 → 2 ≤ p1) ∧ (p3 ≠ p1 → p1 + 2 ≤ p3) := by
  refine ⟨schemeGroupLen t, pathOffset t, queryOffset t, fragmentOffset t, matchEnd t,
    ?_, ?_, ?_, ?_, ?_, ?_⟩
  · simp only [urlPattern_]
  · simp only [urlPattern_, pathOffset]
  · simp only [urlPattern_, pathOffset, queryOffset]
  · simp only [urlPattern_, pathOffset, queryOffset, fragmentOffset]
  · simp only [urlPattern_, pathOffset, queryOffset, fragmentOffset, matchEnd]
  have h1 := schemeGroupLen_le t
  have h3 := authGroupLen_le (t.drop (schemeGroupLen t))
  have h5 := pathGroupLen_le (t.drop (pathOffset t))
  have h6 := queryGroupLen_le (t.drop (queryOffset t))
  have h8 := fragmentGroupLen_le (t.drop (fragmentOffset t))
  have h2a := authGroupLen_two (t.drop (schemeGroupLen t))
  have h2s := schemeGroupLen_two t
  simp only [List.length_drop] at h3 h5 h6 h8
  have e3 : pathOffset t = schemeGroupLen t + authGroupLen (t.drop (schemeGroupLen t)) := rfl
  have e5 : queryOffset t = pathOffset t + pathGroupLen (t.drop (pathOffset t)) := rfl
  have e6 : fragmentOffset t = queryOffset t + queryGroupLen (t.drop (queryOffset t)) := rfl
  have e8 : matchEnd t = fragmentOffset t + fragmentGroupLen (t.drop (fragmentOffset t)) := rfl
  refine ⟨?_, ?_, ?_, ?_, ?_, ?_, ?_⟩ <;> omega

/-- Host and port of a match of `authPattern_` lie in the range that was
searched, and a port follows a colon that follows the host. -/
theorem authPattern_bounds (t : List Char) (a b : Nat) (hab : a ≤ b)
    (h p : Range) (hm : authPattern_ t ⟨a, b⟩ = some (h, p)) :
    a ≤ h.start ∧ h.start < h.stop ∧ h.stop ≤ b ∧
    (p = iNullRange ∨
      (p.start = h.stop + 1 ∧ p.start < p.stop ∧ p.stop ≤ b ∧
        (t.drop h.stop).head? = some ':')) := by
  unfold authPattern_ at hm
  obtain ⟨b1, b2, b3, b4⟩ := authSearch_bounds _ _ _ _ hm
  simp only [Range.of, List.length_take, List.length_drop] at b1 b3 b4
  refine ⟨b1, b2, by omega, ?_⟩
  rcases b4 with b4 | ⟨c1, c2, c3, c4⟩
  · exact Or.inl b4
  · right
    refine ⟨c1, c2, by omega, ?_⟩
    rw [List.drop_take, List.drop_drop] at c4
    have := head_of_head_take _ _ _ c4
    have e : a + (h.stop - a) = h.stop := by omega
    rw [e] at this
    exact this

/-- Layout of the decomposition of a text that does not begin with `file://`:
the five groups of `urlPattern_` follow one another, and host and port lie in
the authority. -/
theorem init_Url_layout (t : List Char) (hf : startsWithCase t (cstr "file://") = false) :
    ∃ p1 p3 p5 p6 p8 : Nat, p1 ≤ p3 ∧ p3 ≤ p5 ∧ p5 ≤ p6 ∧ p6 ≤ p8 ∧ p8 ≤ t.length ∧
      (p1 ≠ 0 → 2 ≤ p1) ∧ (p3 ≠ p1 → p1 + 2 ≤ p3) ∧
      (init_Url t).scheme = (if p1 != 0 then ⟨0, p1 - 1⟩ else iNullRange) ∧
      (init_Url t).path = ⟨p3, p5⟩ ∧
      (init_Url t).query = (if p6 != p5 then ⟨p5, p6⟩ else iNullRange) ∧
      (init_Url t).fragment = (if p8 != p6 then ⟨p6, p8⟩ else iNullRange) ∧
      (isDef_ (init_Url t).host = true →
        p1 + 2 ≤ (init_Url t).host.start ∧ (init_Url t).host.start < (init_Url t).host.stop ∧
        (init_Url t).host.stop ≤ p3) ∧
      (isDef_ (init_Url t).port = true →
        isDef_ (init_Url t).host = true ∧
        (init_Url t).port.start = (init_Url t).host.stop + 1 ∧
        (init_Url t).port.start < (init_Url t).port.stop ∧ (init_Url t).port.stop ≤ p3 ∧
        (t.drop (init_Url t).host.stop).head? = some ':') := by
  obtain ⟨p1, p3, p5, p6, p8, g2, hg4, g5, g6, g8, b1, b3, b5, b6, b8, b2s, b2a⟩ :=
    urlPattern_layout t
  obtain ⟨es, hhost, hport, ep, eq, ef⟩ := init_Url_nonfile t hf
  refine ⟨p1, p3, p5, p6, p8, b1, b3, b5, b6, b8, b2s, b2a, es.trans g2, ep.trans g5,
    eq.trans g6, ef.trans g8, ?_⟩
  by_cases h31 : p3 = p1
  · have hg : (urlPattern_ t).g4 = iNullRange := by rw [hg4]; simp [h31]
    have hn : authPattern_ t (urlPattern_ t).g4 = none := by rw [hg]; rfl
    rw [hn] at hhost hport
    simp only [] at hhost hport
    rw [hhost, hport, hg]
    constructor <;> intro hd <;> simp [isDef_, isEmpty_Range, iNullRange] at hd
  · have hg : (urlPattern_ t).g4 = ⟨p1 + 2, p3⟩ := by rw [hg4]; simp [h31]
    have hle := b2a h31
    rw [hg] at hhost hport
    cases ha : authPattern_ t ⟨p1 + 2, p3⟩ with
    | none =>
      rw [ha] at hhost hport
      simp only [] at hhost hport
      rw [hhost, hport]
      constructor
      · intro hd
        simp only [isDef_, isEmpty_Range, Bool.not_eq_true', beq_eq_false_iff_ne, ne_eq] at hd
        exact ⟨le_refl _, by simp only [] at hd ⊢; omega, le_refl _⟩
      · intro hd; simp [isDef_, isEmpty_Range] at hd
    | some hp =>
      obtain ⟨h, p⟩ := hp
      rw [ha] at hhost hport
      simp only [] at hhost hport
      rw [hhost, hport]
      obtain ⟨c1, c2, c3, c4⟩ := authPattern_bounds t (p1 + 2) p3 hle h p ha
      constructor
      · intro _; exact ⟨c1, c2, c3⟩
      · intro hd
        rcases c4 with c4 | ⟨d1, d2, d3, d4⟩
        · rw [c4] at hd; simp [isDef_, isEmpty_Range, iNullRange] at hd
        · refine ⟨?_, d1, d2, d3, d4⟩
          simp only [isDef_, isEmpty_Range, Bool.not_eq_true', beq_eq_false_iff_ne, ne_eq]
          omega

theorem isDef_iff (r : Range) : isDef_ r = true ↔ r.start ≠ r.stop := by
  simp [isDef_, isEmpty_Range]

theorem isDef_of_ite (c : Bool) (r x : Range) (h : x = if c then r else iNullRange)
    (hd : isDef_ x = true) : x = r := by
  cases c with
  | true => simpa using h
  | false =>
    rw [h] at hd
    simp [isDef_, isEmpty_Range, iNullRange] at hd

/-- The decomposition of a text that begins with `file://`, component by
component. -/
theorem init_Url_file (t : List Char) (h : startsWithCase t (cstr "file://") = true) :
    (init_Url t).scheme = ⟨0, 4⟩ ∧ (init_Url t).host = iNullRange ∧
    (init_Url t).port = iNullRange ∧ (init_Url t).path = ⟨7, t.length⟩ ∧
    (init_Url t).query = iNullRange ∧ (init_Url t).fragment = iNullRange := by
  unfold init_Url
  rw [if_pos h]
  exact ⟨rfl, rfl, rfl, rfl, rfl, rfl⟩

theorem startsWithCase_take_le (d pre : List Char) (n : Nat) (hn : n ≤ pre.length)
    (h : startsWithCase d pre = true) : equalCase_Rangecc (d.take n) (pre.take n) = true := by
  unfold startsWithCase at h
  unfold equalCase_Rangecc
  rw [List.isPrefixOf_iff_prefix] at h
  obtain ⟨r, hr⟩ := h
  simp only [beq_iff_eq, ← List.map_take]
  have : (d.map Char.toLower).take n = (pre.map Char.toLower).take n := by
    rw [← hr, List.take_append_of_le_length (by simpa using hn)]
  simpa [List.map_take] using this

/-- What `queryGroupLen` counts: a question mark and the run of characters
other than `#` behind it. -/
theorem queryGroupLen_take (s : List Char) (h : queryGroupLen s ≠ 0) :
    ∃ r, s = '?' :: r ∧ s.take (queryGroupLen s) = '?' :: r.takeWhile isQueryCh := by
  unfold queryGroupLen at h ⊢
  split at h
  · rename_i r
    refine ⟨r, rfl, ?_⟩
    simp only [Nat.add_comm 1, List.take_succ_cons, take_length_takeWhile]
  · exact absurd rfl h

/-- What `fragmentGroupLen` counts: a hash and the rest of the line behind it. -/
theorem fragmentGroupLen_take (s : List Char) (h : fragmentGroupLen s ≠ 0) :
    ∃ r, s = '#' :: r ∧ s.take (fragmentGroupLen s) = '#' :: r.takeWhile isDotCh := by
  unfold fragmentGroupLen at h ⊢
  split at h
  · rename_i r
    refine ⟨r, rfl, ?_⟩
    simp only [Nat.add_comm 1, List.take_succ_cons, take_length_takeWhile]
  · exact absurd rfl h

/-- A defined query range covers a question mark and what follows it up to the
next `#`; a defined fragment range covers a hash and the rest of the line. -/
theorem query_fragment_of_def (t : List Char) :
    (isDef_ (init_Url t).query = true →
      ∃ r, t.drop (init_Url t).query.start = '?' :: r ∧
        (init_Url t).query.of t = '?' :: r.takeWhile isQueryCh) ∧
    (isDef_ (init_Url t).fragment = true →
      ∃ r, t.drop (init_Url t).fragment.start = '#' :: r ∧
        (init_Url t).fragment.of t = '#' :: r.takeWhile isDotCh) := by
  by_cases hf : startsWithCase t (cstr "file://") = true
  · obtain ⟨_, _, _, _, e5, e6⟩ := init_Url_file t hf
    rw [e5, e6]
    constructor <;> intro hd <;> simp [isDef_, isEmpty_Range, iNullRange] at hd
  · have hf2 : startsWithCase t (cstr "file://") = false := by simpa using hf
    obtain ⟨_, _, _, _, eq, ef⟩ := init_Url_nonfile t hf2
    have g6 : (urlPattern_ t).g6 = (if fragmentOffset t != queryOffset t
        then ⟨queryOffset t, fragmentOffset t⟩ else iNullRange) := by
      simp only [urlPattern_, pathOffset, queryOffset, fragmentOffset]
    have g8 : (urlPattern_ t).g8 = (if matchEnd t != fragmentOffset t
        then ⟨fragmentOffset t, matchEnd t⟩ else iNullRange) := by
      simp only [urlPattern_, pathOffset, queryOffset, fragmentOffset, matchEnd]
    constructor
    · intro hd
      have e := isDef_of_ite _ _ _ (eq.trans g6) hd
      rw [e] at hd ⊢
      have hne : queryGroupLen (t.drop (queryOffset t)) ≠ 0 := by
        intro h0
        simp [isDef_, isEmpty_Range, fragmentOffset, h0] at hd
      obtain ⟨r, hr, ht⟩ := queryGroupLen_take _ hne
      refine ⟨r, hr, ?_⟩
      simp only [Range.of, fragmentOffset, Nat.add_sub_cancel_left]
      exact ht
    · intro hd
      have e := isDef_of_ite _ _ _ (ef.trans g8) hd
      rw [e] at hd ⊢
      have hne : fragmentGroupLen (t.drop (fragmentOffset t)) ≠ 0 := by
        intro h0
        simp [isDef_, isEmpty_Range, matchEnd, h0] at hd
      obtain ⟨r, hr, ht⟩ := fragmentGroupLen_take _ hne
      refine ⟨r, hr, ?_⟩
      simp only [Range.of, matchEnd, Nat.add_sub_cancel_left]
      exact ht


/-! ## The colon before the port -/

/-- Where a port that is not empty stands: right behind a colon, which ends
the text before the port range. -/
theorem port_follows_colon (u : List Char) (h : (init_Url u).port.of u ≠ []) :
    1 ≤ (init_Url u).port.start ∧ (init_Url u).port.start ≤ (init_Url u).port.stop ∧
    (init_Url u).port.stop ≤ u.length ∧
    u = u.take ((init_Url u).port.start - 1) ++ ':' :: (init_Url u).port.of u ++
      u.drop (init_Url u).port.stop := by
  have hd : isDef_ (init_Url u).port = true := def_of_ne_nil _ _ h
  by_cases hf : startsWithCase u (cstr "file://") = true
  · obtain ⟨_, _, e3, _⟩ := init_Url_file u hf
    rw [e3] at hd
    simp [isDef_, isEmpty_Range, iNullRange] at hd
  · have hf2 : startsWithCase u (cstr "file://") = false := by simpa using hf
    obtain ⟨p1, p3, p5, p6, p8, b1, b3, b5, b6, b8, _, _, _, _, _, _, _, hp⟩ :=
      init_Url_layout u hf2
    obtain ⟨_, c1, c2, c3, c4⟩ := hp hd
    refine ⟨by omega, by omega, by omega, ?_⟩
    have e1 : (init_Url u).port.start - 1 = (init_Url u).host.stop := by omega
    rw [e1]
    have hdrop : u.drop (init_Url u).host.stop = ':' :: u.drop (init_Url u).port.start := by
      rw [c1]
      cases hx : u.drop (init_Url u).host.stop with
      | nil => rw [hx] at c4; simp at c4
      | cons x r =>
        rw [hx] at c4
        simp only [List.head?_cons, Option.some.injEq] at c4
        rw [c4]
        congr 1
        rw [← List.drop_drop, hx]
        rfl
    have hsplit : u.drop (init_Url u).port.start =
        (init_Url u).port.of u ++ u.drop (init_Url u).port.stop := by
      unfold Range.of
      have e : (init_Url u).port.stop =
          (init_Url u).port.start + ((init_Url u).port.stop - (init_Url u).port.start) := by
        omega
      conv => rhs; rhs; rw [e, ← List.drop_drop]
      rw [List.take_append_drop]
    conv => lhs; rw [← List.take_append_drop (init_Url u).host.stop u, hdrop, hsplit]
    simp only [List.cons_append, List.append_assoc]


/-! ## The first occurrence of a character -/

/-- The first occurrence of a character stands behind the longest run of other
characters; there is none when the character does not occur. -/
theorem indexOf_String_eq (d : List Char) (ch : Char) :
    indexOf_String d ch =
      if ch ∈ d then some (d.takeWhile (fun c => c != ch)).length else none := by
  induction d with
  | nil => rfl
  | cons x r ih =>
    unfold indexOf_String
    by_cases hx : x = ch
    · subst hx
      simp
    · rw [if_neg hx, ih]
      have hx2 : (x != ch) = true := by simpa using hx
      have hx3 : ¬ ch = x := fun e => hx e.symm
      by_cases hm : ch ∈ r
      · simp [hm, hx2, List.takeWhile_cons]
      · simp [hm, hx3]


/-! ## An authority with a user part -/

/-- A run of host characters that ends the text or stands before a colon is
the host matched at the head of the text. -/
theorem authHostAt_plain (h portPart : List Char) (hne : h ≠ [])
    (hh : ∀ c ∈ h, isHostCh c = true) (hP : ∀ c, portPart.head? = some c → c = ':') :
    authHostAt (h ++ portPart) = some h.length := by
  unfold authHostAt
  simp only []
  rw [takeWhile_append_stop isHostCh h portPart hh (fun c hc => by rw [hP c hc]; rfl)]
  have : (h.length != 0) = true := by simpa using hne
  rw [if_pos this]

/-- The match of `authPattern_` at the head of `u@h` or `u@h:digits`: the user
part is `u`, the host is `h` and the port is the digits. -/
theorem authMatchAt_userinfo (u h portPart : List Char) (off : Nat)
    (hu : u ≠ []) (hu2 : '@' ∉ u) (hne : h ≠ [])
    (hh : ∀ c ∈ h, isHostCh c = true) (hP : ∀ c, portPart.head? = some c → c = ':') :
    authMatchAt (u ++ '@' :: (h ++ portPart)) off =
      some (⟨off + (u.length + 1), off + (u.length + 1) + h.length⟩,
        if authPortAt portPart != 0
        then ⟨off + (u.length + 1) + h.length + 1,
          off + (u.length + 1) + h.length + 1 + authPortAt portPart⟩
        else iNullRange) := by
  unfold authMatchAt
  simp only []
  have htw : (u ++ '@' :: (h ++ portPart)).takeWhile (fun c => !(c == '@')) = u := by
    apply takeWhile_append_stop
    · intro c hc
      have : c ≠ '@' := fun e => hu2 (e ▸ hc)
      simpa using this
    · intro c hc
      simp only [List.head?_cons, Option.some.injEq] at hc
      subst hc; rfl
  have hd1 : (u ++ '@' :: (h ++ portPart)).drop u.length = '@' :: (h ++ portPart) :=
    List.drop_left _ _
  have hd2 : (u ++ '@' :: (h ++ portPart)).drop (u.length + 1) = h ++ portPart := by
    rw [← List.drop_drop, hd1]; rfl
  have hd3 : (u ++ '@' :: (h ++ portPart)).drop (u.length + 1 + h.length) = portPart := by
    rw [← List.drop_drop, hd2, List.drop_left]
  have hc : (u.length != 0 && ('@' :: (h ++ portPart)).head? == some '@') = true := by
    have : u.length ≠ 0 := fun e => hu (List.length_eq_zero.1 e)
    simp [this]
  rw [htw, hd1, hc, if_pos rfl, hd2, authHostAt_plain h portPart hne hh hP]
  simp only [Option.map_some', hd3]

/-- A range whose text is known splits the text at its start. -/
theorem drop_of_range (r : Range) (t s : List Char) (h : r.of t = s) :
    t.drop r.start = s ++ (t.drop r.start).drop (r.stop - r.start) := by
  rw [← h]
  unfold Range.of
  rw [List.take_append_drop]


/-! ## A text with an authority has a host -/

/-- A range with its start before its stop, and its stop within the text,
covers at least one character. -/
theorem of_ne_nil (r : Range) (t : List Char) (h1 : r.start < r.stop) (h2 : r.stop ≤ t.length) :
    r.of t ≠ [] := by
  intro h
  have hl : (r.of t).length = 0 := by rw [h]; rfl
  simp only [Range.of, List.length_take, List.length_drop] at hl
  omega

/-- In a text that does not begin with `file://` and has an authority that is
not empty, the host is not empty. -/
theorem host_of_ne_nil (t : List Char) (hnf : startsWithCase t (cstr "file://") = false)
    (hg4 : isDef_ (urlPattern_ t).g4 = true) : (init_Url t).host.of t ≠ [] := by
  obtain ⟨p1, p3, p5, p6, p8, g2, eg4, g5, g6, g8, b1, b3, b5, b6, b8, b2s, b2a⟩ :=
    urlPattern_layout t
  obtain ⟨_, ehost, _⟩ := init_Url_nonfile t hnf
  have eg : (urlPattern_ t).g4 = ⟨p1 + 2, p3⟩ := isDef_of_ite _ _ _ eg4 hg4
  have h31 : p1 + 2 < p3 := by
    rw [eg] at hg4
    have := (isDef_iff _).1 hg4
    simp only [] at this
    have : p3 ≠ p1 := by
      intro e
      rw [e] at eg4
      simp only [bne_self_eq_false, Bool.false_eq_true, if_false] at eg4
      rw [eg4] at eg
      simp [iNullRange] at eg
    have := b2a this
    omega
  rw [eg] at ehost
  cases ha : authPattern_ t ⟨p1 + 2, p3⟩ with
  | none =>
    rw [ha] at ehost
    simp only [] at ehost
    rw [ehost]
    exact of_ne_nil _ _ h31 (by simp only []; omega)
  | some hp =>
    obtain ⟨h, p⟩ := hp
    rw [ha] at ehost
    simp only [] at ehost
    rw [ehost]
    obtain ⟨c1, c2, c3, _⟩ := authPattern_bounds t (p1 + 2) p3 (by omega) h p ha
    exact of_ne_nil _ _ c2 (by omega)

/-- A text that begins with a scheme other than `file`, `://` and an authority
character is decomposed into that scheme and a host that is not empty; so is
the text after its path has been cleaned. -/
theorem scheme_host_of_cleaned_authority (E : Env) (S X : List Char) (c : Char) (hne : S ≠ [])
    (hS : ∀ c ∈ S, isSchemeCh c = true)
    (hnf : equalCase_Rangecc S (cstr "file") = false)
    (hX : X.head? = some c) (hc : isAuthCh c = true) :
    (init_Url (cleanUrlPath_String E (S ++ cstr "://" ++ X))).scheme.of
        (cleanUrlPath_String E (S ++ cstr "://" ++ X)) = S ∧
    (init_Url (cleanUrlPath_String E (S ++ cstr "://" ++ X))).host.of
        (cleanUrlPath_String E (S ++ cstr "://" ++ X)) ≠ [] := by
  have hf : startsWithCase (S ++ cstr "://" ++ X) (cstr "file://") = false := by
    rw [startsWithCase_file_iff S X hS]; exact hnf
  rw [cleanUrlPath_scheme_auth E S X hne hS hf]
  obtain ⟨R, hR⟩ : ∃ R, R = cleanPath E ((X.dropWhile isAuthCh).takeWhile isPathCh) ++
      (X.dropWhile isAuthCh).dropWhile isPathCh := ⟨_, rfl⟩
  have hRh : ∀ c, R.head? = some c → isAuthCh c = false := by
    intro c hc
    rw [hR] at hc
    exact cleaned_rest_head E X c hc
  have et : S ++ cstr "://" ++ X.takeWhile isAuthCh ++
      cleanPath E ((X.dropWhile isAuthCh).takeWhile isPathCh) ++
      (X.dropWhile isAuthCh).dropWhile isPathCh =
      S ++ cstr "://" ++ (X.takeWhile isAuthCh ++ R) := by
    rw [hR]; simp only [List.append_assoc]
  rw [et]
  have hf2 : startsWithCase (S ++ cstr "://" ++ (X.takeWhile isAuthCh ++ R)) (cstr "file://") =
      false := by
    rw [startsWithCase_file_iff S _ hS]; exact hnf
  obtain ⟨g2, g4⟩ := urlPattern_scheme_auth S (X.takeWhile isAuthCh ++ R) hne hS
  have htw : (X.takeWhile isAuthCh ++ R).takeWhile isAuthCh = X.takeWhile isAuthCh :=
    takeWhile_append_stop isAuthCh _ R (fun c hc => List.mem_takeWhile_imp hc) hRh
  rw [htw] at g4
  have hpos : 0 < (X.takeWhile isAuthCh).length := by
    cases X with
    | nil => simp at hX
    | cons x r =>
      simp only [List.head?_cons, Option.some.injEq] at hX
      subst hX
      simp [List.takeWhile_cons, hc]
  obtain ⟨es, _⟩ := init_Url_nonfile _ hf2
  constructor
  · rw [es, g2]
    simp only [Range.of, List.drop_zero, Nat.sub_zero, List.append_assoc]
    exact List.take_left _ _
  · apply host_of_ne_nil _ hf2
    rw [g4]
    simp only [isDef_, isEmpty_Range, Bool.not_eq_true', beq_eq_false_iff_ne, ne_eq]
    omega


/-! ## Labels of a host -/

theorem hostLabels_ne_nil (h : List Char) : hostLabels h ≠ [] := by
  cases h with
  | nil => simp [hostLabels]
  | cons c r =>
    unfold hostLabels
    split
    · simp
    · split <;> simp

/-- The labels joined, as the first label and the others, each after a dot. -/
theorem joinLabels_cons (a : List Char) (ls : List (List Char)) :
    joinLabels (a :: ls) = a ++ (ls.map (fun l => '.' :: l)).flatten := by
  induction ls generalizing a with
  | nil => simp [joinLabels]
  | cons m ls ih =>
    rw [joinLabels, ih m]
    simp

/-- Joining the labels of a host gives the host back. -/
theorem joinLabels_hostLabels (h : List Char) : joinLabels (hostLabels h) = h := by
  induction h with
  | nil => rfl
  | cons c r ih =>
    unfold hostLabels
    by_cases hc : c = '.'
    · rw [if_pos hc, hc]
      cases hl : hostLabels r with
      | nil => exact absurd hl (hostLabels_ne_nil r)
      | cons m ls =>
        rw [hl] at ih
        rw [joinLabels, ih]
        rfl
    · rw [if_neg hc]
      cases hl : hostLabels r with
      | nil => exact absurd hl (hostLabels_ne_nil r)
      | cons m ls =>
        rw [hl] at ih
        simp only []
        rw [joinLabels_cons] at ih ⊢
        rw [List.cons_append, ih]

/-- No label of a host holds a dot. -/
theorem hostLabels_no_dot (h : List Char) : ∀ l ∈ hostLabels h, '.' ∉ l := by
  induction h with
  | nil => simp [hostLabels]
  | cons c r ih =>
    unfold hostLabels
    by_cases hc : c = '.'
    · rw [if_pos hc]
      intro l hl
      rcases List.mem_cons.1 hl with rfl | hl
      · simp
      · exact ih l hl
    · rw [if_neg hc]
      cases hl : hostLabels r with
      | nil => exact absurd hl (hostLabels_ne_nil r)
      | cons m ls =>
        rw [hl] at ih
        simp only []
        intro l hm
        rcases List.mem_cons.1 hm with rfl | hm
        · intro hd
          rcases List.mem_cons.1 hd with e | hd
          · exact hc e.symm
          · exact ih m (List.mem_cons_self _ _) hd
        · exact ih l (List.mem_cons_of_mem _ hm)

/-- The labels of a label without dot, followed by a dot and a text. -/
theorem hostLabels_append_dot (a b : List Char) (ha : '.' ∉ a) :
    hostLabels (a ++ '.' :: b) = a :: hostLabels b := by
  induction a with
  | nil => simp [hostLabels]
  | cons c r ih =>
    have hc : c ≠ '.' := fun e => ha (e ▸ List.mem_cons_self _ _)
    have hr : '.' ∉ r := fun hm => ha (List.mem_cons_of_mem _ hm)
    rw [List.cons_append, hostLabels, if_neg hc, ih hr]

/-- A text without dot is its only label. -/
theorem hostLabels_no_dot_eq (a : List Char) (ha : '.' ∉ a) : hostLabels a = [a] := by
  induction a with
  | nil => rfl
  | cons c r ih =>
    have hc : c ≠ '.' := fun e => ha (e ▸ List.mem_cons_self _ _)
    have hr : '.' ∉ r := fun hm => ha (List.mem_cons_of_mem _ hm)
    rw [hostLabels, if_neg hc, ih hr]

/-- Labels without dot are the labels of what they are joined to. -/
theorem hostLabels_joinLabels (ls : List (List Char)) (hne : ls ≠ [])
    (hls : ∀ l ∈ ls, '.' ∉ l) : hostLabels (joinLabels ls) = ls := by
  induction ls with
  | nil => exact absurd rfl hne
  | cons a ls ih =>
    cases ls with
    | nil =>
      rw [joinLabels]
      exact hostLabels_no_dot_eq a (hls a (List.mem_cons_self _ _))
    | cons m ls =>
      rw [joinLabels, hostLabels_append_dot _ _ (hls a (List.mem_cons_self _ _)),
        ih (by simp) (fun l hl => hls l (List.mem_cons_of_mem _ hl))]

/-- The dots of joined labels without dot are those put between the labels. -/
theorem dotCount_joinLabels (ls : List (List Char)) (hls : ∀ l ∈ ls, '.' ∉ l) :
    dotCount (joinLabels ls) = ls.length - 1 := by
  induction ls with
  | nil => rfl
  | cons a ls ih =>
    have ha : a.count '.' = 0 := List.count_eq_zero.2 (hls a (List.mem_cons_self _ _))
    cases ls with
    | nil =>
      rw [joinLabels]
      exact ha
    | cons m ls =>
      have := ih (fun l hl => hls l (List.mem_cons_of_mem _ hl))
      unfold dotCount at this ⊢
      rw [joinLabels, List.count_append, ha, List.count_cons_self, this]
      simp

/-- The number of dots of a host is the number of its labels less one. -/
theorem dotCount_eq (h : List Char) : dotCount h = (hostLabels h).length - 1 := by
  conv => lhs; rw [← joinLabels_hostLabels h]
  exact dotCount_joinLabels _ (hostLabels_no_dot h)

/-- The pieces handed out from a text that does not end with a dot are its
labels. -/
theorem splitFrom_eq_hostLabels (h : List Char) (hl : h.getLast? ≠ some '.') :
    splitFrom '.' h = hostLabels h := by
  induction h with
  | nil => rfl
  | cons c r ih =>
    have hr : r ≠ [] → r.getLast? ≠ some '.' := by
      intro hne
      cases r with
      | nil => exact absurd rfl hne
      | cons x r' => simpa [List.getLast?_cons_cons] using hl
    unfold splitFrom hostLabels
    by_cases hc : c = '.'
    · rw [if_pos hc, if_pos hc]
      have hne : r ≠ [] := by
        intro e
        rw [e, hc] at hl
        simp at hl
      rw [if_neg hne, ih (hr hne)]
    · rw [if_neg hc, if_neg hc]
      by_cases hne : r = []
      · rw [hne]; rfl
      · rw [ih (hr hne)]

/-- The labels that the loops over a host go through are the labels of the host,
when the host is not empty and neither begins nor ends with a dot. -/
theorem nextSplit_eq_hostLabels (h : List Char) (hne : h ≠ []) (hh : h.head? ≠ some '.')
    (hl : h.getLast? ≠ some '.') : nextSplit_Rangecc h '.' = hostLabels h := by
  cases h with
  | nil => exact absurd rfl hne
  | cons c r =>
    have hc : c ≠ '.' := by
      intro e
      rw [e] at hh
      simp at hh
    unfold nextSplit_Rangecc
    simp only []
    rw [if_neg hc]
    exact splitFrom_eq_hostLabels _ hl

/-- The first label of a host that is not empty and does not begin with a dot
is not empty. -/
theorem hostLabels_head (h : List Char) (hne : h ≠ []) (hh : h.head? ≠ some '.') :
    ∃ l ls, hostLabels h = l :: ls ∧ l ≠ [] := by
  cases h with
  | nil => exact absurd rfl hne
  | cons c r =>
    have hc : c ≠ '.' := by
      intro e
      rw [e] at hh
      simp at hh
    unfold hostLabels
    rw [if_neg hc]
    cases hl : hostLabels r with
    | nil => exact absurd hl (hostLabels_ne_nil r)
    | cons m ls => exact ⟨c :: m, ls, rfl, by simp⟩

/-! ## The loops over the labels of a host -/

/-- One round of the decoder writes a dot, unless the result is still empty,
and the decoded label. -/
theorem punyDecodeStep_eq (E : Env) (result label : List Char) :
    punyDecodeStep E result label =
      (if result = [] then [] else result ++ ['.']) ++ punyDecodeLabel E label := by
  unfold punyDecodeStep punyDecodeLabel
  simp only []
  by_cases hr : result = []
  · subst hr
    simp only [List.isEmpty_nil, Bool.not_true, Bool.false_eq_true, if_false, if_true,
      List.nil_append]
  · have : (!result.isEmpty) = true := by simpa using hr
    simp only [this, if_true, if_neg hr]
    split <;> rfl

/-- A label that is not empty is decoded to a text that is not empty. -/
theorem punyDecodeLabel_ne_nil (E : Env) (label : List Char) (h : label ≠ []) :
    punyDecodeLabel E label ≠ [] := by
  unfold punyDecodeLabel
  split
  · rename_i hc
    simp only [Bool.and_eq_true, Bool.not_eq_true', List.isEmpty_eq_false] at hc
    have := hc.2
    intro e
    rw [e] at this
    simp at this
  · exact h

/-- The decoder loop, once the result is not empty. -/
theorem foldl_punyDecodeStep (E : Env) (ls : List (List Char)) (acc : List Char)
    (hacc : acc ≠ []) :
    ls.foldl (punyDecodeStep E) acc =
      acc ++ (ls.map (fun l => '.' :: punyDecodeLabel E l)).flatten := by
  induction ls generalizing acc with
  | nil => simp
  | cons l ls ih =>
    rw [List.foldl_cons, punyDecodeStep_eq, if_neg hacc, ih _ (by simp)]
    simp

/-- The decoded host read label by label, for a host that neither begins nor
ends with a dot. -/
theorem punyDecodeHost_eq_join (E : Env) (h : List Char) (hh : h.head? ≠ some '.')
    (hl : h.getLast? ≠ some '.') :
    punyDecodeHost_ E h = joinLabels ((hostLabels h).map (punyDecodeLabel E)) := by
  by_cases hne : h = []
  · subst hne
    have e : punyDecodeLabel E [] = [] := by
      unfold punyDecodeLabel
      rw [if_neg]
      simp [startsWithCase, cstr]
    simp [punyDecodeHost_, nextSplit_Rangecc, hostLabels, joinLabels, e]
  · unfold punyDecodeHost_
    rw [nextSplit_eq_hostLabels h hne hh hl]
    obtain ⟨l, ls, e, hlne⟩ := hostLabels_head h hne hh
    rw [e, List.foldl_cons, punyDecodeStep_eq, if_pos rfl, List.nil_append,
      foldl_punyDecodeStep E ls _ (punyDecodeLabel_ne_nil E l hlne), List.map_cons,
      joinLabels_cons, List.map_map]
    rfl

/-- One round of the encoder writes a dot, unless the label is the first one,
and the encoded label. -/
theorem punyEncodeStep_eq (E : Env) (encoded : List Char) (isFirst : Bool) (label : List Char) :
    punyEncodeStep E (encoded, isFirst) label =
      ((if isFirst then encoded else encoded ++ ['.']) ++ punyEncodeLabel E label, false) := by
  unfold punyEncodeStep punyEncodeLabel
  cases isFirst <;> simp only [Bool.not_false, Bool.not_true, if_true, Bool.false_eq_true, if_false]
    <;> split <;> simp only [List.append_assoc]

/-- The encoder loop, after the first label. -/
theorem foldl_punyEncodeStep (E : Env) (ls : List (List Char)) (acc : List Char) :
    ls.foldl (punyEncodeStep E) (acc, false) =
      (acc ++ (ls.map (fun l => '.' :: punyEncodeLabel E l)).flatten, false) := by
  induction ls generalizing acc with
  | nil => simp
  | cons l ls ih =>
    rw [List.foldl_cons, punyEncodeStep_eq, ih]
    simp

/-- The encoder loop over a list of labels that is not empty. -/
theorem foldl_punyEncodeStep_first (E : Env) (ls : List (List Char)) (acc : List Char)
    (hne : ls ≠ []) :
    (ls.foldl (punyEncodeStep E) (acc, true)).1 =
      acc ++ joinLabels (ls.map (punyEncodeLabel E)) := by
  cases ls with
  | nil => exact absurd rfl hne
  | cons l ls =>
    rw [List.foldl_cons, punyEncodeStep_eq, foldl_punyEncodeStep, List.map_cons, joinLabels_cons,
      List.map_map]
    simp only [if_true, List.append_assoc]
    rfl

/-- The scheme range begins the text. -/
theorem scheme_start (t : List Char) : (init_Url t).scheme.start = 0 := by
  by_cases hf : startsWithCase t (cstr "file://") = true
  · rw [(init_Url_file t hf).1]
  · have hf2 : startsWithCase t (cstr "file://") = false := by simpa using hf
    obtain ⟨p1, p3, p5, p6, p8, g2, _⟩ := urlPattern_layout t
    rw [(init_Url_nonfile t hf2).1, g2]
    split <;> rfl

/-- The encoded URL text is the text before the host, the encoded labels of the
host joined by dots, and the text after the host, for a host that neither
begins nor ends with a dot. -/
theorem punyEncodeUrlHost_eq_join (E : Env) (d : List Char)
    (hd : isDef_ (init_Url d).host = true)
    (hh : ((init_Url d).host.of d).head? ≠ some '.')
    (hl : ((init_Url d).host.of d).getLast? ≠ some '.') :
    punyEncodeUrlHost_String E d =
      d.take (init_Url d).host.start ++
        joinLabels ((hostLabels ((init_Url d).host.of d)).map (punyEncodeLabel E)) ++
        d.drop (init_Url d).host.stop := by
  have hf : startsWithCase d (cstr "file://") = false := by
    by_contra hc
    have hc2 : startsWithCase d (cstr "file://") = true := by simpa using hc
    rw [(init_Url_file d hc2).2.1] at hd
    simp [isDef_, isEmpty_Range, iNullRange] at hd
  obtain ⟨p1, p3, p5, p6, p8, b1, b3, b5, b6, b8, _, _, _, _, _, _, hhost, _⟩ :=
    init_Url_layout d hf
  obtain ⟨c1, c2, c3⟩ := hhost hd
  have hne : (init_Url d).host.of d ≠ [] := of_ne_nil _ _ c2 (by omega)
  have he : isEmpty_Range (init_Url d).host = false := by
    simpa [isDef_] using hd
  unfold punyEncodeUrlHost_String
  simp only [he, Bool.false_eq_true, if_false]
  rw [nextSplit_eq_hostLabels _ hne hh hl,
    foldl_punyEncodeStep_first E _ _ (hostLabels_ne_nil _), scheme_start]
  simp only [Range.of, List.drop_zero, Nat.sub_zero]

/-- A label that is not empty is encoded to a text that is not empty. -/
theorem punyEncodeLabel_ne_nil (E : Env) (label : List Char) (h : label ≠ []) :
    punyEncodeLabel E label ≠ [] := by
  unfold punyEncodeLabel
  split
  · simp [cstr]
  · exact h

/-- The last label of a host that is not empty and does not end with a dot is
not empty. -/
theorem hostLabels_getLast (h : List Char) (hne : h ≠ []) (hl : h.getLast? ≠ some '.') :
    ∃ ln, (hostLabels h).getLast? = some ln ∧ ln ≠ [] := by
  induction h with
  | nil => exact absurd rfl hne
  | cons c r ih =>
    by_cases hr : r = []
    · subst hr
      have hc : c ≠ '.' := by
        intro e
        rw [e] at hl
        simp at hl
      refine ⟨[c], ?_, by simp⟩
      simp [hostLabels, hc]
    · have hl2 : r.getLast? ≠ some '.' := by
        cases r with
        | nil => exact absurd rfl hr
        | cons x r' => simpa [List.getLast?_cons_cons] using hl
      obtain ⟨ln, h1, h2⟩ := ih hr hl2
      unfold hostLabels
      cases hls : hostLabels r with
      | nil => exact absurd hls (hostLabels_ne_nil r)
      | cons m ls =>
        rw [hls] at h1
        by_cases hc : c = '.'
        · rw [if_pos hc]
          exact ⟨ln, by rw [List.getLast?_cons_cons]; exact h1, h2⟩
        · rw [if_neg hc]
          simp only []
          cases ls with
          | nil => exact ⟨c :: m, rfl, by simp⟩
          | cons m2 ls2 =>
            rw [List.getLast?_cons_cons] at h1 ⊢
            exact ⟨ln, h1, h2⟩

/-- Joined labels begin with the first label. -/
theorem joinLabels_head (ls : List (List Char)) (l0 : List Char) (h0 : ls.head? = some l0)
    (hne : l0 ≠ []) (hdot : '.' ∉ l0) : (joinLabels ls).head? ≠ some '.' := by
  cases ls with
  | nil => simp at h0
  | cons a ls =>
    simp only [List.head?_cons, Option.some.injEq] at h0
    subst h0
    rw [joinLabels_cons]
    cases a with
    | nil => exact absurd rfl hne
    | cons x r =>
      simp only [List.cons_append, List.head?_cons, ne_eq, Option.some.injEq]
      intro e
      exact hdot (e ▸ List.mem_cons_self _ _)

/-- Joined labels end with the last label. -/
theorem joinLabels_getLast (ls : List (List Char)) (ln : List Char)
    (h0 : ls.getLast? = some ln) (hne : ln ≠ []) (hdot : '.' ∉ ln) :
    (joinLabels ls).getLast? ≠ some '.' := by
  induction ls with
  | nil => simp at h0
  | cons a ls ih =>
    cases ls with
    | nil =>
      simp only [List.getLast?_singleton, Option.some.injEq] at h0
      subst h0
      rw [joinLabels]
      intro e
      exact hdot (List.mem_of_getLast?_eq_some e)
    | cons m ls =>
      rw [List.getLast?_cons_cons] at h0
      have := ih h0
      rw [joinLabels]
      have hj : joinLabels (m :: ls) ≠ [] ∨ joinLabels (m :: ls) = [] := by
        by_cases e : joinLabels (m :: ls) = []
        · exact Or.inr e
        · exact Or.inl e
      rcases hj with hj | hj
      · have e1 : a ++ '.' :: joinLabels (m :: ls) = (a ++ ['.']) ++ joinLabels (m :: ls) := by
          simp
        rw [e1, List.getLast?_append_of_ne_nil _ hj]
        exact this
      · exfalso
        have hmem : ln ∈ m :: ls := List.mem_of_getLast?_eq_some h0
        have hjl := joinLabels_hostLabels (joinLabels (m :: ls))
        have hsub : ∀ c ∈ ln, c ∈ joinLabels (m :: ls) := by
          clear this ih h0 hj hjl
          induction ls generalizing m with
          | nil =>
            simp only [List.mem_singleton] at hmem
            subst hmem
            intro c hc
            rw [joinLabels]
            exact hc
          | cons m2 ls2 ih2 =>
            intro c hc
            rw [joinLabels]
            rcases List.mem_cons.1 hmem with e | hmem
            · subst e
              exact List.mem_append_left _ hc
            · exact List.mem_append_right _ (List.mem_cons_of_mem _ (ih2 m2 hmem c hc))
        cases ln with
        | nil => exact hne rfl
        | cons x r =>
          have := hsub x (List.mem_cons_self _ _)
          rw [hj] at this
          simp at this

/-- In a text with a host, the text from the start of the path on does not
begin with a character of the authority. -/
theorem path_start_head (t : List Char) (hd : isDef_ (init_Url t).host = true) :
    ∀ c, (t.drop (init_Url t).path.start).head? = some c → isAuthCh c = false := by
  obtain ⟨hnf, X, hX⟩ := host_def_shape t hd
  obtain ⟨_, _, hstart⟩ := path_of_nonfile t hnf
  rw [hstart]
  have e : t.drop (pathOffset t) = X.dropWhile isAuthCh := by
    unfold pathOffset
    rw [← List.drop_drop, hX, authGroupLen_slashes, ← List.drop_drop]
    simp only [List.drop_succ_cons, List.drop_zero]
    exact drop_length_takeWhile _ _
  rw [e]
  exact head_dropWhile_stop _ _

/-! ## Decomposing a text whose host was replaced -/

/-- Replacing the host of a URL text by a plain host name or a bracketed
address gives a text with that host, when the text has a scheme and its
authority is made of the host and, if there is one, the port: the host begins
three characters behind the scheme, and the path begins where the port stops
or, without port, where the host stops. -/
theorem host_of_replaced (url H : List Char)
    (hs : isDef_ (init_Url url).scheme = true) (hd : isDef_ (init_Url url).host = true)
    (ha : (init_Url url).host.start = (init_Url url).scheme.stop + 3)
    (hb : (init_Url url).path.start =
      if isDef_ (init_Url url).port then (init_Url url).port.stop else (init_Url url).host.stop)
    (hH : isPlainHost H = true ∨ isBracketHost H = true) :
    (init_Url (url.take (init_Url url).host.start ++ H ++
        url.drop (init_Url url).host.stop)).host.of
      (url.take (init_Url url).host.start ++ H ++ url.drop (init_Url url).host.stop) = H := by
  obtain ⟨⟨X, hX⟩, hnf⟩ := scheme_host_shape url hs hd
  obtain ⟨hne, hS⟩ := scheme_of_init_Url url hs
  obtain ⟨hfile, _⟩ := host_def_shape url hd
  obtain ⟨p1, p3, p5, p6, p8, b1, b3, b5, b6, b8, _, _, es, ep, _, _, hhost, hport⟩ :=
    init_Url_layout url hfile
  obtain ⟨c1, c2, c3⟩ := hhost hd
  obtain ⟨S, hSdef⟩ : ∃ S, S = (init_Url url).scheme.of url := ⟨_, rfl⟩
  rw [← hSdef] at hX hnf hne hS
  have hstop : (init_Url url).scheme.stop = S.length := by
    have h1 := (init_Url_nonfile url hfile).1
    have h2 := (urlPattern_scheme_auth S X hne hS).1
    rw [← hX] at h2
    rw [h1, h2]
  have htake : url.take (init_Url url).host.start = S ++ cstr "://" := by
    rw [ha, hstop]
    conv => lhs; rw [hX]
    exact take_append_len _ _ _ (by rw [cstr_sep]; simp)
  have hrest : ∀ c, (url.drop (init_Url url).path.start).head? = some c → isAuthCh c = false :=
    path_start_head url hd
  obtain ⟨portPart, rest, hdrop, hP, hR⟩ : ∃ portPart rest,
      url.drop (init_Url url).host.stop = portPart ++ rest ∧
      (portPart = [] ∨ ∃ P, portPart = ':' :: P ∧ '@' ∉ P ∧ ∀ c ∈ P, isAuthCh c = true) ∧
      (∀ c, rest.head? = some c → isAuthCh c = false) := by
    by_cases hp : isDef_ (init_Url url).port = true
    · obtain ⟨_, d1, d2, d3, d4⟩ := hport hp
      rw [if_pos hp] at hb
      have hpne : (init_Url url).port.of url ≠ [] := of_ne_nil _ _ d2 (by omega)
      obtain ⟨_, _, _, e4⟩ := port_follows_colon url hpne
      have e1 : (init_Url url).port.start - 1 = (init_Url url).host.stop := by omega
      rw [e1] at e4
      refine ⟨':' :: (init_Url url).port.of url, url.drop (init_Url url).port.stop, ?_,
        Or.inr ⟨_, rfl, ?_, ?_⟩, ?_⟩
      · obtain ⟨n, hn⟩ : ∃ n, n = (init_Url url).host.stop := ⟨_, rfl⟩
        obtain ⟨P, hPd⟩ : ∃ P, P = (init_Url url).port.of url := ⟨_, rfl⟩
        obtain ⟨m, hm⟩ : ∃ m, m = (init_Url url).port.stop := ⟨_, rfl⟩
        rw [← hn, ← hPd, ← hm] at e4
        rw [← hn, ← hPd, ← hm]
        conv => lhs; rw [e4]
        rw [List.append_assoc]
        exact drop_append_len _ _ _ (by rw [List.length_take]; omega)
      · intro hm
        exact (isPortCh_spec _ (port_of_init_Url_digits url _ hm)).2 rfl
      · intro c hc
        exact (isPortCh_spec _ (port_of_init_Url_digits url c hc)).1
      · rw [← hb]; exact hrest
    · rw [if_neg hp] at hb
      exact ⟨[], url.drop (init_Url url).host.stop, rfl, Or.inl rfl, by rw [← hb]; exact hrest⟩
  rw [htake, hdrop]
  have e : S ++ cstr "://" ++ H ++ (portPart ++ rest) =
      S ++ cstr "://" ++ (H ++ portPart ++ rest) := by
    simp only [List.append_assoc]
  rw [e]
  exact (scheme_host_of_scheme_auth S H portPart rest hne hS hnf hH hP hR).2

/-- A text is the text before a range, the text of the range and the text
after the range. -/
theorem splice_self (r : Range) (t : List Char) (h : r.start ≤ r.stop) :
    t.take r.start ++ r.of t ++ t.drop r.stop = t := by
  unfold Range.of
  have e : r.stop = r.start + (r.stop - r.start) := by omega
  conv => lhs; rhs; rw [e, ← List.drop_drop]
  rw [List.append_assoc, List.take_append_drop, List.take_append_drop]

/-- The Punycode of a label that is the label followed by a hyphen passes the
test of `equalPuny_`. -/
theorem equalPuny_append_hyphen (l : List Char) : equalPuny_ (l ++ ['-']) l = true := by
  unfold equalPuny_
  have h1 : endsWith (l ++ ['-']) (cstr "-") = true := by
    simp [endsWith, cstr]
  simp [h1]

/-- A label whose Punycode is empty or the label followed by a hyphen is written
as it is. -/
theorem punyEncodeLabel_ascii (E : Env) (l : List Char)
    (h : E.punyEncode_Rangecc l = [] ∨ E.punyEncode_Rangecc l = l ++ ['-']) :
    punyEncodeLabel E l = l := by
  unfold punyEncodeLabel
  rcases h with h | h
  · rw [h]; rfl
  · rw [h, equalPuny_append_hyphen]
    simp

/-- The host decoder gives the host back from the encoded labels, joined by
dots, of a host that is not empty and neither begins nor ends with a dot, when
every label comes back from the codec and no encoded label holds a dot. -/
theorem punyDecodeHost_encoded (E : Env) (h : List Char) (hne : h ≠ [])
    (hh : h.head? ≠ some '.') (hl : h.getLast? ≠ some '.')
    (hvalid : ∀ l ∈ hostLabels h,
      punyDecodeLabel E (punyEncodeLabel E l) = l ∧ '.' ∉ punyEncodeLabel E l) :
    punyDecodeHost_ E (joinLabels ((hostLabels h).map (punyEncodeLabel E))) = h := by
  have hdots : ∀ l ∈ (hostLabels h).map (punyEncodeLabel E), '.' ∉ l := by
    intro l hm
    obtain ⟨x, hx, rfl⟩ := List.mem_map.1 hm
    exact (hvalid x hx).2
  have hne2 : (hostLabels h).map (punyEncodeLabel E) ≠ [] := by
    simpa using hostLabels_ne_nil h
  obtain ⟨l0, ls, e0, hl0⟩ := hostLabels_head h hne hh
  obtain ⟨ln, en, hln⟩ := hostLabels_getLast h hne hl
  have hhead : (joinLabels ((hostLabels h).map (punyEncodeLabel E))).head? ≠ some '.' := by
    apply joinLabels_head _ (punyEncodeLabel E l0)
    · rw [e0]; rfl
    · exact punyEncodeLabel_ne_nil E l0 hl0
    · exact (hvalid l0 (by rw [e0]; exact List.mem_cons_self _ _)).2
  have hlast : (joinLabels ((hostLabels h).map (punyEncodeLabel E))).getLast? ≠ some '.' := by
    apply joinLabels_getLast _ (punyEncodeLabel E ln)
    · rw [List.getLast?_map, en]; rfl
    · exact punyEncodeLabel_ne_nil E ln hln
    · exact (hvalid ln (List.mem_of_getLast?_eq_some en)).2
  rw [punyDecodeHost_eq_join E _ hhead hlast, hostLabels_joinLabels _ hne2 hdots, List.map_map]
  have : (hostLabels h).map (punyDecodeLabel E ∘ punyEncodeLabel E) = hostLabels h := by
    conv => rhs; rw [← List.map_id (hostLabels h)]
    apply List.map_congr_left
    intro l hl
    exact (hvalid l hl).1
  rw [this, joinLabels_hostLabels]

/-! ## The loop of `urlEncodeSpaces_String` -/

/-- A text without space is left as it is when its spaces are replaced. -/
theorem spacesReplaced_no_space (d : List Char) (h : ' ' ∉ d) : spacesReplaced d = d := by
  induction d with
  | nil => rfl
  | cons c r ih =>
    have hc : c ≠ ' ' := fun e => h (e ▸ List.mem_cons_self _ _)
    have hr : ' ' ∉ r := fun hm => h (List.mem_cons_of_mem _ hm)
    rw [spacesReplaced, if_neg hc, ih hr]
    rfl

/-- Replacing the spaces of two texts put together. -/
theorem spacesReplaced_append (a b : List Char) :
    spacesReplaced (a ++ b) = spacesReplaced a ++ spacesReplaced b := by
  induction a with
  | nil => rfl
  | cons c r ih =>
    rw [List.cons_append, spacesReplaced, spacesReplaced, ih, List.append_assoc]

/-- No space is left once the spaces are replaced. -/
theorem not_mem_spacesReplaced (d : List Char) : ' ' ∉ spacesReplaced d := by
  induction d with
  | nil => simp [spacesReplaced]
  | cons c r ih =>
    rw [spacesReplaced]
    intro hm
    rcases List.mem_append.1 hm with h | h
    · by_cases hc : c = ' '
      · rw [if_pos hc] at h
        revert h
        decide
      · rw [if_neg hc] at h
        simp only [List.mem_singleton] at h
        exact hc h.symm
    · exact ih h

/-- The loop breaks at once on a text without space. -/
theorem urlEncodeSpaces_round_none (d : List Char) (h : ' ' ∉ d) :
    urlEncodeSpaces_round d = none := by
  unfold urlEncodeSpaces_round
  rw [indexOf_String_eq, if_neg h]

/-- One round on a text with a space: the first space gives way to `%20`. -/
theorem urlEncodeSpaces_round_some (d : List Char) (h : ' ' ∈ d) :
    ∃ pre post, d = pre ++ ' ' :: post ∧ ' ' ∉ pre ∧
      urlEncodeSpaces_round d = some (pre ++ cstr "%20" ++ post) := by
  have hsplit := (List.takeWhile_append_dropWhile (fun c => c != ' ') d).symm
  have hpre : ' ' ∉ d.takeWhile (fun c => c != ' ') := by
    intro hm
    have := List.mem_takeWhile_imp hm
    simp at this
  cases hd : d.dropWhile (fun c => c != ' ') with
  | nil =>
    rw [hd, List.append_nil] at hsplit
    rw [hsplit] at h
    exact absurd h hpre
  | cons x post =>
    have hx := head_dropWhile_stop (fun c => c != ' ') d x (by rw [hd]; rfl)
    have hx2 : x = ' ' := by simpa using hx
    rw [hx2] at hd
    rw [hd] at hsplit
    refine ⟨d.takeWhile (fun c => c != ' '), post, hsplit, hpre, ?_⟩
    unfold urlEncodeSpaces_round
    rw [indexOf_String_eq, if_pos h]
    simp only [insertData_Block, remove_Block]
    obtain ⟨pre, hp⟩ : ∃ pre, pre = d.takeWhile (fun c => c != ' ') := ⟨_, rfl⟩
    rw [← hp] at hsplit ⊢
    have e1 : d.take pre.length = pre := by
      conv => lhs; rw [hsplit]
      exact take_append_len _ _ _ rfl
    have e2 : d.drop (pre.length + 1) = post := by
      conv => lhs; rw [hsplit]
      have : pre ++ ' ' :: post = (pre ++ [' ']) ++ post := by simp
      rw [this]
      exact drop_append_len _ _ _ (by simp)
    rw [e1, e2, take_append_len pre post _ rfl, drop_append_len pre post _ rfl]

/-- The loop gives the text with its spaces replaced as soon as it may run one
round more than the text has spaces, and it is out of rounds before that. -/
theorem urlEncodeSpaces_loop (fuel : Nat) (d : List Char) :
    (d.count ' ' < fuel → urlEncodeSpaces_String fuel d = some (spacesReplaced d)) ∧
    (fuel ≤ d.count ' ' → urlEncodeSpaces_String fuel d = none) := by
  induction fuel generalizing d with
  | zero =>
    exact ⟨fun h => absurd h (Nat.not_lt_zero _), fun _ => rfl⟩
  | succ n ih =>
    by_cases hm : ' ' ∈ d
    · obtain ⟨pre, post, hd, hpre, hr⟩ := urlEncodeSpaces_round_some d hm
      have hc1 : d.count ' ' = post.count ' ' + 1 := by
        rw [hd, List.count_append, List.count_eq_zero.2 hpre, List.count_cons_self]
        omega
      have hc2 : (pre ++ cstr "%20" ++ post).count ' ' = post.count ' ' := by
        rw [List.count_append, List.count_append, List.count_eq_zero.2 hpre]
        have : (cstr "%20").count ' ' = 0 := by decide
        rw [this]
        omega
      have hs : spacesReplaced (pre ++ cstr "%20" ++ post) = spacesReplaced d := by
        rw [hd, spacesReplaced_append, spacesReplaced_append, spacesReplaced_append,
          spacesReplaced_no_space pre hpre]
        have e1 : spacesReplaced (cstr "%20") = cstr "%20" :=
          spacesReplaced_no_space _ (by decide)
        have e2 : spacesReplaced (' ' :: post) = cstr "%20" ++ spacesReplaced post := by
          rw [spacesReplaced, if_pos rfl]
        rw [e1, e2, List.append_assoc]
      have step : urlEncodeSpaces_String (n + 1) d =
          urlEncodeSpaces_String n (pre ++ cstr "%20" ++ post) := by
        rw [urlEncodeSpaces_String, hr]
      rw [step, ← hs]
      obtain ⟨i1, i2⟩ := ih (pre ++ cstr "%20" ++ post)
      rw [hc2] at i1 i2
      exact ⟨fun h => i1 (by omega), fun h => i2 (by omega)⟩
    · have hc : d.count ' ' = 0 := List.count_eq_zero.2 hm
      constructor
      · intro _
        rw [urlEncodeSpaces_String, urlEncodeSpaces_round_none d hm, spacesReplaced_no_space d hm]
      · intro h
        omega

/-! ## Where the backward scan stops -/

/-- Entered in a buffer that is not empty, the backward scan stops in the
buffer. -/
theorem scanBack_lt (l : List Char) (h : l ≠ []) : scanBack l < l.length := by
  induction l with
  | nil => exact absurd rfl h
  | cons c rest ih =>
    unfold scanBack
    split
    · simp
    · rename_i hc
      have hne : rest ≠ [] := by
        intro e
        apply hc
        simp [e]
      have := ih hne
      simp only [List.length_cons]
      omega

/-! ## The slashes at the two ends of the cleaned path -/

/-- A cleaned path ends with a slash when the path does. -/
theorem cleanPath_endsWith (E : Env) (path : List Char)
    (h : endsWith path (cstr "/") = true) : endsWith (cleanPath E path) (cstr "/") = true := by
  rw [cleanPath_eq_render, if_pos h, cstr_slash]
  exact endsWith_append_slash _

/-- The cleaned form of a path that does not start with a slash does not start
with a slash either, unless no segment is left of a path that ends with a
slash: then it is the slash alone. -/
theorem cleanPath_startsWith (E : Env) (path : List Char)
    (h : startsWith path (cstr "/") = false) :
    startsWith (cleanPath E path) (cstr "/") = false ∨
      (cleanPath E path = cstr "/" ∧ endsWith path (cstr "/") = true) := by
  rw [cleanPath_eq_render, h]
  have hg := keptSegs_good path
  cases hk : keptSegs path with
  | nil =>
    by_cases he : endsWith path (cstr "/") = true
    · right
      rw [if_pos he]
      exact ⟨rfl, he⟩
    · left
      rw [if_neg he]
      rfl
  | cons s ss =>
    left
    rw [hk] at hg
    obtain ⟨c, r, hs, hc⟩ := head_goodSeg s (hg s (List.mem_cons_self _ _))
    have : startsWith (render false (s :: ss) ++
        (if endsWith path (cstr "/") = true then cstr "/" else [])) (cstr "/") = true →
        False := by
      intro hst
      rw [startsWith_slash_iff] at hst
      rw [hs] at hst
      simp only [render, List.cons_append, List.head?_cons, Option.some.injEq] at hst
      exact hc hst
    cases hb : startsWith (render false (s :: ss) ++
        (if endsWith path (cstr "/") = true then cstr "/" else [])) (cstr "/") with
    | false => rfl
    | true => exact absurd hb this

/-! ## What stands behind the path -/

/-- The text behind the path is the query, the fragment and what the match of
`urlPattern_` has left over. -/
theorem drop_path_stop (t : List Char) :
    ∃ rest, t.drop (init_Url t).path.stop =
      (init_Url t).query.of t ++ ((init_Url t).fragment.of t ++ rest) := by
  by_cases hf : startsWithCase t (cstr "file://") = true
  · obtain ⟨_, _, _, e4, e5, e6⟩ := init_Url_file t hf
    rw [e4, e5, e6]
    exact ⟨[], by simp [Range.of, iNullRange]⟩
  · have hf2 : startsWithCase t (cstr "file://") = false := by simpa using hf
    obtain ⟨p1, p3, p5, p6, p8, b1, b3, b5, b6, b8, _, _, _, ep, eq, ef, _, _⟩ :=
      init_Url_layout t hf2
    have hq : (init_Url t).query.of t = (t.drop p5).take (p6 - p5) := by
      rw [eq]
      by_cases h : p6 = p5
      · simp [h, Range.of, iNullRange]
      · have : (p6 != p5) = true := by simpa using h
        rw [if_pos this]
        rfl
    have hfr : (init_Url t).fragment.of t = (t.drop p6).take (p8 - p6) := by
      rw [ef]
      by_cases h : p8 = p6
      · simp [h, Range.of, iNullRange]
      · have : (p8 != p6) = true := by simpa using h
        rw [if_pos this]
        rfl
    refine ⟨t.drop p8, ?_⟩
    rw [ep, hq, hfr]
    simp only []
    have e1 : t.drop p6 = (t.drop p5).drop (p6 - p5) := by
      rw [List.drop_drop]
      congr 1
      omega
    have e2 : t.drop p8 = (t.drop p6).drop (p8 - p6) := by
      rw [List.drop_drop]
      congr 1
      omega
    rw [e2, List.take_append_drop, e1, List.take_append_drop]

/-- A range that stops before an offset covers the same characters in every
text that agrees with the given one up to the offset. -/
theorem of_take_append (r : Range) (t x : List Char) (n : Nat) (h : r.stop ≤ n)
    (hn : n ≤ t.length) : r.of (t.take n ++ x) = r.of t := by
  unfold Range.of
  by_cases hs : r.start ≤ r.stop
  · have e : ∀ l : List Char, (l.drop r.start).take (r.stop - r.start) =
        (l.take r.stop).drop r.start := by
      intro l
      rw [List.drop_take]
    rw [e, e, List.take_append_of_le_length (by rw [List.length_take]; omega),
      List.take_take, Nat.min_eq_left h]
  · have : r.stop - r.start = 0 := by omega
    rw [this]
    simp

/-- A defined range of scheme, host or port stops where the path starts, or
before. -/
theorem before_path (t : List Char) :
    (isDef_ (init_Url t).scheme = true → (init_Url t).scheme.stop ≤ (init_Url t).path.start) ∧
    (isDef_ (init_Url t).host = true → (init_Url t).host.stop ≤ (init_Url t).path.start) ∧
    (isDef_ (init_Url t).port = true → (init_Url t).port.stop ≤ (init_Url t).path.start) := by
  by_cases hf : startsWithCase t (cstr "file://") = true
  · obtain ⟨e1, e2, e3, e4, _, _⟩ := init_Url_file t hf
    rw [e1, e2, e3, e4]
    simp [iNullRange]
  · have hf2 : startsWithCase t (cstr "file://") = false := by simpa using hf
    obtain ⟨p1, p3, p5, p6, p8, b1, b3, b5, b6, b8, _, _, es, ep, _, _, hh, hp⟩ :=
      init_Url_layout t hf2
    rw [ep]
    simp only []
    refine ⟨?_, fun hd => (hh hd).2.2, fun hd => (hp hd).2.2.2.1⟩
    intro hd
    rw [isDef_of_ite _ _ _ es hd]
    simp only []
    omega

/-- The scheme, the host and the port are read alike in the text and in every
text that agrees with it up to the start of the path. -/
theorem of_before_path (t x : List Char) :
    (init_Url t).scheme.of (t.take (init_Url t).path.start ++ x) = (init_Url t).scheme.of t ∧
    (init_Url t).host.of (t.take (init_Url t).path.start ++ x) = (init_Url t).host.of t ∧
    (init_Url t).port.of (t.take (init_Url t).path.start ++ x) = (init_Url t).port.of t := by
  obtain ⟨h1, h2, h3⟩ := before_path t
  have hb := init_Url_path_bounds t
  have key : ∀ r : Range, (isDef_ r = true → r.stop ≤ (init_Url t).path.start) →
      r.of (t.take (init_Url t).path.start ++ x) = r.of t := by
    intro r hr
    by_cases hd : isDef_ r = true
    · exact of_take_append r t x _ (hr hd) (by omega)
    · have hd2 : isDef_ r = false := by simpa using hd
      rw [of_eq_nil_of_not_def r _ hd2, of_eq_nil_of_not_def r _ hd2]
  exact ⟨key _ h1, key _ h2, key _ h3⟩

/-! # The claims -/

/-- C1, counterexample.  The text `./a:./b` has no scheme and no authority, so
all of it is path; it is cleaned to `a:./b`.  That text has the scheme `a` and
the path `./b`, and is cleaned to `a:b`: cleaning twice differs from cleaning
once. -/
theorem cleanUrlPath_twice_differs :
    (init_Url (cstr "./a:./b")).path.of (cstr "./a:./b") = cstr "./a:./b" ∧
    cleanUrlPath_String plainEnv (cstr "./a:./b") = cstr "a:./b" ∧
    (init_Url (cstr "a:./b")).path.of (cstr "a:./b") = cstr "./b" ∧
    cleanUrlPath_String plainEnv (cleanUrlPath_String plainEnv (cstr "./a:./b")) = cstr "a:b" ∧
    cleanUrlPath_String plainEnv (cleanUrlPath_String plainEnv (cstr "./a:./b")) ≠
      cleanUrlPath_String plainEnv (cstr "./a:./b") := by
  decide

/-- C1, amended.  Cleaning is idempotent on every text whose path does not
begin the text (a scheme or an authority precedes it) and on every text whose
path has no colon. -/
theorem cleanUrlPath_idempotent_unless_bare_path_with_colon (E : Env) (p : List Char)
    (h : (init_Url p).path.start ≠ 0 ∨ ':' ∉ (init_Url p).path.of p) :
    cleanUrlPath_String E (cleanUrlPath_String E p) = cleanUrlPath_String E p :=
  cleanUrlPath_idem E p h

theorem cleanUrlPath_idempotent_unless_bare_path_with_colon_witness :
    cleanUrlPath_String plainEnv (cleanUrlPath_String plainEnv (cstr "gemini://h.org/./a:./b/../c?q")) =
      cleanUrlPath_String plainEnv (cstr "gemini://h.org/./a:./b/../c?q") ∧
    cleanUrlPath_String plainEnv (cleanUrlPath_String plainEnv (cstr "./a/../b/./c/")) =
      cleanUrlPath_String plainEnv (cstr "./a/../b/./c/") :=
  ⟨cleanUrlPath_idempotent_unless_bare_path_with_colon plainEnv
      (cstr "gemini://h.org/./a:./b/../c?q") (Or.inl (by decide)),
   cleanUrlPath_idempotent_unless_bare_path_with_colon plainEnv
      (cstr "./a/../b/./c/") (Or.inr (by decide))⟩

/-- C4.  A `..` segment met while the output buffer holds no segment leaves the
buffer empty, so a leading `..` of an absolute path is dropped: when the path
of a URL text is `/..` followed by a remainder `r` that is empty or begins with
a slash, the cleaned path is the cleaned form of `r` taken as an absolute path,
and the cleaned text is the text before the path, that cleaned form, and the
text after the path.  In particular `/../x` is cleaned to `/x`. -/
theorem leading_dotdot_of_absolute_path_is_dropped (E : Env) (d r : List Char)
    (hpath : (init_Url d).path.of d = cstr "/.." ++ r)
    (hr : r = [] ∨ r.head? = some '/') :
    (∀ absPath : Bool, cleanStep E absPath [] (cstr "..") = []) ∧
    cleanPath E ((init_Url d).path.of d) =
      (nextSplit_Rangecc r '/').foldl (cleanStep E true) [] ++
        (if endsWith r (cstr "/") then cstr "/" else []) ∧
    cleanUrlPath_String E d =
      d.take (init_Url d).path.start ++
        ((nextSplit_Rangecc r '/').foldl (cleanStep E true) [] ++
          (if endsWith r (cstr "/") then cstr "/" else [])) ++
        d.drop (init_Url d).path.stop ∧
    cleanUrlPath_String E (cstr "/../x") = cstr "/x" := by
  refine ⟨fun a => cleanStep_dotdot_nil E a, ?_, ?_, ?_⟩
  · rw [hpath, cleanPath_leading_dotdot E r hr]
  · rw [cleanUrlPath_String_eq, hpath, cleanPath_leading_dotdot E r hr]
  · rw [cleanUrlPath_String_eq]
    have h1 : (init_Url (cstr "/../x")).path.of (cstr "/../x") = cstr "/.." ++ cstr "/x" := by
      decide
    rw [h1, cleanPath_leading_dotdot E (cstr "/x") (Or.inr rfl)]
    rfl

theorem leading_dotdot_of_absolute_path_is_dropped_witness :
    cleanUrlPath_String plainEnv (cstr "gemini://h.org/../../a/./b?q") =
      cstr "gemini://h.org/a/b?q" ∧
    cleanPath plainEnv (cstr "/../../a/./b") = cleanPath plainEnv (cstr "/../a/./b") ∧
    cleanUrlPath_String plainEnv (cstr "/../x") = cstr "/x" :=
  ⟨by decide,
   by
    have h := (leading_dotdot_of_absolute_path_is_dropped plainEnv
      (cstr "gemini://h.org/../../a/./b?q") (cstr "/../a/./b") (by decide) (Or.inr rfl)).2.1
    have e : (init_Url (cstr "gemini://h.org/../../a/./b?q")).path.of
        (cstr "gemini://h.org/../../a/./b?q") = cstr "/../../a/./b" := by decide
    rw [e] at h
    rw [h]
    decide,
   (leading_dotdot_of_absolute_path_is_dropped plainEnv
      (cstr "gemini://h.org/../../a/./b?q") (cstr "/../a/./b") (by decide) (Or.inr rfl)).2.2.2⟩

/-- C5, counterexample.  The reference `https://a@b@c/z` has the scheme `https`
and the host `b@c`, which decoding leaves as it is; the resolved URL is
`https://b@c/z`, and decomposing it gives the host `c`, not `b@c`. -/
theorem resolved_host_differs_from_decoded_reference_host :
    isDef_ (init_Url (cstr "https://a@b@c/z")).scheme = true ∧
    (init_Url (cstr "https://a@b@c/z")).host.of (cstr "https://a@b@c/z") = cstr "b@c" ∧
    punyDecodeHost_ plainEnv ((init_Url (cstr "https://a@b@c/z")).host.of
      (cstr "https://a@b@c/z")) = cstr "b@c" ∧
    absoluteUrl_String plainEnv (cstr "gemini://x/y") (cstr "https://a@b@c/z") =
      cstr "https://b@c/z" ∧
    (init_Url (absoluteUrl_String plainEnv (cstr "gemini://x/y")
        (cstr "https://a@b@c/z"))).host.of
      (absoluteUrl_String plainEnv (cstr "gemini://x/y") (cstr "https://a@b@c/z")) = cstr "c" ∧
    (init_Url (absoluteUrl_String plainEnv (cstr "gemini://x/y")
        (cstr "https://a@b@c/z"))).host.of
      (absoluteUrl_String plainEnv (cstr "gemini://x/y") (cstr "https://a@b@c/z")) ≠
      punyDecodeHost_ plainEnv ((init_Url (cstr "https://a@b@c/z")).host.of
        (cstr "https://a@b@c/z")) := by
  decide

/-- C5, amended.  Let the reference have a scheme other than data, about and
mailto, and a host whose decoded form is a plain host name (not empty, without
`@`, `:`, `[`, `]`, `/`, `?`, `#`) or a bracketed address, and let Unicode
normalisation leave the assembled text as it is.  Then decomposing the resolved
URL gives the scheme of the reference and the decoded host of the reference,
whatever the base. -/
theorem resolved_url_has_scheme_and_host_of_reference (E : Env)
    (d urlMaybeRelative : List Char)
    (hrs : isDef_ (init_Url urlMaybeRelative).scheme = true)
    (hrh : isDef_ (init_Url urlMaybeRelative).host = true)
    (hop : isOpaqueScheme ((init_Url urlMaybeRelative).scheme.of urlMaybeRelative) = false)
    (hnorm : E.normalize_String (assembleUrl E d urlMaybeRelative) =
      assembleUrl E d urlMaybeRelative)
    (hH : isPlainHost (punyDecodeHost_ E
            ((init_Url urlMaybeRelative).host.of urlMaybeRelative)) = true ∨
          isBracketHost (punyDecodeHost_ E
            ((init_Url urlMaybeRelative).host.of urlMaybeRelative)) = true) :
    (init_Url (absoluteUrl_String E d urlMaybeRelative)).scheme.of
        (absoluteUrl_String E d urlMaybeRelative) =
      (init_Url urlMaybeRelative).scheme.of urlMaybeRelative ∧
    (init_Url (absoluteUrl_String E d urlMaybeRelative)).host.of
        (absoluteUrl_String E d urlMaybeRelative) =
      punyDecodeHost_ E ((init_Url urlMaybeRelative).host.of urlMaybeRelative) := by
  rw [absoluteUrl_unfold_resolved E d urlMaybeRelative hop, hnorm]
  obtain ⟨rest, hasm, hrest⟩ := assembleUrl_reference_path E d urlMaybeRelative (Or.inl hrs)
  obtain ⟨portPart, hauth, hP⟩ := resultAuthority_shape E d urlMaybeRelative
  have hsrc : authoritySource d urlMaybeRelative = urlMaybeRelative := by
    unfold authoritySource
    simp only [hrh, if_true]
  rw [hsrc] at hauth
  have hsch : resultScheme d urlMaybeRelative =
      (init_Url urlMaybeRelative).scheme.of urlMaybeRelative := by
    unfold resultScheme
    simp only [hrs, if_true]
  obtain ⟨hne, hS⟩ := scheme_of_init_Url urlMaybeRelative hrs
  obtain ⟨_, hnf⟩ := scheme_host_shape urlMaybeRelative hrs hrh
  rw [hasm, hauth, hsch]
  exact scheme_host_of_cleaned E _ _ portPart rest hne hS hnf hH hP
    (fun c hc => by
      rw [hrest] at hc
      simp only [Option.some.injEq] at hc
      subst hc; rfl)

theorem resolved_url_has_scheme_and_host_of_reference_witness :
    (init_Url (absoluteUrl_String plainEnv (cstr "gemini://x/y")
        (cstr "https://other/z"))).scheme.of
      (absoluteUrl_String plainEnv (cstr "gemini://x/y") (cstr "https://other/z")) =
      cstr "https" ∧
    (init_Url (absoluteUrl_String plainEnv (cstr "gemini://x/y")
        (cstr "https://other/z"))).host.of
      (absoluteUrl_String plainEnv (cstr "gemini://x/y") (cstr "https://other/z")) =
      cstr "other" :=
  resolved_url_has_scheme_and_host_of_reference plainEnv (cstr "gemini://x/y")
    (cstr "https://other/z") (by decide) (by decide) (by decide) rfl (Or.inl (by decide))

/-- C6, counterexample.  The reference `#frag` has no scheme, no host and an
empty path, and the base `gemini://x/y?q` has the path `/y`; the resolved URL
is `gemini://x#frag`, whose path is empty, and not `gemini://x/y#frag`. -/
theorem fragment_only_reference_drops_base_path :
    isDef_ (init_Url (cstr "#frag")).scheme = false ∧
    isDef_ (init_Url (cstr "#frag")).host = false ∧
    (init_Url (cstr "#frag")).path.of (cstr "#frag") = [] ∧
    (init_Url (cstr "gemini://x/y?q")).path.of (cstr "gemini://x/y?q") = cstr "/y" ∧
    absoluteUrl_String plainEnv (cstr "gemini://x/y?q") (cstr "#frag") = cstr "gemini://x#frag" ∧
    (init_Url (absoluteUrl_String plainEnv (cstr "gemini://x/y?q") (cstr "#frag"))).path.of
      (absoluteUrl_String plainEnv (cstr "gemini://x/y?q") (cstr "#frag")) = [] ∧
    absoluteUrl_String plainEnv (cstr "gemini://x/y?q") (cstr "#frag") ≠
      cleanUrlPath_String plainEnv (resultScheme (cstr "gemini://x/y?q") (cstr "#frag") ++
        cstr "://" ++ resultAuthority plainEnv (cstr "gemini://x/y?q") (cstr "#frag") ++
        (init_Url (cstr "gemini://x/y?q")).path.of (cstr "gemini://x/y?q") ++
        (init_Url (cstr "#frag")).query.of (cstr "#frag") ++
        (init_Url (cstr "#frag")).fragment.of (cstr "#frag")) := by
  decide

/-- C6, amended.  Let the reference have no scheme, no host and an empty path,
let the empty path not count as absolute, and let Unicode normalisation leave
the assembled text as it is.  When the reference has a query, the resolved URL
is the cleaned form of scheme, `://`, authority, the path of the base, and the
query and fragment of the reference.  When the reference has no query either,
no path is written: the resolved URL is the cleaned form of scheme, `://`,
authority and the fragment of the reference. -/
theorem reference_without_path_keeps_base_path_only_with_query (E : Env)
    (d urlMaybeRelative : List Char)
    (hrs : isDef_ (init_Url urlMaybeRelative).scheme = false)
    (hrh : isDef_ (init_Url urlMaybeRelative).host = false)
    (hrp : isDef_ (init_Url urlMaybeRelative).path = false)
    (hrel : isAbsolutePath_ E [] = false)
    (hnorm : E.normalize_String (assembleUrl E d urlMaybeRelative) =
      assembleUrl E d urlMaybeRelative) :
    (isDef_ (init_Url urlMaybeRelative).query = true →
      absoluteUrl_String E d urlMaybeRelative =
        cleanUrlPath_String E (resultScheme d urlMaybeRelative ++ cstr "://" ++
          resultAuthority E d urlMaybeRelative ++ (init_Url d).path.of d ++
          (init_Url urlMaybeRelative).query.of urlMaybeRelative ++
          (init_Url urlMaybeRelative).fragment.of urlMaybeRelative)) ∧
    (isDef_ (init_Url urlMaybeRelative).query = false →
      absoluteUrl_String E d urlMaybeRelative =
        cleanUrlPath_String E (resultScheme d urlMaybeRelative ++ cstr "://" ++
          resultAuthority E d urlMaybeRelative ++
          (init_Url urlMaybeRelative).fragment.of urlMaybeRelative)) := by
  have hop : isOpaqueScheme ((init_Url urlMaybeRelative).scheme.of urlMaybeRelative) = false := by
    rw [of_eq_nil_of_not_def _ _ hrs]; decide
  have hpe : (init_Url urlMaybeRelative).path.of urlMaybeRelative = [] :=
    of_eq_nil_of_not_def _ _ hrp
  rw [absoluteUrl_unfold_resolved E d urlMaybeRelative hop, hnorm]
  constructor
  · intro hq
    congr 1
    unfold assembleUrl
    simp only [hrs, hrh, hpe, hrel, hrp, hq, Bool.or_self, Bool.false_eq_true, if_false, if_true]
  · intro hq
    congr 1
    unfold assembleUrl
    simp only [hrs, hrh, hpe, hrel, hrp, hq, Bool.or_self, Bool.false_eq_true, if_false,
      of_eq_nil_of_not_def _ urlMaybeRelative hq, List.append_nil]

theorem reference_without_path_keeps_base_path_only_with_query_witness :
    absoluteUrl_String plainEnv (cstr "gemini://x/a/./y?q") (cstr "?z#f") =
      cstr "gemini://x/a/y?z#f" ∧
    absoluteUrl_String plainEnv (cstr "gemini://x/a/./y?q") [] = cstr "gemini://x" :=
  ⟨((reference_without_path_keeps_base_path_only_with_query plainEnv (cstr "gemini://x/a/./y?q")
      (cstr "?z#f") (by decide) (by decide) (by decide) (by decide) rfl).1 (by decide)).trans
      (by decide),
   ((reference_without_path_keeps_base_path_only_with_query plainEnv (cstr "gemini://x/a/./y?q")
      [] (by decide) (by decide) (by decide) (by decide) rfl).2 (by decide)).trans
      (by decide)⟩

/-- C7, counterexample.  With the base `file:///a/b` the reference
`c?x=/../y` has the query `?x=/../y` and no fragment, yet the resolved URL is
`file:///a/y`: a text that begins with `file://` is all path for the cleaner,
which removes `c?x=` and `..` as path segments, so the result does not end
with the query of the reference. -/
theorem file_base_loses_reference_query :
    (init_Url (cstr "c?x=/../y")).query.of (cstr "c?x=/../y") = cstr "?x=/../y" ∧
    (init_Url (cstr "c?x=/../y")).fragment.of (cstr "c?x=/../y") = [] ∧
    isOpaqueScheme ((init_Url (cstr "c?x=/../y")).scheme.of (cstr "c?x=/../y")) = false ∧
    absoluteUrl_String plainEnv (cstr "file:///a/b") (cstr "c?x=/../y") = cstr "file:///a/y" ∧
    ¬ ((init_Url (cstr "c?x=/../y")).query.of (cstr "c?x=/../y") ++
        (init_Url (cstr "c?x=/../y")).fragment.of (cstr "c?x=/../y") <:+
      absoluteUrl_String plainEnv (cstr "file:///a/b") (cstr "c?x=/../y")) := by
  refine ⟨by decide, by decide, by decide, by decide, ?_⟩
  have h1 : (init_Url (cstr "c?x=/../y")).query.of (cstr "c?x=/../y") ++
      (init_Url (cstr "c?x=/../y")).fragment.of (cstr "c?x=/../y") = cstr "?x=/../y" := by
    decide
  have h2 : absoluteUrl_String plainEnv (cstr "file:///a/b") (cstr "c?x=/../y")
      = cstr "file:///a/y" := by decide
  rw [h1, h2]
  decide

/-- C7, amended.  For a reference whose scheme is not data, about or mailto,
an assembled text that Unicode normalisation leaves as it is, and a result
scheme other than `file`, the resolved URL ends with the query of the reference
followed by its fragment.  The query and the fragment of the base are no input
of the result: two bases with the same scheme, host, port and path give the
same resolved URL. -/
theorem resolved_url_ends_with_reference_query_and_fragment (E : Env)
    (d urlMaybeRelative : List Char)
    (hop : isOpaqueScheme ((init_Url urlMaybeRelative).scheme.of urlMaybeRelative) = false)
    (hnorm : E.normalize_String (assembleUrl E d urlMaybeRelative) =
      assembleUrl E d urlMaybeRelative)
    (hfile : equalCase_Rangecc (resultScheme d urlMaybeRelative) (cstr "file") = false) :
    ((init_Url urlMaybeRelative).query.of urlMaybeRelative ++
        (init_Url urlMaybeRelative).fragment.of urlMaybeRelative <:+
      absoluteUrl_String E d urlMaybeRelative) ∧
    ∀ d2 : List Char,
      isDef_ (init_Url d).scheme = isDef_ (init_Url d2).scheme →
      (init_Url d).scheme.of d = (init_Url d2).scheme.of d2 →
      (init_Url d).host.of d = (init_Url d2).host.of d2 →
      isEmpty_Range (init_Url d).port = isEmpty_Range (init_Url d2).port →
      (init_Url d).port.of d = (init_Url d2).port.of d2 →
      (init_Url d).path.of d = (init_Url d2).path.of d2 →
      absoluteUrl_String E d urlMaybeRelative = absoluteUrl_String E d2 urlMaybeRelative :=
  ⟨resolved_suffix_kept E d urlMaybeRelative hop hnorm hfile,
   fun d2 h1 h2 h3 h4 h5 h6 => resolved_frame E d d2 urlMaybeRelative h1 h2 h3 h4 h5 h6⟩

theorem resolved_url_ends_with_reference_query_and_fragment_witness :
    (cstr "?x=/../y#f/./g" <:+
      absoluteUrl_String plainEnv (cstr "gemini://h.org/a/b?q#r") (cstr "c?x=/../y#f/./g")) ∧
    absoluteUrl_String plainEnv (cstr "gemini://h.org/a/b?q#r") [] =
      absoluteUrl_String plainEnv (cstr "gemini://h.org/a/b") [] :=
  ⟨(resolved_url_ends_with_reference_query_and_fragment plainEnv (cstr "gemini://h.org/a/b?q#r")
      (cstr "c?x=/../y#f/./g") (by decide) rfl (by decide)).1,
   (resolved_url_ends_with_reference_query_and_fragment plainEnv (cstr "gemini://h.org/a/b?q#r")
      [] (by decide) rfl (by decide)).2 (cstr "gemini://h.org/a/b")
      (by decide) (by decide) (by decide) (by decide) (by decide) (by decide)⟩

/-- C9, counterexample.  With the base `gemini://host:8080/a` and the reference
`file:/../x` the authority source is the base, its port is `8080` and the
result scheme is `file`, so the port is appended; but the cleaner takes all of
`host:8080/../x` for the path of a `file://` text, and the resolved URL is
`file://x`, without host and port.  With the base `gemini::x`, which has no
host and no port, and the reference `y`, the resolved URL is `gemini://:x/y`:
a colon follows the empty host although the port is empty. -/
theorem port_elision_fails_for_file_scheme_and_empty_host :
    authoritySource (cstr "gemini://host:8080/a") (cstr "file:/../x") =
      cstr "gemini://host:8080/a" ∧
    (init_Url (cstr "gemini://host:8080/a")).port.of (cstr "gemini://host:8080/a") =
      cstr "8080" ∧
    punyDecodeHost_ plainEnv ((init_Url (cstr "gemini://host:8080/a")).host.of
      (cstr "gemini://host:8080/a")) = cstr "host" ∧
    resultScheme (cstr "gemini://host:8080/a") (cstr "file:/../x") = cstr "file" ∧
    absoluteUrl_String plainEnv (cstr "gemini://host:8080/a") (cstr "file:/../x") =
      cstr "file://x" ∧
    startsWith (absoluteUrl_String plainEnv (cstr "gemini://host:8080/a") (cstr "file:/../x"))
      (cstr "file://host:8080") = false ∧
    isEmpty_Range (init_Url (authoritySource (cstr "gemini::x") (cstr "y"))).port = true ∧
    punyDecodeHost_ plainEnv ((init_Url (cstr "gemini::x")).host.of (cstr "gemini::x")) = [] ∧
    absoluteUrl_String plainEnv (cstr "gemini::x") (cstr "y") = cstr "gemini://:x/y" := by
  decide

/-- C9, amended.  Let the reference have a scheme other than data, about and
mailto, let Unicode normalisation leave the assembled text as it is, let the
result scheme be other than `file`, and let the decoded host of the authority
source be not empty and free of `/`, `?` and `#`.  Then the resolved URL begins
with the result scheme, `://` and that host; when the port of the authority
source is not empty and not the port `1965` under the scheme `gemini` (letter
case ignored), a colon and the port follow the host; otherwise what follows
the host does not begin with a colon. -/
theorem resolved_url_port_after_host (E : Env) (d urlMaybeRelative : List Char)
    (hop : isOpaqueScheme ((init_Url urlMaybeRelative).scheme.of urlMaybeRelative) = false)
    (hnorm : E.normalize_String (assembleUrl E d urlMaybeRelative) =
      assembleUrl E d urlMaybeRelative)
    (hfile : equalCase_Rangecc (resultScheme d urlMaybeRelative) (cstr "file") = false)
    (hH1 : punyDecodeHost_ E ((init_Url (authoritySource d urlMaybeRelative)).host.of
      (authoritySource d urlMaybeRelative)) ≠ [])
    (hH2 : ∀ c ∈ punyDecodeHost_ E ((init_Url (authoritySource d urlMaybeRelative)).host.of
      (authoritySource d urlMaybeRelative)), isAuthCh c = true) :
    ((!isEmpty_Range (init_Url (authoritySource d urlMaybeRelative)).port &&
        !(equalCase_Rangecc (resultScheme d urlMaybeRelative) (cstr "gemini") &&
          equal_Rangecc ((init_Url (authoritySource d urlMaybeRelative)).port.of
            (authoritySource d urlMaybeRelative)) (cstr "1965"))) = true →
      resultScheme d urlMaybeRelative ++ cstr "://" ++
          punyDecodeHost_ E ((init_Url (authoritySource d urlMaybeRelative)).host.of
            (authoritySource d urlMaybeRelative)) ++ cstr ":" ++
          (init_Url (authoritySource d urlMaybeRelative)).port.of
            (authoritySource d urlMaybeRelative) <+:
        absoluteUrl_String E d urlMaybeRelative) ∧
    ((!isEmpty_Range (init_Url (authoritySource d urlMaybeRelative)).port &&
        !(equalCase_Rangecc (resultScheme d urlMaybeRelative) (cstr "gemini") &&
          equal_Rangecc ((init_Url (authoritySource d urlMaybeRelative)).port.of
            (authoritySource d urlMaybeRelative)) (cstr "1965"))) = false →
      ∃ rest, absoluteUrl_String E d urlMaybeRelative =
          resultScheme d urlMaybeRelative ++ cstr "://" ++
            punyDecodeHost_ E ((init_Url (authoritySource d urlMaybeRelative)).host.of
              (authoritySource d urlMaybeRelative)) ++ rest ∧
        rest.head? ≠ some ':') := by
  obtain ⟨hne, hS⟩ := resultScheme_good d urlMaybeRelative
  rw [absoluteUrl_unfold_resolved E d urlMaybeRelative hop, hnorm]
  generalize hHdef : punyDecodeHost_ E ((init_Url (authoritySource d urlMaybeRelative)).host.of
    (authoritySource d urlMaybeRelative)) = H at hH1 hH2 ⊢
  have hauthdef : resultAuthority E d urlMaybeRelative =
      if (!isEmpty_Range (init_Url (authoritySource d urlMaybeRelative)).port &&
        !(equalCase_Rangecc (resultScheme d urlMaybeRelative) (cstr "gemini") &&
          equal_Rangecc ((init_Url (authoritySource d urlMaybeRelative)).port.of
            (authoritySource d urlMaybeRelative)) (cstr "1965"))) = true
      then H ++ cstr ":" ++ (init_Url (authoritySource d urlMaybeRelative)).port.of
            (authoritySource d urlMaybeRelative)
      else H := by
    unfold resultAuthority
    simp only [hHdef, Bool.not_and]
  have hnf : ∀ X, startsWithCase (resultScheme d urlMaybeRelative ++ cstr "://" ++ X)
      (cstr "file://") = false := by
    intro X
    rw [startsWithCase_file_iff _ _ hS]; exact hfile
  constructor
  · intro hc
    rw [if_pos hc] at hauthdef
    obtain ⟨Z, hZ⟩ := assembleUrl_eq_authority E d urlMaybeRelative
    rw [hZ, cleanUrlPath_scheme_auth E _ _ hne hS (hnf _), hauthdef]
    have hall : ∀ c ∈ H ++ cstr ":" ++ (init_Url (authoritySource d urlMaybeRelative)).port.of
        (authoritySource d urlMaybeRelative), isAuthCh c = true := by
      intro c hm
      rcases List.mem_append.1 hm with hm | hm
      · rcases List.mem_append.1 hm with hm | hm
        · exact hH2 c hm
        · rw [cstr_colon] at hm
          simp only [List.mem_singleton] at hm
          subst hm; rfl
      · exact (isPortCh_spec c (port_of_init_Url_digits _ c hm)).1
    rw [takeWhile_append_all isAuthCh _ Z hall]
    simp only [List.append_assoc, List.prefix_append_right_inj]
    exact List.prefix_append _ _
  · intro hc
    rw [if_neg (by rw [hc]; exact Bool.false_ne_true)] at hauthdef
    have hson : isDef_ (init_Url urlMaybeRelative).host = false →
        isDef_ (init_Url d).host = true := by
      intro hr
      apply def_of_ne_nil _ d
      intro h0
      apply hH1
      rw [← hHdef]
      unfold authoritySource
      simp only [hr, Bool.false_eq_true, if_false, h0]
      rfl
    have hlast : H.getLast? ≠ some '/' := by
      intro hl
      exact absurd (hH2 '/' (List.mem_of_getLast?_eq_some hl)) (by decide)
    by_cases hr : isDef_ (init_Url urlMaybeRelative).host = true
    · obtain ⟨rest, hasm, hrest⟩ := assembleUrl_reference_path E d urlMaybeRelative (Or.inr hr)
      rw [hasm, hauthdef, cleanUrlPath_scheme_auth E _ _ hne hS (hnf _),
        takeWhile_append_all isAuthCh H rest hH2, dropWhile_append_all isAuthCh H rest hH2]
      refine ⟨rest.takeWhile isAuthCh ++
        (cleanPath E ((rest.dropWhile isAuthCh).takeWhile isPathCh) ++
          (rest.dropWhile isAuthCh).dropWhile isPathCh), by simp only [List.append_assoc], ?_⟩
      have ht : rest.takeWhile isAuthCh = [] := by
        apply takeWhile_stop_eq
        intro c hcc
        rw [hrest] at hcc
        simp only [Option.some.injEq] at hcc
        subst hcc; rfl
      rw [ht, List.nil_append]
      intro hcol
      exact absurd (cleaned_rest_head E rest ':' hcol) (by decide)
    · have hr2 : isDef_ (init_Url urlMaybeRelative).host = false := by simpa using hr
      obtain ⟨Z, hasm, hZ⟩ := assembleUrl_tail_head E d urlMaybeRelative
        (by rw [hauthdef]; exact hH1) (by rw [hauthdef]; exact hlast)
        (path_head_of_host d (hson hr2))
      rw [hasm, hauthdef, cleanUrlPath_scheme_auth E _ _ hne hS (hnf _),
        takeWhile_append_all isAuthCh H Z hH2, dropWhile_append_all isAuthCh H Z hH2]
      refine ⟨Z.takeWhile isAuthCh ++
        (cleanPath E ((Z.dropWhile isAuthCh).takeWhile isPathCh) ++
          (Z.dropWhile isAuthCh).dropWhile isPathCh), by simp only [List.append_assoc], ?_⟩
      cases hZc : Z with
      | nil =>
        simp only [List.takeWhile_nil, List.dropWhile_nil, List.nil_append]
        rw [cleanPath_nil]
        simp
      | cons z Z2 =>
        rw [hZc] at hZ
        have hz : z ≠ ':' := by
          intro h0
          apply hZ
          rw [h0]; rfl
        by_cases hza : isAuthCh z = true
        · simp only [List.takeWhile_cons, hza, if_true, List.cons_append, List.head?_cons]
          intro h0
          exact hz (by simpa using h0)
        · have ht : (z :: Z2).takeWhile isAuthCh = [] := by
            simp only [List.takeWhile_cons, hza]
            rfl
          rw [ht, List.nil_append]
          intro hcol
          exact absurd (cleaned_rest_head E (z :: Z2) ':' hcol) (by decide)

theorem resolved_url_port_after_host_witness :
    (cstr "https" ++ cstr "://" ++ cstr "h.org" ++ cstr ":" ++ cstr "1965" <+:
      absoluteUrl_String plainEnv (cstr "https://h.org:1965/a/b") (cstr "x")) ∧
    (∃ rest, absoluteUrl_String plainEnv (cstr "GEMINI://h.org:1965/a/b") (cstr "x") =
        cstr "GEMINI" ++ cstr "://" ++ cstr "h.org" ++ rest ∧ rest.head? ≠ some ':') :=
  ⟨(resolved_url_port_after_host plainEnv (cstr "https://h.org:1965/a/b") (cstr "x")
      (by decide) rfl (by decide) (by decide) (by decide)).1 (by decide),
   (resolved_url_port_after_host plainEnv (cstr "GEMINI://h.org:1965/a/b") (cstr "x")
      (by decide) rfl (by decide) (by decide) (by decide)).2 (by decide)⟩

/-- C10.  When the scheme of the reference is `data`, `about` or `mailto`,
letter case ignored, `absoluteUrl_String` returns the reference text itself,
whatever the base. -/
theorem opaque_reference_returned_unchanged (E : Env) (d urlMaybeRelative : List Char)
    (h : equalCase_Rangecc ((init_Url urlMaybeRelative).scheme.of urlMaybeRelative) (cstr "data") = true ∨
         equalCase_Rangecc ((init_Url urlMaybeRelative).scheme.of urlMaybeRelative) (cstr "about") = true ∨
         equalCase_Rangecc ((init_Url urlMaybeRelative).scheme.of urlMaybeRelative) (cstr "mailto") = true) :
    absoluteUrl_String E d urlMaybeRelative = urlMaybeRelative := by
  have h2 : isOpaqueScheme ((init_Url urlMaybeRelative).scheme.of urlMaybeRelative) = true := by
    unfold isOpaqueScheme
    rcases h with h | h | h <;> simp only [h, Bool.or_true, Bool.true_or]
  simp only [absoluteUrl_String, h2, if_true]

theorem opaque_reference_returned_unchanged_witness :
    absoluteUrl_String plainEnv (cstr "gemini://example.org/a/b?q")
        (cstr "MailTo:someone@example.org?subject=../x")
      = cstr "MailTo:someone@example.org?subject=../x" :=
  opaque_reference_returned_unchanged plainEnv _ _ (Or.inr (Or.inr (by decide)))

/-- C11, counterexample.  The base `gemini://h/a` has scheme and host; resolving
`file:/tmp/x` against it gives `file://h/tmp/x`, which is decomposed into a
scheme and a path, without host.  The base `gemini://./a` has the host `.`,
which is decoded to nothing; resolving `/b` against it gives `gemini:///b`,
whose host is empty. -/
theorem resolved_url_without_host :
    isDef_ (init_Url (cstr "gemini://h/a")).scheme = true ∧
    isDef_ (init_Url (cstr "gemini://h/a")).host = true ∧
    absoluteUrl_String plainEnv (cstr "gemini://h/a") (cstr "file:/tmp/x") =
      cstr "file://h/tmp/x" ∧
    isDef_ (init_Url (cstr "file://h/tmp/x")).host = false ∧
    (init_Url (cstr "file://h/tmp/x")).host.of (cstr "file://h/tmp/x") = [] ∧
    isDef_ (init_Url (cstr "gemini://./a")).scheme = true ∧
    (init_Url (cstr "gemini://./a")).host.of (cstr "gemini://./a") = cstr "." ∧
    absoluteUrl_String plainEnv (cstr "gemini://./a") (cstr "/b") = cstr "gemini:///b" ∧
    isDef_ (init_Url (cstr "gemini:///b")).host = false ∧
    (init_Url (cstr "gemini:///b")).host.of (cstr "gemini:///b") = [] := by
  decide

/-- C11, amended.  Let the reference not have one of the schemes `data`, `about`
and `mailto`, let Unicode normalisation leave the assembled text as it is, let
the scheme of the result not be `file`, and let the decoded host of the
authority source (the reference when it defines a host, the base otherwise) be
not empty and begin with a character other than `/`, `?` and `#`.  Then the
resolved URL is decomposed into a scheme that is not empty, the scheme of the
result, and a host that is not empty. -/
theorem resolved_url_has_scheme_and_host (E : Env) (d urlMaybeRelative : List Char) (c : Char)
    (hop : isOpaqueScheme ((init_Url urlMaybeRelative).scheme.of urlMaybeRelative) = false)
    (hnorm : E.normalize_String (assembleUrl E d urlMaybeRelative) =
      assembleUrl E d urlMaybeRelative)
    (hfile : equalCase_Rangecc (resultScheme d urlMaybeRelative) (cstr "file") = false)
    (hD : (punyDecodeHost_ E ((init_Url (authoritySource d urlMaybeRelative)).host.of
      (authoritySource d urlMaybeRelative))).head? = some c)
    (hc : isAuthCh c = true) :
    (init_Url (absoluteUrl_String E d urlMaybeRelative)).scheme.of
        (absoluteUrl_String E d urlMaybeRelative) = resultScheme d urlMaybeRelative ∧
    (init_Url (absoluteUrl_String E d urlMaybeRelative)).scheme.of
        (absoluteUrl_String E d urlMaybeRelative) ≠ [] ∧
    (init_Url (absoluteUrl_String E d urlMaybeRelative)).host.of
        (absoluteUrl_String E d urlMaybeRelative) ≠ [] ∧
    isDef_ (init_Url (absoluteUrl_String E d urlMaybeRelative)).scheme = true ∧
    isDef_ (init_Url (absoluteUrl_String E d urlMaybeRelative)).host = true := by
  obtain ⟨hne, hS⟩ := resultScheme_good d urlMaybeRelative
  obtain ⟨Z, hZ⟩ := assembleUrl_eq_authority E d urlMaybeRelative
  obtain ⟨portPart, hA, _⟩ := resultAuthority_shape E d urlMaybeRelative
  have hX : (resultAuthority E d urlMaybeRelative ++ Z).head? = some c := by
    rw [hA, List.append_assoc]
    cases hd : punyDecodeHost_ E ((init_Url (authoritySource d urlMaybeRelative)).host.of
      (authoritySource d urlMaybeRelative)) with
    | nil => rw [hd] at hD; simp at hD
    | cons x r => rw [hd] at hD; simpa using hD
  rw [absoluteUrl_unfold_resolved E d urlMaybeRelative hop, hnorm, hZ]
  obtain ⟨h1, h2⟩ := scheme_host_of_cleaned_authority E _ _ c hne hS hfile hX hc
  refine ⟨h1, by rw [h1]; exact hne, h2, ?_, def_of_ne_nil _ _ h2⟩
  apply def_of_ne_nil
  rw [h1]; exact hne

theorem resolved_url_has_scheme_and_host_witness :
    (init_Url (absoluteUrl_String plainEnv (cstr "gemini://example.org/a/b") (cstr "../c?q"))).host.of
        (absoluteUrl_String plainEnv (cstr "gemini://example.org/a/b") (cstr "../c?q")) ≠ [] ∧
    (init_Url (absoluteUrl_String plainEnv (cstr "gemini://example.org/a/b") (cstr "../c?q"))).scheme.of
        (absoluteUrl_String plainEnv (cstr "gemini://example.org/a/b") (cstr "../c?q")) =
      cstr "gemini" ∧
    absoluteUrl_String plainEnv (cstr "gemini://example.org/a/b") (cstr "../c?q") =
      cstr "gemini://example.org/c?q" := by
  have a := resolved_url_has_scheme_and_host plainEnv (cstr "gemini://example.org/a/b")
    (cstr "../c?q") 'e' (by decide) (by decide) (by decide) (by decide) (by decide)
  exact ⟨a.2.2.1, a.1.trans (by decide), by decide⟩

/-- C12.  The special case of a local file.  For every text that begins with
`file://`, letter case ignored, the scheme is the range of the first four
characters (which read `file`, letter case ignored), the path is all that
follows the first seven characters, up to the end of the text, and host, port,
query and fragment are not defined. -/
theorem file_url_is_scheme_and_path (text : List Char)
    (h : startsWithCase text (cstr "file://") = true) :
    (init_Url text).scheme = ⟨0, 4⟩ ∧
    (init_Url text).scheme.of text = text.take 4 ∧
    equalCase_Rangecc ((init_Url text).scheme.of text) (cstr "file") = true ∧
    (init_Url text).path = ⟨7, text.length⟩ ∧
    (init_Url text).path.of text = text.drop 7 ∧
    isDef_ (init_Url text).host = false ∧ isDef_ (init_Url text).port = false ∧
    isDef_ (init_Url text).query = false ∧ isDef_ (init_Url text).fragment = false := by
  obtain ⟨e1, e2, e3, e4, e5, e6⟩ := init_Url_file text h
  have hs : (init_Url text).scheme.of text = text.take 4 := by
    rw [e1]; simp [Range.of]
  refine ⟨e1, hs, ?_, e4, (path_of_file text h).1, ?_, ?_, ?_, ?_⟩
  · rw [hs]
    exact startsWithCase_take_le text (cstr "file://") 4 (by decide) h
  · rw [e2]; rfl
  · rw [e3]; rfl
  · rw [e5]; rfl
  · rw [e6]; rfl

theorem file_url_is_scheme_and_path_witness :
    (init_Url (cstr "file:///tmp/a.txt")).scheme.of (cstr "file:///tmp/a.txt") = cstr "file" ∧
    (init_Url (cstr "file:///tmp/a.txt")).path.of (cstr "file:///tmp/a.txt") = cstr "/tmp/a.txt" ∧
    (init_Url (cstr "FILE://h/p?q#f")).path.of (cstr "FILE://h/p?q#f") = cstr "h/p?q#f" ∧
    isDef_ (init_Url (cstr "FILE://h/p?q#f")).host = false ∧
    isDef_ (init_Url (cstr "FILE://h/p?q#f")).query = false ∧
    isDef_ (init_Url (cstr "FILE://h/p?q#f")).fragment = false := by
  have a := file_url_is_scheme_and_path (cstr "file:///tmp/a.txt") (by decide)
  have b := file_url_is_scheme_and_path (cstr "FILE://h/p?q#f") (by decide)
  exact ⟨a.2.1.trans (by decide), a.2.2.2.2.1.trans (by decide), b.2.2.2.2.1.trans (by decide),
    b.2.2.2.2.2.1, b.2.2.2.2.2.2.2.1, b.2.2.2.2.2.2.2.2⟩

/-- C13, counterexample.  For the text `a?b#c` the query range covers `?b` and
the fragment range covers `#c`: the question mark and the hash are part of the
ranges. -/
theorem query_span_holds_question_mark :
    (init_Url (cstr "a?b#c")).query.of (cstr "a?b#c") = cstr "?b" ∧
    (init_Url (cstr "a?b#c")).fragment.of (cstr "a?b#c") = cstr "#c" ∧
    (init_Url (cstr "a?b#c")).query.of (cstr "a?b#c") ≠ cstr "b" ∧
    (init_Url (cstr "a?b#c")).fragment.of (cstr "a?b#c") ≠ cstr "c" := by
  decide

/-- C13, amended.  For every text, a defined query range begins at a `?` of the
text and covers that `?` and the characters behind it up to the next `#`, or
to the end of the text when no `#` follows; a defined fragment range begins at
a `#` of the text and covers that `#` and the characters behind it up to the next
line feed, or to the end of the text when no line feed follows.  So the query
holds no `#` and the fragment holds no line feed. -/
theorem query_and_fragment_spans_begin_with_their_mark (text : List Char) :
    (isDef_ (init_Url text).query = true →
      (text.drop (init_Url text).query.start).head? = some '?' ∧
      (init_Url text).query.of text =
        '?' :: (text.drop ((init_Url text).query.start + 1)).takeWhile isQueryCh ∧
      '#' ∉ (init_Url text).query.of text) ∧
    (isDef_ (init_Url text).fragment = true →
      (text.drop (init_Url text).fragment.start).head? = some '#' ∧
      (init_Url text).fragment.of text =
        '#' :: (text.drop ((init_Url text).fragment.start + 1)).takeWhile isDotCh ∧
      '\n' ∉ (init_Url text).fragment.of text) := by
  obtain ⟨hq, hfr⟩ := query_fragment_of_def text
  constructor
  · intro hd
    obtain ⟨r, hr, ho⟩ := hq hd
    have hr1 : text.drop ((init_Url text).query.start + 1) = r := by
      rw [← List.drop_drop, hr]
      rfl
    refine ⟨by rw [hr]; rfl, by rw [hr1]; exact ho, ?_⟩
    rw [ho]
    intro hm
    rcases List.mem_cons.1 hm with h | h
    · exact absurd h (by decide)
    · have := List.mem_takeWhile_imp h
      simp [isQueryCh] at this
  · intro hd
    obtain ⟨r, hr, ho⟩ := hfr hd
    have hr1 : text.drop ((init_Url text).fragment.start + 1) = r := by
      rw [← List.drop_drop, hr]
      rfl
    refine ⟨by rw [hr]; rfl, by rw [hr1]; exact ho, ?_⟩
    rw [ho]
    intro hm
    rcases List.mem_cons.1 hm with h | h
    · exact absurd h (by decide)
    · have := List.mem_takeWhile_imp h
      simp [isDotCh] at this

theorem query_and_fragment_spans_begin_with_their_mark_witness :
    (init_Url (cstr "gemini://h/p?x=1&y=2#top")).query.of (cstr "gemini://h/p?x=1&y=2#top") =
      cstr "?x=1&y=2" ∧
    (init_Url (cstr "gemini://h/p?x=1&y=2#top")).fragment.of (cstr "gemini://h/p?x=1&y=2#top") =
      cstr "#top" ∧
    (init_Url (cstr "a?b")).query.of (cstr "a?b") = cstr "?b" ∧
    (init_Url (cstr "a#b\nc")).fragment.of (cstr "a#b\nc") = cstr "#b" := by
  have a := query_and_fragment_spans_begin_with_their_mark (cstr "gemini://h/p?x=1&y=2#top")
  have b := query_and_fragment_spans_begin_with_their_mark (cstr "a?b")
  have c := query_and_fragment_spans_begin_with_their_mark (cstr "a#b\nc")
  exact ⟨(a.1 (by decide)).2.1.trans (by decide), (a.2 (by decide)).2.1.trans (by decide),
    (b.1 (by decide)).2.1.trans (by decide), (c.2 (by decide)).2.1.trans (by decide)⟩

/-- C14, counterexample.  In `gemini://a@b@c/x` the host range covers `b@c`,
and in `gemini://user@/x` it covers `user@`: the host holds an `@`, and in the
second text it holds the characters before the `@` as well. -/
theorem host_span_holds_at_sign :
    (urlPattern_ (cstr "gemini://a@b@c/x")).g4.of (cstr "gemini://a@b@c/x") = cstr "a@b@c" ∧
    (init_Url (cstr "gemini://a@b@c/x")).host.of (cstr "gemini://a@b@c/x") = cstr "b@c" ∧
    '@' ∈ (init_Url (cstr "gemini://a@b@c/x")).host.of (cstr "gemini://a@b@c/x") ∧
    (urlPattern_ (cstr "gemini://user@/x")).g4.of (cstr "gemini://user@/x") = cstr "user@" ∧
    (init_Url (cstr "gemini://user@/x")).host.of (cstr "gemini://user@/x") = cstr "user@" ∧
    '@' ∈ (init_Url (cstr "gemini://user@/x")).host.of (cstr "gemini://user@/x") := by
  decide

/-- C14, amended.  Let a text not begin with `file://`, and let its authority
(group 4 of `urlPattern_`) read `u@h` or `u@h:digits`, where `u` is not empty and
has no `@`, `h` is not empty and has none of `:`, `[`, `]` and `@`, and the
digits are decimal.  Then the host range covers exactly `h`, it begins right
behind the `@`, and the port range covers exactly the digits. -/
theorem user_part_is_left_out (text u h digits : List Char)
    (hnf : startsWithCase text (cstr "file://") = false)
    (hu : u ≠ [] ∧ '@' ∉ u)
    (hh : h ≠ [] ∧ ∀ c ∈ h, c ≠ ':' ∧ c ≠ '[' ∧ c ≠ ']' ∧ c ≠ '@')
    (hd : ∀ c ∈ digits, isPortCh c = true)
    (hA : (urlPattern_ text).g4.of text =
      u ++ cstr "@" ++ h ++ (if digits.isEmpty then [] else cstr ":" ++ digits)) :
    (init_Url text).host.of text = h ∧
    (init_Url text).host.start = (urlPattern_ text).g4.start + u.length + 1 ∧
    (init_Url text).port.of text = digits ∧
    '@' ∉ (init_Url text).host.of text ∧ '@' ∉ (init_Url text).port.of text := by
  obtain ⟨portPart, hpp⟩ : ∃ portPart,
      portPart = (if digits.isEmpty then [] else cstr ":" ++ digits) := ⟨_, rfl⟩
  rw [← hpp] at hA
  have hA2 : (urlPattern_ text).g4.of text = u ++ '@' :: (h ++ portPart) := by
    rw [hA]; simp [cstr]
  have hhc : ∀ c ∈ h, isHostCh c = true := by
    intro c hc
    obtain ⟨a, b, c', _⟩ := hh.2 c hc
    simp [isHostCh, a, b, c']
  have hP : ∀ c, portPart.head? = some c → c = ':' := by
    intro c hc
    rw [hpp] at hc
    split at hc
    · simp at hc
    · simpa [cstr] using hc.symm
  have hk : authPortAt portPart = digits.length ∧
      (digits ≠ [] → portPart = ':' :: digits) := by
    rw [hpp]
    split
    · rename_i he
      have : digits = [] := by simpa using he
      rw [this]; exact ⟨rfl, fun h => absurd rfl h⟩
    · refine ⟨?_, fun _ => rfl⟩
      show authPortAt (':' :: digits) = digits.length
      unfold authPortAt
      simp only []
      rw [takeWhile_all isPortCh digits hd]
  have hm := authMatchAt_userinfo u h portPart (urlPattern_ text).g4.start hu.1 hu.2 hh.1 hhc hP
  have hs : authPattern_ text (urlPattern_ text).g4 = some
      (⟨(urlPattern_ text).g4.start + (u.length + 1),
        (urlPattern_ text).g4.start + (u.length + 1) + h.length⟩,
        if authPortAt portPart != 0
        then ⟨(urlPattern_ text).g4.start + (u.length + 1) + h.length + 1,
          (urlPattern_ text).g4.start + (u.length + 1) + h.length + 1 + authPortAt portPart⟩
        else iNullRange) := by
    unfold authPattern_
    rw [hA2]
    cases hu' : u with
    | nil => exact absurd hu' hu.1
    | cons x r =>
      rw [hu'] at hm
      simp only [List.cons_append] at hm ⊢
      unfold authSearch
      rw [hm]
  obtain ⟨_, ehost, eport, _⟩ := init_Url_nonfile text hnf
  rw [hs] at ehost eport
  simp only [] at ehost eport
  have hdrop := drop_of_range _ _ _ hA2
  have hhost : (init_Url text).host.of text = h := by
    rw [ehost]
    simp only [Range.of, Nat.add_sub_cancel_left]
    rw [← List.drop_drop, hdrop]
    have e : (u ++ '@' :: (h ++ portPart) ++
        (text.drop (urlPattern_ text).g4.start).drop
          ((urlPattern_ text).g4.stop - (urlPattern_ text).g4.start)) =
        (u ++ ['@']) ++ (h ++ (portPart ++
        (text.drop (urlPattern_ text).g4.start).drop
          ((urlPattern_ text).g4.stop - (urlPattern_ text).g4.start))) := by
      simp only [List.append_assoc, List.singleton_append, List.cons_append, List.nil_append]
    rw [e, drop_append_len (u ++ ['@']) _ (u.length + 1) (by simp), List.take_left]
  have hport : (init_Url text).port.of text = digits := by
    rw [eport]
    by_cases hdg : digits = []
    · have : authPortAt portPart = 0 := by rw [hk.1, hdg]; rfl
      rw [this, hdg]
      simp [Range.of, iNullRange]
    · have hk0 : (authPortAt portPart != 0) = true := by
        rw [hk.1]
        have : digits.length ≠ 0 := fun e => hdg (List.length_eq_zero.1 e)
        simpa using this
      rw [if_pos hk0, hk.1]
      simp only [Range.of, Nat.add_sub_cancel_left]
      have eo : (urlPattern_ text).g4.start + (u.length + 1) + h.length + 1 =
          (urlPattern_ text).g4.start + (u.length + 1 + h.length + 1) := by omega
      rw [eo, ← List.drop_drop, hdrop, hk.2 hdg]
      have e : (u ++ '@' :: (h ++ ':' :: digits) ++
          (text.drop (urlPattern_ text).g4.start).drop
            ((urlPattern_ text).g4.stop - (urlPattern_ text).g4.start)) =
          (u ++ ['@'] ++ h ++ [':']) ++ (digits ++
          (text.drop (urlPattern_ text).g4.start).drop
            ((urlPattern_ text).g4.stop - (urlPattern_ text).g4.start)) := by
        simp only [List.append_assoc, List.singleton_append, List.cons_append, List.nil_append]
      rw [e, drop_append_len (u ++ ['@'] ++ h ++ [':']) _ _ (by simp; omega), List.take_left]
  refine ⟨hhost, ?_, hport, ?_, ?_⟩
  · rw [ehost]; simp only []; omega
  · rw [hhost]
    intro hm
    exact (hh.2 _ hm).2.2.2 rfl
  · rw [hport]
    intro hm
    have := hd _ hm
    simp [isPortCh] at this

theorem user_part_is_left_out_witness :
    (init_Url (cstr "gemini://user:pw@example.org:1965/x")).host.of
        (cstr "gemini://user:pw@example.org:1965/x") = cstr "example.org" ∧
    (init_Url (cstr "gemini://user:pw@example.org:1965/x")).port.of
        (cstr "gemini://user:pw@example.org:1965/x") = cstr "1965" ∧
    (init_Url (cstr "//u@h?q")).host.of (cstr "//u@h?q") = cstr "h" ∧
    (init_Url (cstr "//u@h?q")).port.of (cstr "//u@h?q") = [] := by
  have a := user_part_is_left_out (cstr "gemini://user:pw@example.org:1965/x") (cstr "user:pw")
    (cstr "example.org") (cstr "1965") (by decide) (by decide) (by decide) (by decide) (by decide)
  have b := user_part_is_left_out (cstr "//u@h?q") (cstr "u") (cstr "h") [] (by decide)
    (by decide) (by decide) (by decide) (by decide)
  exact ⟨a.1, a.2.2.1, b.1, b.2.2.1⟩

/-- C15.  Invariant of the URL view.  For every text, every defined (not empty)
range of the decomposition is a range of the text, with its start before its
stop and its stop within the text, and of two defined ranges the one that comes
first in the order scheme, host, port, path, query, fragment stops before the
other starts. -/
theorem decomposition_spans_ordered (text : List Char) :
    (∀ r ∈ spans (init_Url text),
      isDef_ r = true → r.start < r.stop ∧ r.stop ≤ text.length) ∧
    (spans (init_Url text)).Pairwise
      (fun a b => isDef_ a = true → isDef_ b = true → a.stop ≤ b.start) := by
  simp only [spans, List.mem_cons, List.mem_singleton, forall_eq_or_imp, forall_eq,
    List.pairwise_cons, List.not_mem_nil, false_implies, implies_true, and_true,
    List.Pairwise.nil, isDef_iff]
  by_cases hf : startsWithCase text (cstr "file://") = true
  · have hl := startsWithCase_length text _ hf
    have e7 : (cstr "file://").length = 7 := rfl
    rw [e7] at hl
    obtain ⟨e1, e2, e3, e4, e5, e6⟩ := init_Url_file text hf
    rw [e1, e2, e3, e4, e5, e6]
    simp only [iNullRange]
    omega
  · have hf2 : startsWithCase text (cstr "file://") = false := by simpa using hf
    obtain ⟨p1, p3, p5, p6, p8, b1, b3, b5, b6, b8, b2s, b2a, es, ep, eq, ef, hh, hp⟩ :=
      init_Url_layout text hf2
    simp only [isDef_iff] at hh hp
    have hs : (init_Url text).scheme.start ≠ (init_Url text).scheme.stop →
        (init_Url text).scheme.start = 0 ∧ (init_Url text).scheme.stop + 1 = p1 := by
      intro hd
      have := isDef_of_ite _ _ _ es ((isDef_iff _).mpr hd)
      rw [this] at hd ⊢
      simp only [] at hd ⊢
      exact ⟨trivial, by omega⟩
    have hq : (init_Url text).query.start ≠ (init_Url text).query.stop →
        (init_Url text).query.start = p5 ∧ (init_Url text).query.stop = p6 := by
      intro hd
      have := isDef_of_ite _ _ _ eq ((isDef_iff _).mpr hd)
      rw [this]
      exact ⟨rfl, rfl⟩
    have hfr : (init_Url text).fragment.start ≠ (init_Url text).fragment.stop →
        (init_Url text).fragment.start = p6 ∧ (init_Url text).fragment.stop = p8 := by
      intro hd
      have := isDef_of_ite _ _ _ ef ((isDef_iff _).mpr hd)
      rw [this]
      exact ⟨rfl, rfl⟩
    have hpa : (init_Url text).path.start = p3 ∧ (init_Url text).path.stop = p5 := by
      rw [ep]; exact ⟨rfl, rfl⟩
    generalize (init_Url text).scheme = S at hs ⊢
    generalize (init_Url text).host = H at hh hp ⊢
    generalize (init_Url text).port = P at hp ⊢
    generalize (init_Url text).path = A at hpa ⊢
    generalize (init_Url text).query = Q at hq ⊢
    generalize (init_Url text).fragment = F at hfr ⊢
    refine ⟨⟨?_, ?_, ?_, ?_, ?_, ?_⟩, ⟨?_, ?_, ?_, ?_, ?_⟩, ⟨?_, ?_, ?_, ?_⟩, ⟨?_, ?_, ?_⟩,
      ⟨?_, ?_⟩, ?_⟩ <;> intros <;> omega

/-- C16.  Removal of the default port.  For every URL text: when its scheme
is `gemini`, letter case ignored, and its port is `1965`, the text reads
`pre ++ ":1965" ++ post`, where the port range begins one character behind
`pre`, and `stripDefaultUrlPort_String` gives `pre ++ post`; otherwise the text
is returned as it is.  The example of the specification is the last part. -/
theorem default_port_is_cut_out :
    (∀ u : List Char,
      (equalCase_Rangecc ((init_Url u).scheme.of u) (cstr "gemini") = true ∧
          equal_Rangecc ((init_Url u).port.of u) (cstr "1965") = true →
        ∃ pre post, u = pre ++ cstr ":1965" ++ post ∧
          pre.length + 1 = (init_Url u).port.start ∧
          stripDefaultUrlPort_String u = pre ++ post) ∧
      (¬ (equalCase_Rangecc ((init_Url u).scheme.of u) (cstr "gemini") = true ∧
          equal_Rangecc ((init_Url u).port.of u) (cstr "1965") = true) →
        stripDefaultUrlPort_String u = u)) ∧
    stripDefaultUrlPort_String (cstr "gemini://example.org:1965/x") =
      cstr "gemini://example.org/x" ∧
    stripDefaultUrlPort_String (cstr "gemini://example.org:1966/x") =
      cstr "gemini://example.org:1966/x" ∧
    stripDefaultUrlPort_String (cstr "https://example.org:1965/x") =
      cstr "https://example.org:1965/x" := by
  refine ⟨fun u => ⟨?_, ?_⟩, by decide, by decide, by decide⟩
  · rintro ⟨hs, hp⟩
    have hpe : (init_Url u).port.of u = cstr "1965" := by
      simpa [equal_Rangecc] using hp
    have hne : (init_Url u).port.of u ≠ [] := by rw [hpe]; decide
    obtain ⟨a1, a2, a3, a4⟩ := port_follows_colon u hne
    have hsz : (init_Url u).port.stop - (init_Url u).port.start = 4 := by
      have hl : ((init_Url u).port.of u).length = 4 := by rw [hpe]; rfl
      simp only [Range.of, List.length_take, List.length_drop] at hl
      omega
    refine ⟨u.take ((init_Url u).port.start - 1), u.drop (init_Url u).port.stop, ?_, ?_, ?_⟩
    · conv => lhs; rw [a4, hpe]
      simp only [List.append_assoc]
      rfl
    · rw [List.length_take]; omega
    · unfold stripDefaultUrlPort_String
      simp only [hs, hp, Bool.and_self, if_true, remove_Block, size_Range]
      congr 2
      omega
  · intro hn
    unfold stripDefaultUrlPort_String
    simp only []
    rw [if_neg]
    simpa [Bool.and_eq_true] using hn

/-- C17, counterexample.  The host `münchen.de.` of `gemini://münchen.de./x` ends
with a dot; each of its labels comes back from the codec.  The encoder writes
`gemini://xn--mnchen-3ya.de/x`, whose host is decoded to `münchen.de`: the dot at
the end is lost.  So is the dot that begins the host of
`gemini://.münchen.de/x`. -/
theorem trailing_dot_breaks_host_round_trip :
    isDef_ (init_Url (cstr "gemini://münchen.de./x")).scheme = true ∧
    (init_Url (cstr "gemini://münchen.de./x")).host.of (cstr "gemini://münchen.de./x") =
      cstr "münchen.de." ∧
    (∀ l ∈ hostLabels (cstr "münchen.de."),
      punyDecodeLabel tableEnv (punyEncodeLabel tableEnv l) = l) ∧
    punyEncodeUrlHost_String tableEnv (cstr "gemini://münchen.de./x") =
      cstr "gemini://xn--mnchen-3ya.de/x" ∧
    (init_Url (cstr "gemini://xn--mnchen-3ya.de/x")).host.of
      (cstr "gemini://xn--mnchen-3ya.de/x") = cstr "xn--mnchen-3ya.de" ∧
    punyDecodeHost_ tableEnv (cstr "xn--mnchen-3ya.de") = cstr "münchen.de" ∧
    punyDecodeHost_ tableEnv (cstr "xn--mnchen-3ya.de") ≠ cstr "münchen.de." ∧
    (init_Url (cstr "gemini://.münchen.de/x")).host.of (cstr "gemini://.münchen.de/x") =
      cstr ".münchen.de" ∧
    (∀ l ∈ hostLabels (cstr ".münchen.de"),
      punyDecodeLabel tableEnv (punyEncodeLabel tableEnv l) = l) ∧
    punyEncodeUrlHost_String tableEnv (cstr "gemini://.münchen.de/x") =
      cstr "gemini://xn--mnchen-3ya.de/x" ∧
    punyDecodeHost_ tableEnv (cstr "xn--mnchen-3ya.de") ≠ cstr ".münchen.de" := by
  decide

/-- C17, amended.  Round trip of the host.  Let a URL text have a scheme and a
host `h` that neither begins nor ends with a dot, and let every label of `h` be
valid for the codec: decoding the encoded label gives the label back, and the
encoded label has no dot.  Then the encoder replaces `h` by the encoded labels
joined by dots and leaves the rest of the text as it is, and the host decoder
gives `h` back from what replaced it.  When moreover the authority of the text
is made of the host and, if there is one, the port, and what replaced `h` is a
plain host name, that is the host of the encoded text, so decoding the host of
the encoded text gives `h`. -/
theorem host_round_trip (E : Env) (url : List Char)
    (hs : isDef_ (init_Url url).scheme = true)
    (hd : isDef_ (init_Url url).host = true)
    (hh : ((init_Url url).host.of url).head? ≠ some '.')
    (hl : ((init_Url url).host.of url).getLast? ≠ some '.')
    (hvalid : ∀ l ∈ hostLabels ((init_Url url).host.of url),
      punyDecodeLabel E (punyEncodeLabel E l) = l ∧ '.' ∉ punyEncodeLabel E l) :
    punyEncodeUrlHost_String E url =
      url.take (init_Url url).host.start ++
        joinLabels ((hostLabels ((init_Url url).host.of url)).map (punyEncodeLabel E)) ++
        url.drop (init_Url url).host.stop ∧
    punyDecodeHost_ E
        (joinLabels ((hostLabels ((init_Url url).host.of url)).map (punyEncodeLabel E))) =
      (init_Url url).host.of url ∧
    ((init_Url url).host.start = (init_Url url).scheme.stop + 3 →
      (init_Url url).path.start =
        (if isDef_ (init_Url url).port then (init_Url url).port.stop
          else (init_Url url).host.stop) →
      isPlainHost
        (joinLabels ((hostLabels ((init_Url url).host.of url)).map (punyEncodeLabel E))) = true →
      punyDecodeHost_ E ((init_Url (punyEncodeUrlHost_String E url)).host.of
        (punyEncodeUrlHost_String E url)) = (init_Url url).host.of url) := by
  have hne : (init_Url url).host.of url ≠ [] := by
    obtain ⟨hfile, _⟩ := host_def_shape url hd
    obtain ⟨p1, p3, p5, p6, p8, b1, b3, b5, b6, b8, _, _, _, _, _, _, hhost, _⟩ :=
      init_Url_layout url hfile
    obtain ⟨c1, c2, c3⟩ := hhost hd
    exact of_ne_nil _ _ c2 (by omega)
  have h1 := punyEncodeUrlHost_eq_join E url hd hh hl
  have h2 := punyDecodeHost_encoded E _ hne hh hl hvalid
  refine ⟨h1, h2, ?_⟩
  intro ha hb hp
  rw [h1, host_of_replaced url _ hs hd ha hb (Or.inl hp)]
  exact h2

theorem host_round_trip_witness :
    punyEncodeUrlHost_String tableEnv (cstr "gemini://münchen.example.org:1965/bücher?q") =
      cstr "gemini://xn--mnchen-3ya.example.org:1965/bücher?q" ∧
    punyDecodeHost_ tableEnv
        ((init_Url (punyEncodeUrlHost_String tableEnv
          (cstr "gemini://münchen.example.org:1965/bücher?q"))).host.of
        (punyEncodeUrlHost_String tableEnv (cstr "gemini://münchen.example.org:1965/bücher?q"))) =
      cstr "münchen.example.org" := by
  have a := host_round_trip tableEnv (cstr "gemini://münchen.example.org:1965/bücher?q")
    (by decide) (by decide) (by decide) (by decide) (by decide)
  exact ⟨a.1.trans (by decide), (a.2.2 (by decide) (by decide) (by decide)).trans (by decide)⟩

/-- C18, counterexample.  The host `example.org.` of `gemini://example.org./x` is
made of ASCII characters and ends with a dot; the encoder writes
`gemini://example.org/x`, without that dot.  The dot that begins the host of
`gemini://.example.org/x` is lost in the same way. -/
theorem encoder_drops_outer_dots_of_ascii_host :
    isDef_ (init_Url (cstr "gemini://example.org./x")).scheme = true ∧
    (init_Url (cstr "gemini://example.org./x")).host.of (cstr "gemini://example.org./x") =
      cstr "example.org." ∧
    punyEncodeUrlHost_String tableEnv (cstr "gemini://example.org./x") =
      cstr "gemini://example.org/x" ∧
    punyEncodeUrlHost_String tableEnv (cstr "gemini://example.org./x") ≠
      cstr "gemini://example.org./x" ∧
    (init_Url (cstr "gemini://.example.org/x")).host.of (cstr "gemini://.example.org/x") =
      cstr ".example.org" ∧
    punyEncodeUrlHost_String tableEnv (cstr "gemini://.example.org/x") =
      cstr "gemini://example.org/x" := by
  decide

/-- C18, amended.  Let a URL text have a scheme and a host that neither begins
nor ends with a dot, and for every label of the host let the Punycode of the
label be the label followed by a hyphen, as it is for a label of ASCII
characters, or nothing.  Then the encoder writes every label as it is, and the
encoded text is the text itself; the range from the start of the scheme to the
start of the host, which the encoder copies first, begins the text. -/
theorem ascii_host_is_left_as_it_is (E : Env) (url : List Char)
    (hs : isDef_ (init_Url url).scheme = true)
    (hd : isDef_ (init_Url url).host = true)
    (hh : ((init_Url url).host.of url).head? ≠ some '.')
    (hl : ((init_Url url).host.of url).getLast? ≠ some '.')
    (hascii : ∀ l ∈ hostLabels ((init_Url url).host.of url),
      E.punyEncode_Rangecc l = [] ∨ E.punyEncode_Rangecc l = l ++ ['-']) :
    punyEncodeUrlHost_String E url = url ∧
    (∀ l ∈ hostLabels ((init_Url url).host.of url), punyEncodeLabel E l = l) ∧
    (init_Url url).scheme.start = 0 := by
  have hlab : ∀ l ∈ hostLabels ((init_Url url).host.of url), punyEncodeLabel E l = l :=
    fun l hl => punyEncodeLabel_ascii E l (hascii l hl)
  have hmap : (hostLabels ((init_Url url).host.of url)).map (punyEncodeLabel E) =
      hostLabels ((init_Url url).host.of url) := by
    conv => rhs; rw [← List.map_id (hostLabels ((init_Url url).host.of url))]
    exact List.map_congr_left hlab
  obtain ⟨hfile, _⟩ := host_def_shape url hd
  obtain ⟨p1, p3, p5, p6, p8, b1, b3, b5, b6, b8, _, _, es, _, _, _, hhost, _⟩ :=
    init_Url_layout url hfile
  obtain ⟨c1, c2, c3⟩ := hhost hd
  refine ⟨?_, hlab, ?_⟩
  · rw [punyEncodeUrlHost_eq_join E url hd hh hl, hmap, joinLabels_hostLabels]
    exact splice_self _ _ (by omega)
  · have := isDef_of_ite _ _ _ es hs
    rw [this]

theorem ascii_host_is_left_as_it_is_witness :
    punyEncodeUrlHost_String tableEnv (cstr "gemini://user@ab-..example.org:1965/x y") =
      cstr "gemini://user@ab-..example.org:1965/x y" ∧
    punyEncodeUrlHost_String plainEnv (cstr "https://example.org") = cstr "https://example.org" :=
  ⟨(ascii_host_is_left_as_it_is tableEnv (cstr "gemini://user@ab-..example.org:1965/x y")
      (by decide) (by decide) (by decide) (by decide) (by decide)).1,
   (ascii_host_is_left_as_it_is plainEnv (cstr "https://example.org")
      (by decide) (by decide) (by decide) (by decide) (by decide)).1⟩

/-- C19, counterexample.  The host `.a.` has two dots, around its label `a`; the
decoder gives `a`, without dot, also for `a.` and for `..a`.  The encoder writes
`gemini://a/x` for `gemini://.a./x`. -/
theorem outer_dots_of_host_are_dropped :
    dotCount (cstr ".a.") = 2 ∧
    punyDecodeHost_ tableEnv (cstr ".a.") = cstr "a" ∧
    dotCount (punyDecodeHost_ tableEnv (cstr ".a.")) = 0 ∧
    punyDecodeHost_ tableEnv (cstr "a.") = cstr "a" ∧
    punyDecodeHost_ tableEnv (cstr "..a") = cstr "a" ∧
    (init_Url (cstr "gemini://.a./x")).host.of (cstr "gemini://.a./x") = cstr ".a." ∧
    punyEncodeUrlHost_String tableEnv (cstr "gemini://.a./x") = cstr "gemini://a/x" := by
  decide

/-- C19, amended.  For every host that neither begins nor ends with a dot, the
decoded host is the decoded labels of the host joined by dots; when no decoded
label holds a dot these are the labels of the decoded host, which then has as
many dots as the host.  For every URL text with a scheme and a host that
neither begins nor ends with a dot, the encoder replaces the host by its
encoded labels joined by dots; when no encoded label holds a dot these are the
labels of what replaces the host, which then has as many dots as the host.
Empty labels inside the host are kept.  Four examples follow. -/
theorem host_is_mapped_label_by_label :
    (∀ (E : Env) (h : List Char), h.head? ≠ some '.' → h.getLast? ≠ some '.' →
      punyDecodeHost_ E h = joinLabels ((hostLabels h).map (punyDecodeLabel E)) ∧
      ((∀ l ∈ hostLabels h, '.' ∉ punyDecodeLabel E l) →
        hostLabels (punyDecodeHost_ E h) = (hostLabels h).map (punyDecodeLabel E) ∧
        dotCount (punyDecodeHost_ E h) = dotCount h)) ∧
    (∀ (E : Env) (url : List Char), isDef_ (init_Url url).scheme = true →
      isDef_ (init_Url url).host = true →
      ((init_Url url).host.of url).head? ≠ some '.' →
      ((init_Url url).host.of url).getLast? ≠ some '.' →
      punyEncodeUrlHost_String E url =
        url.take (init_Url url).host.start ++
          joinLabels ((hostLabels ((init_Url url).host.of url)).map (punyEncodeLabel E)) ++
          url.drop (init_Url url).host.stop ∧
      ((∀ l ∈ hostLabels ((init_Url url).host.of url), '.' ∉ punyEncodeLabel E l) →
        hostLabels (joinLabels
            ((hostLabels ((init_Url url).host.of url)).map (punyEncodeLabel E))) =
          (hostLabels ((init_Url url).host.of url)).map (punyEncodeLabel E) ∧
        dotCount (joinLabels
            ((hostLabels ((init_Url url).host.of url)).map (punyEncodeLabel E))) =
          dotCount ((init_Url url).host.of url))) ∧
    punyDecodeHost_ tableEnv (cstr "xn--mnchen-3ya..xn--bcher-kva.org") =
      cstr "münchen..bücher.org" ∧
    hostLabels (cstr "xn--mnchen-3ya..xn--bcher-kva.org") =
      [cstr "xn--mnchen-3ya", [], cstr "xn--bcher-kva", cstr "org"] ∧
    hostLabels (cstr "münchen..bücher.org") = [cstr "münchen", [], cstr "bücher", cstr "org"] ∧
    punyEncodeUrlHost_String tableEnv (cstr "gemini://u@münchen..bücher.org:7/x") =
      cstr "gemini://u@xn--mnchen-3ya..xn--bcher-kva.org:7/x" := by
  refine ⟨?_, ?_, by decide, by decide, by decide, by decide⟩
  · intro E h hh hl
    have key := punyDecodeHost_eq_join E h hh hl
    refine ⟨key, fun hdot => ?_⟩
    have hdots : ∀ l ∈ (hostLabels h).map (punyDecodeLabel E), '.' ∉ l := by
      intro l hm
      obtain ⟨x, hx, rfl⟩ := List.mem_map.1 hm
      exact hdot x hx
    rw [key]
    refine ⟨hostLabels_joinLabels _ (by simpa using hostLabels_ne_nil h) hdots, ?_⟩
    rw [dotCount_joinLabels _ hdots, dotCount_eq, List.length_map]
  · intro E url hs hd hh hl
    have key := punyEncodeUrlHost_eq_join E url hd hh hl
    refine ⟨key, fun hdot => ?_⟩
    have hdots : ∀ l ∈ (hostLabels ((init_Url url).host.of url)).map (punyEncodeLabel E),
        '.' ∉ l := by
      intro l hm
      obtain ⟨x, hx, rfl⟩ := List.mem_map.1 hm
      exact hdot x hx
    refine ⟨hostLabels_joinLabels _ (by simpa using hostLabels_ne_nil _) hdots, ?_⟩
    rw [dotCount_joinLabels _ hdots, dotCount_eq, List.length_map]

/-- C20.  Stripping the fragment.  For every text the result of
`urlFragmentStripped_String` is the longest run of characters other than `#` at
the beginning of the text; it is the whole text when the text has no `#`, it
never holds a `#`, and when the text has a `#` the text is the result, a `#`
and what follows. -/
theorem fragment_stripped_is_text_before_first_hash (text : List Char) :
    urlFragmentStripped_String text = text.takeWhile (fun c => c != '#') ∧
    ('#' ∉ text → urlFragmentStripped_String text = text) ∧
    '#' ∉ urlFragmentStripped_String text ∧
    ('#' ∈ text → ∃ rest, text = urlFragmentStripped_String text ++ '#' :: rest) := by
  have key : urlFragmentStripped_String text = text.takeWhile (fun c => c != '#') := by
    unfold urlFragmentStripped_String
    rw [indexOf_String_eq]
    by_cases hm : '#' ∈ text
    · rw [if_pos hm]
      exact take_length_takeWhile _ _
    · rw [if_neg hm]
      simp only []
      symm
      apply takeWhile_all
      intro c hc
      have : c ≠ '#' := fun e => hm (e ▸ hc)
      simpa using this
  refine ⟨key, ?_, ?_, ?_⟩
  · intro hm
    rw [key]
    apply takeWhile_all
    intro c hc
    have : c ≠ '#' := fun e => hm (e ▸ hc)
    simpa using this
  · rw [key]
    intro hm
    have := List.mem_takeWhile_imp hm
    simp at this
  · intro hm
    rw [key]
    have hsplit := (List.takeWhile_append_dropWhile (fun c => c != '#') text).symm
    cases hd : text.dropWhile (fun c => c != '#') with
    | nil =>
      rw [hd, List.append_nil] at hsplit
      rw [hsplit] at hm
      have := List.mem_takeWhile_imp hm
      simp at this
    | cons x rest =>
      have hx := head_dropWhile_stop (fun c => c != '#') text x (by rw [hd]; rfl)
      have hx2 : x = '#' := by simpa using hx
      refine ⟨rest, ?_⟩
      rw [hx2] at hd
      rw [← hd]
      exact hsplit

theorem fragment_stripped_is_text_before_first_hash_witness :
    urlFragmentStripped_String (cstr "gemini://h/p?q#top#more") = cstr "gemini://h/p?q" ∧
    urlFragmentStripped_String (cstr "gemini://h/p?q") = cstr "gemini://h/p?q" ∧
    urlFragmentStripped_String (cstr "#") = [] := by
  have a := fragment_stripped_is_text_before_first_hash (cstr "gemini://h/p?q#top#more")
  have b := fragment_stripped_is_text_before_first_hash (cstr "gemini://h/p?q")
  exact ⟨a.1.trans (by decide), b.2.1 (by decide), by decide⟩

/-- C21.  Termination and result of the space encoder.  For every text the loop
of `urlEncodeSpaces_String` breaks after one round for each space of the text
and a last round that finds none: run for more rounds than the text has spaces
it gives the text with every space replaced by `%20` and every other character
kept in its place, and it is never done in fewer rounds.  The result has no
space, and run on its own result the loop breaks in the first round and gives
the result again. -/
theorem encodeSpaces_terminates_and_replaces (d : List Char) :
    urlEncodeSpaces_String (d.count ' ' + 1) d = some (spacesReplaced d) ∧
    (∀ fuel, d.count ' ' < fuel → urlEncodeSpaces_String fuel d = some (spacesReplaced d)) ∧
    (∀ fuel, fuel ≤ d.count ' ' → urlEncodeSpaces_String fuel d = none) ∧
    ' ' ∉ spacesReplaced d ∧
    (∀ fuel, 0 < fuel →
      urlEncodeSpaces_String fuel (spacesReplaced d) = some (spacesReplaced d)) := by
  refine ⟨(urlEncodeSpaces_loop _ d).1 (Nat.lt_succ_self _),
    fun fuel h => (urlEncodeSpaces_loop fuel d).1 h,
    fun fuel h => (urlEncodeSpaces_loop fuel d).2 h,
    not_mem_spacesReplaced d, ?_⟩
  intro fuel h
  have hc : (spacesReplaced d).count ' ' = 0 := List.count_eq_zero.2 (not_mem_spacesReplaced d)
  have := (urlEncodeSpaces_loop fuel (spacesReplaced d)).1 (by omega)
  rw [this, spacesReplaced_no_space _ (not_mem_spacesReplaced d)]

theorem encodeSpaces_terminates_and_replaces_witness :
    urlEncodeSpaces_String 4 (cstr "a b  c") = some (cstr "a%20b%20%20c") ∧
    urlEncodeSpaces_String 3 (cstr "a b  c") = none ∧
    urlEncodeSpaces_String 1 (cstr "a%20b%20%20c") = some (cstr "a%20b%20%20c") := by
  have a := encodeSpaces_terminates_and_replaces (cstr "a b  c")
  exact ⟨a.1.trans (by decide), a.2.2.1 3 (by decide), (a.2.2.2.2 1 (by decide)).trans (by decide)⟩

/-- C22, the code at the failing input.  The buffer is empty when the first
segment of the paths `/../x` and `../x`, which is `..`, is met, and the scan is
entered with that empty buffer.  Entered with an empty buffer the scan stops
before the first character of the buffer, at a negative offset; entered with a
buffer that is not empty it stops within the buffer. -/
theorem scan_leaves_empty_buffer :
    (∀ E : Env, prevPathSeg_ E [] < 0) ∧
    (∀ (E : Env) (buf : List Char), buf ≠ [] →
      0 ≤ prevPathSeg_ E buf ∧ prevPathSeg_ E buf < buf.length) ∧
    (∀ (E : Env) (absPath : Bool),
      cleanStep E absPath [] (cstr "..") = truncate_Block [] (prevPathSeg_ E [])) ∧
    (init_Url (cstr "/../x")).path.of (cstr "/../x") = cstr "/../x" ∧
    nextSplit_Rangecc (cstr "/../x") '/' = [cstr "..", cstr "x"] ∧
    (init_Url (cstr "../x")).path.of (cstr "../x") = cstr "../x" ∧
    nextSplit_Rangecc (cstr "../x") '/' = [cstr "..", cstr "x"] ∧
    prevPathSeg_ plainEnv [] = -1 := by
  refine ⟨?_, ?_, ?_, by decide, by decide, by decide, by decide, by decide⟩
  · intro E
    unfold prevPathSeg_
    simp only []
    omega
  · intro E buf hne
    rw [prevPathSeg_cons E buf hne]
    have := scanBack_lt buf.reverse (by simpa using hne)
    rw [List.length_reverse] at this
    omega
  · intro E absPath
    unfold cleanStep
    rw [if_pos (by decide)]

/-- C23, counterexample.  The path of the text `x/../` is the whole text and
does not start with a slash; its only segment is taken back by the `..`, and the
slash for the end of the path is written to the empty buffer: the cleaned text
is `/`, whose path starts with a slash.  The same holds for `./`, and
`file://x/../` is cleaned to `file:///`. -/
theorem relative_path_is_cleaned_to_slash :
    (init_Url (cstr "x/../")).path.of (cstr "x/../") = cstr "x/../" ∧
    startsWith (cstr "x/../") (cstr "/") = false ∧
    cleanPath plainEnv (cstr "x/../") = cstr "/" ∧
    cleanUrlPath_String plainEnv (cstr "x/../") = cstr "/" ∧
    (init_Url (cstr "/")).path.of (cstr "/") = cstr "/" ∧
    startsWith (cstr "/") (cstr "/") = true ∧
    (init_Url (cstr "./")).path.of (cstr "./") = cstr "./" ∧
    cleanUrlPath_String plainEnv (cstr "./") = cstr "/" ∧
    (init_Url (cstr "file://x/../")).path.of (cstr "file://x/../") = cstr "x/../" ∧
    cleanUrlPath_String plainEnv (cstr "file://x/../") = cstr "file:///" := by
  decide

/-- C23, amended.  For every URL text: when its path ends with a slash, the
cleaned path ends with a slash; when its path does not start with a slash, the
cleaned path does not start with a slash either, unless it is the slash alone,
which takes a path that ends with a slash.  The cleaned path is what the result
holds in place of the path, and `/a/./b/../c/` is cleaned to `/a/c/`. -/
theorem trailing_slash_is_kept_and_leading_slash_not_added (E : Env) (d : List Char) :
    (endsWith ((init_Url d).path.of d) (cstr "/") = true →
      endsWith (cleanPath E ((init_Url d).path.of d)) (cstr "/") = true) ∧
    (startsWith ((init_Url d).path.of d) (cstr "/") = false →
      startsWith (cleanPath E ((init_Url d).path.of d)) (cstr "/") = false ∨
      (cleanPath E ((init_Url d).path.of d) = cstr "/" ∧
        endsWith ((init_Url d).path.of d) (cstr "/") = true)) ∧
    cleanUrlPath_String E d =
      d.take (init_Url d).path.start ++ cleanPath E ((init_Url d).path.of d) ++
        d.drop (init_Url d).path.stop ∧
    cleanUrlPath_String E (cstr "/a/./b/../c/") = cstr "/a/c/" :=
  ⟨cleanPath_endsWith E _, cleanPath_startsWith E _, cleanUrlPath_String_eq E d, rfl⟩

theorem trailing_slash_is_kept_and_leading_slash_not_added_witness :
    endsWith (cleanPath plainEnv (cstr "/a/./b/../c/")) (cstr "/") = true ∧
    startsWith (cleanPath plainEnv (cstr "a/../b")) (cstr "/") = false ∧
    cleanUrlPath_String plainEnv (cstr "a/../b") = cstr "b" ∧
    cleanUrlPath_String plainEnv (cstr "gemini://h/a/./b/../c/?q") = cstr "gemini://h/a/c/?q" := by
  have a := trailing_slash_is_kept_and_leading_slash_not_added plainEnv (cstr "/a/./b/../c/")
  have b := trailing_slash_is_kept_and_leading_slash_not_added plainEnv (cstr "a/../b")
  have h1 : (init_Url (cstr "/a/./b/../c/")).path.of (cstr "/a/./b/../c/") =
      cstr "/a/./b/../c/" := by decide
  have h2 : (init_Url (cstr "a/../b")).path.of (cstr "a/../b") = cstr "a/../b" := by decide
  rw [h1] at a
  rw [h2] at b
  refine ⟨a.1 (by decide), ?_, by decide, by decide⟩
  rcases b.2.1 (by decide) with h | ⟨h, _⟩
  · exact h
  · exact absurd h (by decide)

/-- C24.  Only the path is rewritten.  For every URL text `t`, with the ranges
of its decomposition: `t` is the text before the path, the path and the text
behind the path; the result of `cleanUrlPath_String` is the text before the
path, the cleaned path and the text behind the path; it is `t` itself when the
cleaned path is the path.  The ranges of scheme, host and port cover in the
result what they cover in `t`, and the text behind the path, which begins with
the query and the fragment, follows the cleaned path in the result. -/
theorem only_the_path_is_rewritten (E : Env) (t : List Char) :
    t = t.take (init_Url t).path.start ++ (init_Url t).path.of t ++
      t.drop (init_Url t).path.stop ∧
    cleanUrlPath_String E t =
      t.take (init_Url t).path.start ++ cleanPath E ((init_Url t).path.of t) ++
        t.drop (init_Url t).path.stop ∧
    (cleanPath E ((init_Url t).path.of t) = (init_Url t).path.of t →
      cleanUrlPath_String E t = t) ∧
    (init_Url t).scheme.of (cleanUrlPath_String E t) = (init_Url t).scheme.of t ∧
    (init_Url t).host.of (cleanUrlPath_String E t) = (init_Url t).host.of t ∧
    (init_Url t).port.of (cleanUrlPath_String E t) = (init_Url t).port.of t ∧
    (cleanUrlPath_String E t).drop
        ((init_Url t).path.start + (cleanPath E ((init_Url t).path.of t)).length) =
      t.drop (init_Url t).path.stop ∧
    (∃ rest, t.drop (init_Url t).path.stop =
      (init_Url t).query.of t ++ ((init_Url t).fragment.of t ++ rest)) := by
  have hb := init_Url_path_bounds t
  have hself := splice_self (init_Url t).path t hb.1
  have heq := cleanUrlPath_String_eq E t
  have hbefore := of_before_path t
    (cleanPath E ((init_Url t).path.of t) ++ t.drop (init_Url t).path.stop)
  rw [← List.append_assoc, ← heq] at hbefore
  refine ⟨hself.symm, heq, ?_, hbefore.1, hbefore.2.1, hbefore.2.2, ?_, drop_path_stop t⟩
  · intro h
    rw [heq, h]
    exact hself
  · rw [heq, List.append_assoc]
    have hl : (t.take (init_Url t).path.start).length = (init_Url t).path.start := by
      rw [List.length_take]
      omega
    rw [← List.append_assoc]
    exact drop_append_len _ _ _ (by rw [List.length_append, hl])

theorem only_the_path_is_rewritten_witness :
    cleanUrlPath_String plainEnv (cstr "gemini://u@h:7/a/./b/../c?x=/../y#z/./w") =
      cstr "gemini://u@h:7/a/c?x=/../y#z/./w" ∧
    cleanUrlPath_String plainEnv (cstr "gemini://h/a/c?x=./y") = cstr "gemini://h/a/c?x=./y" := by
  have a := only_the_path_is_rewritten plainEnv (cstr "gemini://u@h:7/a/./b/../c?x=/../y#z/./w")
  have b := only_the_path_is_rewritten plainEnv (cstr "gemini://h/a/c?x=./y")
  exact ⟨a.2.1.trans (by decide), b.2.2.1 (by decide)⟩

end Lagrange
